import Mathlib

/-!
# Verification of `priority` (HTTP/2 priority tree scheduler)

Shallow embedding of `src/priority/priority.py`: the `Stream` node class and
the `PriorityTree` class with its public operations, together with proofs
about the claims of the specification.

Modelling conventions, justified against the Python source:

* Python's `queue.PriorityQueue` of `(level, stream)` tuples is modelled as a
  list kept sorted by the lexicographic key `(level, stream_id)`; `put` is
  sorted insertion and `get` takes the head.  Tuple comparison in Python
  compares `level` first and falls back to `Stream.__lt__`, which compares
  `stream_id` (lines 143-147 of the source), so for entries with pairwise
  distinct `(level, stream_id)` keys the heap behaves exactly like this
  sorted list.
* Python integers are `Int`; `//` and `%` are floor division and floor
  modulus (`Int.fdiv` / `Int.fmod`), which agree with Python's semantics,
  except that Python raises `ZeroDivisionError` for a zero divisor, which is
  modelled explicitly.  Stream ids are `Nat`.
* `Stream.children` holds references to the same child objects that appear
  in `child_queue`; list membership and removal on it use `Stream.__eq__`,
  which compares only `stream_id`.  We therefore store the `stream_id`s in
  `children` and keep the unique child objects in `child_queue`.
* Exceptions are modelled by an explicit error type; `try/finally` in
  `Stream.schedule` is modelled by always running the re-insertion pass on
  the popped entries before propagating the result.
-/

namespace PriorityPy

/-- The exceptions that can escape the modelled code: Python's `KeyError`
(mapping lookup failure), `AssertionError` (failed `assert`),
`AttributeError` (attribute access on `None`), `queue.Empty`,
`ZeroDivisionError`, and the library's own `DeadlockError`. -/
inductive PyErr where
  | keyError
  | assertionError
  | attributeError
  | empty
  | zeroDivisionError
  | deadlockError
deriving DecidableEq, Repr

/-- `Stream` from the source (lines 29-41): priority information for a given
stream.  `child_queue` is the priority queue of `(level, child)` pairs, kept
sorted by `(level, stream_id)`.  The `parent` back-pointer of the source is
not stored: it always equals the unique tree parent, and is recovered by
search where needed (`PriorityTree.remove_stream`). -/
inductive Stream where
  | mk (stream_id : Nat) (weight : Int) (children : List Nat)
       (child_queue : List (Int × Stream)) (active : Bool)
       (last_weight : Int) (_defecit : Int)

def Stream.stream_id : Stream → Nat
  | .mk i _ _ _ _ _ _ => i

def Stream.weight : Stream → Int
  | .mk _ w _ _ _ _ _ => w

def Stream.children : Stream → List Nat
  | .mk _ _ ch _ _ _ _ => ch

def Stream.child_queue : Stream → List (Int × Stream)
  | .mk _ _ _ q _ _ _ => q

def Stream.active : Stream → Bool
  | .mk _ _ _ _ a _ _ => a

def Stream.last_weight : Stream → Int
  | .mk _ _ _ _ _ lw _ => lw

def Stream._defecit : Stream → Int
  | .mk _ _ _ _ _ _ d => d

/-- `Stream.__init__` (lines 33-41): a fresh stream is active, has no
children, an empty queue, `last_weight = 0` and `_defecit = 0`. -/
def Stream.init (stream_id : Nat) (weight : Int) : Stream :=
  .mk stream_id weight [] [] true 0 0

/-- Comparison used by the priority queue on `(level, child)` tuples:
lexicographic on the level and then on the child's `stream_id`
(`Stream.__lt__`/`__le__`, lines 143-153). -/
def entryLE (a b : Int × Stream) : Bool :=
  decide (a.1 < b.1) || (decide (a.1 = b.1) && decide (a.2.stream_id ≤ b.2.stream_id))

/-- `PriorityQueue.put`: insert an entry at its sorted position. -/
def qput (e : Int × Stream) : List (Int × Stream) → List (Int × Stream)
  | [] => [e]
  | f :: rest => if entryLE e f then e :: f :: rest else f :: qput e rest

/-- `Stream.add_child` (lines 43-49): record the child's id in `children` and
put `(self.last_weight, child)` on the priority queue.  (The source also sets
`child.parent = self`, which this embedding recovers structurally.) -/
def Stream.add_child : Stream → Stream → Stream
  | .mk i w ch q a lw d, child =>
    .mk i w (ch ++ [child.stream_id]) (qput (lw, child) q) a lw d

/-- `Stream.add_child_exclusive` (lines 51-62): the previous children all
become children of the new child, which becomes the sole child of `self`,
with `children`, `child_queue` and `last_weight` reset.  In the source the
child object is enqueued first and then mutated in place; with values we add
the old children to `child` before enqueueing it, which yields the same final
state.  The old children are taken from the queue (the same objects the
source reads from `self.children`); each is enqueued at `child.last_weight`,
so the order of this loop does not affect the resulting queue. -/
def Stream.add_child_exclusive : Stream → Stream → Stream
  | .mk i w _ q a _ d, child =>
    Stream.add_child (.mk i w [] [] a 0 d)
      ((q.map Prod.snd).foldl Stream.add_child child)

/-- `Stream.remove_child` (lines 64-88): drop the child from `children`
(`list.remove` removes the first element `==` it, i.e. the first matching
id), rebuild the queue keeping every entry whose stream is not `== child`
(draining a sorted queue and re-`put`ting preserves the sorted list, so this
is a filter), then `add_child` every child of the removed child.  The
grandchild objects are read from the removed child's queue (the same objects
the source reads from `child.children`); each is enqueued at the unchanged
`self.last_weight`, so the loop order does not affect the resulting queue. -/
def Stream.remove_child : Stream → Stream → Stream
  | .mk i w ch q a lw d, child =>
    let s := Stream.mk i w (ch.erase child.stream_id)
      (q.filter (fun e => !(e.2.stream_id == child.stream_id))) a lw d
    (child.child_queue.map Prod.snd).foldl Stream.add_child s

/-- Result of the search loop inside `Stream.schedule`: an active descendant
was found, or the queue was exhausted (`queue.Empty` escapes), or some other
exception is propagating. -/
inductive SearchRes where
  | found (id : Nat)
  | exhausted
  | failed (e : PyErr)

/-- Field update used by `finalize` for `child._defecit = ...`. -/
def Stream.setDefecit : Stream → Int → Stream
  | .mk i w ch q a lw _, d => .mk i w ch q a lw d

/-- The `finally` block of `Stream.schedule` (lines 120-125): for each popped
`(level, child)` in pop order, set `self.last_weight = level`, advance the
level by `(256 + child._defecit) // child.weight`, set `child._defecit` to
`(256 + child._defecit) % child.weight` and re-`put` the entry.  A zero
weight raises `ZeroDivisionError` there, aborting the loop after the
`last_weight` assignment, so the remaining popped entries are lost. -/
def finalize : Stream → List (Int × Stream) → Option PyErr × Stream
  | s, [] => (none, s)
  | .mk i w ch q a _ d, (level, child) :: rest =>
    if child.weight = 0 then
      (some .zeroDivisionError, .mk i w ch q a level d)
    else
      finalize
        (.mk i w ch
          (qput (level + Int.fdiv (256 + child._defecit) child.weight,
                 child.setDefecit (Int.fmod (256 + child._defecit) child.weight)) q)
          a level d)
        rest

mutual

/-- `Stream.schedule` (lines 90-127).  Returns the chosen stream id (or the
propagating exception) together with the updated stream.  The assertion
`assert not self.active` fails on an active stream.  The search loop pops
entries until it finds an active child or a child whose recursive `schedule`
succeeds; `queue.Empty` from a child is swallowed and the loop continues.
The `finally` re-insertion always runs; an exception raised there replaces
the in-flight result. -/
def Stream.schedule : Stream → Except PyErr Nat × Stream
  | .mk i w ch q a lw d =>
    if a then (.error .assertionError, .mk i w ch q a lw d)
    else
      match goSearch q with
      | (res, popped, remaining) =>
        match finalize (.mk i w ch remaining a lw d) popped with
        | (some e, s') => (.error e, s')
        | (none, s') =>
          match res with
          | .found n => (.ok n, s')
          | .exhausted => (.error .empty, s')
          | .failed e => (.error e, s')
termination_by structural s => s

/-- The search loop of `Stream.schedule` (lines 104-119) on the (sorted)
queue: returns the search result, the popped entries in pop order (with the
children's states updated by their recursive `schedule` calls) and the
remaining queue. -/
def goSearch : List (Int × Stream) →
    SearchRes × List (Int × Stream) × List (Int × Stream)
  | [] => (.exhausted, [], [])
  | (l, c) :: rest =>
    if c.active then (.found c.stream_id, [(l, c)], rest)
    else
      match Stream.schedule c with
      | (.ok n, c') => (.found n, [(l, c')], rest)
      | (.error .empty, c') =>
        match goSearch rest with
        | (r, p, rem) => (r, (l, c') :: p, rem)
      | (.error e, c') => (.failed e, [(l, c')], rest)
termination_by structural q => q

end

/-- Field update used by `PriorityTree.__init__`/`block`/`unblock` for
`stream.active = ...`. -/
def Stream.setActive : Stream → Bool → Stream
  | .mk i w ch q _ lw d, a => .mk i w ch q a lw d

mutual

/-- Apply `f` to the node with id `i`, reached through the child queues.  In
the source the `_streams` index maps each id to its node object; in every
state the index can reach, at most one tree node carries a given id (the
root always carries id 0 and is found first). -/
def updateAt (i : Nat) (f : Stream → Stream) : Stream → Stream
  | .mk id w ch q a lw d =>
    if id = i then f (.mk id w ch q a lw d)
    else .mk id w ch (updateAtQ i f q) a lw d
termination_by structural s => s

/-- `updateAt` mapped over a child queue. -/
def updateAtQ (i : Nat) (f : Stream → Stream) :
    List (Int × Stream) → List (Int × Stream)
  | [] => []
  | (l, c) :: rest => (l, updateAt i f c) :: updateAtQ i f rest
termination_by structural q => q

end

mutual

/-- The id of the node whose child queue holds the node with id `i`; `none`
when no queue holds `i`.  This realises the `child.parent` back-pointer of
the source, which always points at the node's unique tree parent (and is
`None` exactly for the root). -/
def findParentId (i : Nat) : Stream → Option Nat
  | .mk id _ _ q _ _ _ =>
    if q.any (fun e => e.2.stream_id == i) then some id
    else findParentIdQ i q
termination_by structural s => s

/-- `findParentId` over a child queue. -/
def findParentIdQ (i : Nat) : List (Int × Stream) → Option Nat
  | [] => none
  | (_, c) :: rest =>
    match findParentId i c with
    | some p => some p
    | none => findParentIdQ i rest
termination_by structural q => q

end

mutual

/-- Apply `parent.remove_child(child)` for the child with id `cid` at the
unique node whose child queue holds that child (the node the child's
`parent` pointer designates in the source); identity when no queue holds
`cid`. -/
def removeChildById (cid : Nat) : Stream → Stream
  | .mk i w ch q a lw d =>
    if q.any (fun e => e.2.stream_id == cid) then
      match q.find? (fun e => e.2.stream_id == cid) with
      | some e => (Stream.mk i w ch q a lw d).remove_child e.2
      | none => .mk i w ch q a lw d
    else .mk i w ch (removeChildByIdQ cid q) a lw d
termination_by structural s => s

/-- `removeChildById` over a child queue. -/
def removeChildByIdQ (cid : Nat) : List (Int × Stream) → List (Int × Stream)
  | [] => []
  | (l, c) :: rest => (l, removeChildById cid c) :: removeChildByIdQ cid rest
termination_by structural q => q

end

/-- `PriorityTree` (lines 168-179): the root stream object and the
`_streams` index.  The index maps stream ids to node objects; since every
id keys the unique tree node carrying it, the model keeps the list of keys
and resolves objects by id in the tree. -/
structure PriorityTree where
  _root_stream : Stream
  _streams : List Nat

/-- `PriorityTree.__init__` (lines 174-179): root with id 0, weight 1,
marked inactive; the index holds `{0: root}`. -/
def PriorityTree.init : PriorityTree :=
  ⟨(Stream.init 0 1).setActive false, [0]⟩

/-- `PriorityTree.insert_stream` (lines 188-219).  `assert stream_id not in
self._streams`; a new `Stream` is created; with `exclusive` the
`depends_on is not None` assertion is checked and the parent gets the child
exclusively; otherwise a falsy `depends_on` (absent or 0) defaults to 0 and
the parent (`KeyError` if the id is not indexed) gets the child. -/
def PriorityTree.insert_stream (t : PriorityTree) (stream_id : Nat)
    (depends_on : Option Nat) (weight : Int) (exclusive : Bool) :
    Except PyErr Unit × PriorityTree :=
  if t._streams.contains stream_id then (.error .assertionError, t)
  else
    let stream := Stream.init stream_id weight
    if exclusive then
      match depends_on with
      | none => (.error .assertionError, t)
      | some dep =>
        if t._streams.contains dep then
          (.ok (), ⟨updateAt dep (fun p => p.add_child_exclusive stream) t._root_stream,
                    t._streams ++ [stream_id]⟩)
        else (.error .keyError, t)
    else
      let dep := depends_on.getD 0
      if t._streams.contains dep then
        (.ok (), ⟨updateAt dep (fun p => p.add_child stream) t._root_stream,
                  t._streams ++ [stream_id]⟩)
      else (.error .keyError, t)

/-- `PriorityTree.remove_stream` (lines 221-227): pop the node from the
index (`KeyError` if absent), read its `parent` pointer (`AttributeError`
when it is `None`, i.e. for the root — note the index entry is already
gone), and have the parent remove it. -/
def PriorityTree.remove_stream (t : PriorityTree) (stream_id : Nat) :
    Except PyErr Unit × PriorityTree :=
  if t._streams.contains stream_id then
    let streams' := t._streams.erase stream_id
    match findParentId stream_id t._root_stream with
    | none => (.error .attributeError, ⟨t._root_stream, streams'⟩)
    | some _ => (.ok (), ⟨removeChildById stream_id t._root_stream, streams'⟩)
  else (.error .keyError, t)

/-- `PriorityTree.block` (lines 229-233): `self._streams[stream_id].active
= False`; `KeyError` when the id is not indexed. -/
def PriorityTree.block (t : PriorityTree) (stream_id : Nat) :
    Except PyErr Unit × PriorityTree :=
  if t._streams.contains stream_id then
    (.ok (), ⟨updateAt stream_id (fun s => s.setActive false) t._root_stream, t._streams⟩)
  else (.error .keyError, t)

/-- `PriorityTree.unblock` (lines 235-240): `self._streams[stream_id].active
= True`; `KeyError` when the id is not indexed. -/
def PriorityTree.unblock (t : PriorityTree) (stream_id : Nat) :
    Except PyErr Unit × PriorityTree :=
  if t._streams.contains stream_id then
    (.ok (), ⟨updateAt stream_id (fun s => s.setActive true) t._root_stream, t._streams⟩)
  else (.error .keyError, t)

/-- `PriorityTree.__next__` (lines 246-250): delegate to
`self._root_stream.schedule()`, translating `queue.Empty` into
`DeadlockError`; any other exception propagates unchanged. -/
def PriorityTree.next (t : PriorityTree) : Except PyErr Nat × PriorityTree :=
  match t._root_stream.schedule with
  | (.ok n, r) => (.ok n, ⟨r, t._streams⟩)
  | (.error .empty, r) => (.error .deadlockError, ⟨r, t._streams⟩)
  | (.error e, r) => (.error e, ⟨r, t._streams⟩)

mutual

/-- Is any proper descendant of this node (any stream reachable through the
child queues) active? -/
def anyActiveBelow : Stream → Bool
  | .mk _ _ _ q _ _ _ => anyActiveBelowQ q
termination_by structural s => s

/-- `anyActiveBelow` over a child queue: some stream in the queue is active
or has an active descendant. -/
def anyActiveBelowQ : List (Int × Stream) → Bool
  | [] => false
  | (_, c) :: rest => c.active || anyActiveBelow c || anyActiveBelowQ rest
termination_by structural q => q

end

mutual

/-- Is every proper descendant of this node active?  (The hypothesis of
the spec's scheduling properties: "streams `S` all active".) -/
def allBelowActive : Stream → Bool
  | .mk _ _ _ q _ _ _ => allBelowActiveQ q
termination_by structural s => s

/-- `allBelowActive` over a child queue. -/
def allBelowActiveQ : List (Int × Stream) → Bool
  | [] => true
  | (_, c) :: rest => c.active && allBelowActive c && allBelowActiveQ rest
termination_by structural q => q

end

mutual

/-- `goodPick s i`: the subtree below `s` contains an active stream with id
`i` all of whose proper ancestors strictly below `s` are inactive. -/
def goodPick : Stream → Nat → Bool
  | .mk _ _ _ q _ _ _, i => goodPickQ q i
termination_by structural s => s

/-- `goodPick` over a child queue. -/
def goodPickQ : List (Int × Stream) → Nat → Bool
  | [], _ => false
  | (_, c) :: rest, i =>
    (if c.active then c.stream_id == i else goodPick c i) || goodPickQ rest i
termination_by structural q => q

end

mutual

/-- Every node of the subtree (the node itself included) has a nonzero
weight, so no division by zero can occur while scheduling. -/
def allWeightsNZ : Stream → Bool
  | .mk _ w _ q _ _ _ => !(w == 0) && allWeightsNZQ q
termination_by structural s => s

/-- `allWeightsNZ` over a child queue. -/
def allWeightsNZQ : List (Int × Stream) → Bool
  | [] => true
  | (_, c) :: rest => allWeightsNZ c && allWeightsNZQ rest
termination_by structural q => q

end

mutual

/-- At every node of the subtree, the multiset of stream ids in `children`
equals the multiset of stream ids in `child_queue` (invariant 4 of §3.2). -/
def msEqAll : Stream → Bool
  | .mk _ _ ch q _ _ _ =>
    decide (ch.Perm (q.map (fun e => e.2.stream_id))) && msEqAllQ q
termination_by structural s => s

/-- `msEqAll` over a child queue. -/
def msEqAllQ : List (Int × Stream) → Bool
  | [] => true
  | (_, c) :: rest => msEqAll c && msEqAllQ rest
termination_by structural q => q

end

mutual

/-- At every node of the subtree, the `children` list has no duplicate
ids. -/
def nodupAll : Stream → Bool
  | .mk _ _ ch q _ _ _ => decide ch.Nodup && nodupAllQ q
termination_by structural s => s

/-- `nodupAll` over a child queue. -/
def nodupAllQ : List (Int × Stream) → Bool
  | [] => true
  | (_, c) :: rest => nodupAll c && nodupAllQ rest
termination_by structural q => q

end

mutual

/-- The ids of all streams strictly below this node (one occurrence per
queue entry, in queue order). -/
def subIds : Stream → List Nat
  | .mk _ _ _ q _ _ _ => subIdsQ q
termination_by structural s => s

/-- `subIds` over a child queue. -/
def subIdsQ : List (Int × Stream) → List Nat
  | [] => []
  | (_, c) :: rest => c.stream_id :: (subIds c ++ subIdsQ rest)
termination_by structural q => q

end

/-- The ids of a list of streams together with all their descendants'
ids. -/
def subIdsL : List Stream → List Nat
  | [] => []
  | g :: rest => g.stream_id :: (subIds g ++ subIdsL rest)

mutual

/-- Combined structural well-formedness, checked at every node of the
subtree: `children` is a permutation of the queue's ids (invariant 4 of
§3.2), `children` has no duplicates, and the weight is nonzero. -/
def wfAll : Stream → Bool
  | .mk _ w ch q _ _ _ =>
    decide (ch.Perm (q.map (fun e => e.2.stream_id))) && decide ch.Nodup &&
      !(w == 0) && wfAllQ q
termination_by structural s => s

/-- `wfAll` over a child queue. -/
def wfAllQ : List (Int × Stream) → Bool
  | [] => true
  | (_, c) :: rest => wfAll c && wfAllQ rest
termination_by structural q => q

end

/-- Structural well-formedness of a whole tree state: the root carries id
0, every node satisfies `wfAll`'s per-node checks, no id occurs twice below
the root, every id below the root is indexed, and the index has no
duplicate keys. -/
def TreeWF (t : PriorityTree) : Prop :=
  t._root_stream.stream_id = 0 ∧
  wfAll t._root_stream = true ∧
  (subIds t._root_stream).Nodup ∧
  (∀ i ∈ subIds t._root_stream, i ∈ t._streams) ∧
  t._streams.Nodup

/-- States reachable from the fresh tree by public operations (error
outcomes included) in which every inserted stream has a nonzero weight. -/
inductive ReachNZ : PriorityTree → Prop where
  | init : ReachNZ .init
  | insert_stream (t id dep w ex) : ReachNZ t → w ≠ 0 →
      ReachNZ (t.insert_stream id dep w ex).2
  | remove_stream (t id) : ReachNZ t → ReachNZ (t.remove_stream id).2
  | block (t id) : ReachNZ t → ReachNZ (t.block id).2
  | unblock (t id) : ReachNZ t → ReachNZ (t.unblock id).2
  | next (t) : ReachNZ t → ReachNZ t.next.2

/-- States reachable from the fresh tree by public operations (error
outcomes included) in which `unblock` is never called on id 0. -/
inductive ReachNoU0 : PriorityTree → Prop where
  | init : ReachNoU0 .init
  | insert_stream (t id dep w ex) : ReachNoU0 t →
      ReachNoU0 (t.insert_stream id dep w ex).2
  | remove_stream (t id) : ReachNoU0 t → ReachNoU0 (t.remove_stream id).2
  | block (t id) : ReachNoU0 t → ReachNoU0 (t.block id).2
  | unblock (t id) : ReachNoU0 t → id ≠ 0 → ReachNoU0 (t.unblock id).2
  | next (t) : ReachNoU0 t → ReachNoU0 t.next.2

/-! ### The flat all-active configuration

For the fairness and periodicity claims the tree is built by inserting a
list of `(id, weight)` pairs directly under the root, and every stream is
active.  In that situation `schedule` pops exactly one entry per call, so
the whole system is the weighted round robin on the root's queue.  The
proofs relate the real state to a counter abstraction: a child of weight
`w` popped `k` times sits at level `⌊256·k/w⌋` with deficit `256·k mod w`. -/

/-- The leaf stream of the flat configuration for id `i`, weight `w`, after
having been popped `k` times. -/
def flatLeaf (i w k : Nat) : Stream :=
  .mk i (w : Int) [] [] true 0 (Int.fmod (256 * k) w)

/-- The level of a weight-`w` child after `k` pops. -/
def flatLevel (w k : Nat) : Int := Int.fdiv (256 * k) w

/-- Queue entry of the flat configuration for the counter triple
`(id, weight, pops)`. -/
def flatEntry (c : Nat × Nat × Nat) : Int × Stream :=
  (flatLevel c.2.1 c.2.2, flatLeaf c.1 c.2.1 c.2.2)

/-- Scheduling key of a counter triple: `(level, id)`, compared
lexicographically. -/
def keyOf (c : Nat × Nat × Nat) : Int × Nat := (flatLevel c.2.1 c.2.2, c.1)

/-- Strict lexicographic comparison of scheduling keys. -/
def keyLTb (a b : Int × Nat) : Bool :=
  decide (a.1 < b.1) || (decide (a.1 = b.1) && decide (a.2 < b.2))

/-- First minimum of `best :: rest` under the scheduling key. -/
def argminE (best : Nat × Nat × Nat) : List (Nat × Nat × Nat) → Nat × Nat × Nat
  | [] => best
  | c :: rest => argminE (if keyLTb (keyOf c) (keyOf best) then c else best) rest

/-- The id the weighted round robin emits from counter state `C`. -/
def selC : List (Nat × Nat × Nat) → Nat
  | [] => 0
  | c :: rest => (argminE c rest).1

/-- Increment the pop counter of id `i`. -/
def bumpC (C : List (Nat × Nat × Nat)) (i : Nat) : List (Nat × Nat × Nat) :=
  C.map fun c => if c.1 = i then (c.1, c.2.1, c.2.2 + 1) else c

/-- One abstract step: bump the emitted id. -/
def stepC (C : List (Nat × Nat × Nat)) : List (Nat × Nat × Nat) :=
  bumpC C (selC C)

/-- The id emitted at (0-based) position `n` of the abstract round robin. -/
def outC (C : List (Nat × Nat × Nat)) (n : Nat) : Nat :=
  selC (stepC^[n] C)

/-- Build the tree of the flat configuration: insert every `(id, weight)`
pair directly under the root (no `depends_on`), in list order. -/
def buildFlat (L : List (Nat × Nat)) : PriorityTree :=
  L.foldl (fun t c => (t.insert_stream c.1 none (c.2 : Int) false).2) .init

/-- The state of the tree after `n` calls to `next`. -/
def stepTree (t : PriorityTree) : PriorityTree := t.next.2

/-- The result of the `n+1`-st call to `next` (position `n`, 0-based),
`0` standing in for an error outcome. -/
def outT (t : PriorityTree) (n : Nat) : Nat :=
  match (stepTree^[n] t).next.1 with
  | .ok i => i
  | .error _ => 0

/-- The initial counter state of the flat configuration. -/
def initC (L : List (Nat × Nat)) : List (Nat × Nat × Nat) :=
  L.map fun c => (c.1, c.2, 0)

/-- Hypotheses on a flat configuration: at least one stream, pairwise
distinct nonzero ids, weights in `1..=256`. -/
def GoodL (L : List (Nat × Nat)) : Prop :=
  L ≠ [] ∧ (L.map Prod.fst).Nodup ∧ (∀ c ∈ L, c.1 ≠ 0 ∧ 1 ≤ c.2 ∧ c.2 ≤ 256)

/-- Total pop count recorded for id `i` in a counter state. -/
def cnt (C : List (Nat × Nat × Nat)) (i : Nat) : Nat :=
  (C.map (fun c => if c.1 = i then c.2.2 else 0)).sum

/-- Total weight recorded for id `i` in a counter state. -/
def wcnt (C : List (Nat × Nat × Nat)) (i : Nat) : Nat :=
  (C.map (fun c => if c.1 = i then c.2.1 else 0)).sum

/-- Advance a counter triple by one full period of its own weight. -/
def addW (c : Nat × Nat × Nat) : Nat × Nat × Nat := (c.1, c.2.1, c.2.2 + c.2.1)

/-- Side conditions on a counter state: distinct ids, weights in
`1..=256`. -/
def GoodC (C : List (Nat × Nat × Nat)) : Prop :=
  (C.map Prod.fst).Nodup ∧ ∀ c ∈ C, 1 ≤ c.2.1 ∧ c.2.1 ≤ 256

/-- The tree state of a flat all-active configuration described by counter
state `C`: the root is inactive with a sorted queue holding exactly the
entries of `C` (levels, deficits and activity determined by the counters);
only the root's `children` list and `last_weight` vary freely, neither is
read while scheduling a flat configuration. -/
def FlatSt (C : List (Nat × Nat × Nat)) (t : PriorityTree) : Prop :=
  ∃ ch lw Q, t._root_stream = Stream.mk 0 1 ch Q false lw 0 ∧
    List.Pairwise (fun a b => entryLE a b = true) Q ∧ Q.Perm (C.map flatEntry)

/-- Sum of the weights of a flat configuration: the period `P`. -/
def psum (L : List (Nat × Nat)) : Nat := (L.map Prod.snd).sum

/-- Total pop count of a counter state. -/
def sumk (C : List (Nat × Nat × Nat)) : Nat := (C.map (fun c => c.2.2)).sum

/-- The counter state after the warm-up: every stream popped once. -/
def allOnes (L : List (Nat × Nat)) : List (Nat × Nat × Nat) :=
  L.map fun l => (l.1, l.2, 1)

/-- The window of `n` consecutive `next()` results starting at (0-based)
position `a`. -/
def outs (t : PriorityTree) (a n : Nat) : List Nat :=
  (List.range n).map fun j => outT t (a + j)

/-- A two-level tree: stream 1 (weight 16) under the root, stream 2
(weight 16) under stream 1; every stream active. -/
def deepT : PriorityTree :=
  (((PriorityTree.init.insert_stream 1 none 16 false).2).insert_stream
    2 (some 1) 16 false).2

/-- Streams 1 (weight 1) and 2 (weight 2) under the root and stream 3
(weight 1) under stream 1; every stream active.  `S = {1,2,3}`,
`P = 1+2+1 = 4`, warm-up `|S| = 3`. -/
def chainT : PriorityTree :=
  ((((PriorityTree.init.insert_stream 1 none 1 false).2).insert_stream
    2 none 2 false).2.insert_stream 3 (some 1) 1 false).2

/-! ## Basic lemmas about the embedded operations -/

@[simp] theorem Stream.stream_id_mk (i w ch q a lw d) :
    (Stream.mk i w ch q a lw d).stream_id = i := rfl

@[simp] theorem Stream.weight_mk (i w ch q a lw d) :
    (Stream.mk i w ch q a lw d).weight = w := rfl

@[simp] theorem Stream.children_mk (i w ch q a lw d) :
    (Stream.mk i w ch q a lw d).children = ch := rfl

@[simp] theorem Stream.child_queue_mk (i w ch q a lw d) :
    (Stream.mk i w ch q a lw d).child_queue = q := rfl

@[simp] theorem Stream.active_mk (i w ch q a lw d) :
    (Stream.mk i w ch q a lw d).active = a := rfl

@[simp] theorem Stream.last_weight_mk (i w ch q a lw d) :
    (Stream.mk i w ch q a lw d).last_weight = lw := rfl

@[simp] theorem Stream.defecit_mk (i w ch q a lw d) :
    (Stream.mk i w ch q a lw d)._defecit = d := rfl

theorem Stream.add_child_def (s c : Stream) :
    s.add_child c = .mk s.stream_id s.weight (s.children ++ [c.stream_id])
      (qput (s.last_weight, c) s.child_queue) s.active s.last_weight s._defecit := by
  cases s; rfl

theorem Stream.remove_child_def (s c : Stream) :
    s.remove_child c =
      (c.child_queue.map Prod.snd).foldl Stream.add_child
        (.mk s.stream_id s.weight (s.children.erase c.stream_id)
          (s.child_queue.filter (fun e => !(e.2.stream_id == c.stream_id)))
          s.active s.last_weight s._defecit) := by
  cases s; rfl

theorem Stream.add_child_exclusive_def (s c : Stream) :
    s.add_child_exclusive c =
      Stream.add_child (.mk s.stream_id s.weight [] [] s.active 0 s._defecit)
        ((s.child_queue.map Prod.snd).foldl Stream.add_child c) := by
  cases s; rfl

theorem mem_qput {f e : Int × Stream} {l : List (Int × Stream)} :
    f ∈ qput e l ↔ f = e ∨ f ∈ l := by
  induction l with
  | nil => simp [qput]
  | cons g rest ih =>
    simp only [qput]
    split
    · simp
    · simp only [List.mem_cons, ih]
      tauto

theorem self_mem_qput (e : Int × Stream) (l : List (Int × Stream)) :
    e ∈ qput e l := mem_qput.mpr (Or.inl rfl)

@[simp] theorem add_child_last_weight (s c : Stream) :
    (s.add_child c).last_weight = s.last_weight := by cases s; rfl

@[simp] theorem add_child_defecit (s c : Stream) :
    (s.add_child c)._defecit = s._defecit := by cases s; rfl

@[simp] theorem add_child_stream_id (s c : Stream) :
    (s.add_child c).stream_id = s.stream_id := by cases s; rfl

@[simp] theorem add_child_active (s c : Stream) :
    (s.add_child c).active = s.active := by cases s; rfl

@[simp] theorem add_child_weight (s c : Stream) :
    (s.add_child c).weight = s.weight := by cases s; rfl

theorem foldl_add_child_last_weight (gs : List Stream) (s : Stream) :
    (gs.foldl Stream.add_child s).last_weight = s.last_weight := by
  induction gs generalizing s with
  | nil => rfl
  | cons g rest ih => simp [List.foldl_cons, ih]

theorem foldl_add_child_defecit (gs : List Stream) (s : Stream) :
    (gs.foldl Stream.add_child s)._defecit = s._defecit := by
  induction gs generalizing s with
  | nil => rfl
  | cons g rest ih => simp [List.foldl_cons, ih]

theorem foldl_add_child_queue_mono (gs : List Stream) (s : Stream)
    {e : Int × Stream} (h : e ∈ s.child_queue) :
    e ∈ (gs.foldl Stream.add_child s).child_queue := by
  induction gs generalizing s with
  | nil => exact h
  | cons g rest ih =>
    refine ih _ ?_
    rw [Stream.add_child_def]
    exact Stream.child_queue_mk _ _ _ _ _ _ _ ▸ mem_qput.mpr (Or.inr h)

theorem foldl_add_child_queue_mem (gs : List Stream) (s : Stream)
    {g : Stream} (h : g ∈ gs) :
    (s.last_weight, g) ∈ (gs.foldl Stream.add_child s).child_queue := by
  induction gs generalizing s with
  | nil => cases h
  | cons g0 rest ih =>
    rcases List.mem_cons.mp h with rfl | h
    · refine foldl_add_child_queue_mono rest _ ?_
      rw [Stream.add_child_def]
      exact Stream.child_queue_mk _ _ _ _ _ _ _ ▸ self_mem_qput _ _
    · simpa [add_child_last_weight] using ih (s.add_child g0) h

/-! ## Claim C5 -/

/-- Claim C5: `add_child` enqueues the child at the parent's current
`last_weight` (the spec's `last_level`), and every grandchild re-parented by
`remove_child` joins the surviving parent's queue at that parent's current
`last_weight`. -/
theorem claim5_add_child_at_last_level (p c : Stream) :
    (p.last_weight, c) ∈ (p.add_child c).child_queue ∧
    (∀ l g, (l, g) ∈ c.child_queue →
      (p.last_weight, g) ∈ (p.remove_child c).child_queue) := by
  constructor
  · rw [Stream.add_child_def]
    exact Stream.child_queue_mk _ _ _ _ _ _ _ ▸ self_mem_qput _ _
  · intro l g hg
    rw [Stream.remove_child_def]
    have : g ∈ c.child_queue.map Prod.snd := List.mem_map.mpr ⟨(l, g), hg, rfl⟩
    simpa using foldl_add_child_queue_mem _ _ this

/-- Witness for C5 on a concrete parent with `last_weight = 5` and a child
carrying one grandchild. -/
theorem claim5_witness :
    ((3, Stream.init 9 16) ∈ (Stream.mk 4 16 [9] [(3, Stream.init 9 16)] true 7 0).child_queue) ∧
    ((5 : Int), Stream.init 9 16) ∈
      ((Stream.mk 1 16 [4] [(2, Stream.mk 4 16 [9] [(3, Stream.init 9 16)] true 7 0)] false 5 0).remove_child
        (Stream.mk 4 16 [9] [(3, Stream.init 9 16)] true 7 0)).child_queue := by
  refine ⟨by simp, ?_⟩
  exact (claim5_add_child_at_last_level
    (Stream.mk 1 16 [4] [(2, Stream.mk 4 16 [9] [(3, Stream.init 9 16)] true 7 0)] false 5 0)
    (Stream.mk 4 16 [9] [(3, Stream.init 9 16)] true 7 0)).2 3 _ (by simp)

/-! ## Claim C10 -/

/-- Claim C10: the scheduling deficit lives on the stream itself.  It is 0
when the stream object is created; a grandchild re-parented by
`remove_child` is re-enqueued as the very same stream value (hence with its
`_defecit` unchanged); and an exclusive insertion moves the parent's
previous children beneath the new stream as the same stream values (again
with unchanged `_defecit`), the new stream itself keeping its deficit. -/
theorem claim10_defecit_on_node :
    (∀ i w, (Stream.init i w)._defecit = 0) ∧
    (∀ p c : Stream, ∀ l g, (l, g) ∈ c.child_queue →
      (p.last_weight, g) ∈ (p.remove_child c).child_queue) ∧
    (∀ p c : Stream, ∃ c', (p.add_child_exclusive c).child_queue = [((0 : Int), c')] ∧
      c'._defecit = c._defecit ∧
      ∀ l g, (l, g) ∈ p.child_queue → (c.last_weight, g) ∈ c'.child_queue) := by
  refine ⟨fun i w => rfl, ?_, ?_⟩
  · intro p c l g hg
    exact (claim5_add_child_at_last_level p c).2 l g hg
  · intro p c
    refine ⟨(p.child_queue.map Prod.snd).foldl Stream.add_child c, ?_, ?_, ?_⟩
    · rw [Stream.add_child_exclusive_def, Stream.add_child_def]
      simp [qput]
    · exact foldl_add_child_defecit _ _
    · intro l g hg
      have : g ∈ p.child_queue.map Prod.snd := List.mem_map.mpr ⟨(l, g), hg, rfl⟩
      exact foldl_add_child_queue_mem _ _ this

/-- Witness for C10: a parent with one child of deficit 11 is given an
exclusive child; the moved child keeps deficit 11 inside the new child's
queue, and the inner membership hypothesis is discharged concretely. -/
theorem claim10_witness :
    ((8 : Int), Stream.mk 6 16 [] [] true 0 11) ∈
      (Stream.mk 2 16 [6] [(8, Stream.mk 6 16 [] [] true 0 11)] false 9 0).child_queue ∧
    ∃ c', ((Stream.mk 2 16 [6] [(8, Stream.mk 6 16 [] [] true 0 11)] false 9 0).add_child_exclusive
            (Stream.init 4 32)).child_queue = [((0 : Int), c')] ∧
      c'._defecit = (Stream.init 4 32)._defecit ∧
      ((Stream.init 4 32).last_weight, Stream.mk 6 16 [] [] true 0 11) ∈ c'.child_queue := by
  refine ⟨by simp, ?_⟩
  obtain ⟨c', h1, h2, h3⟩ := claim10_defecit_on_node.2.2
    (Stream.mk 2 16 [6] [(8, Stream.mk 6 16 [] [] true 0 11)] false 9 0) (Stream.init 4 32)
  exact ⟨c', h1, h2, h3 8 _ (by simp)⟩

/-! ## Claim C7 -/

/-- Counterexample to C7 as stated: `insert_stream` is claimed to fail with
an `ArgumentError` when the weight lies outside `1..=256`, but inserting
weight 0 and weight 300 both succeed and create the stream. -/
theorem claim7_counterexample :
    (PriorityTree.init.insert_stream 1 none 0 false).1 = .ok () ∧
    (PriorityTree.init.insert_stream 1 none 0 false).2._streams = [0, 1] ∧
    (PriorityTree.init.insert_stream 1 none 300 false).1 = .ok () := by
  exact ⟨rfl, rfl, rfl⟩

/-- Claim C7 (amended): `insert_stream` performs no weight or id-zero
validation.  With the parent id 0 indexed and the new id not indexed,
insertion succeeds for every weight (0, negative and above-256 included)
and registers the stream; inserting id 0 fails only through the
duplicate-id assertion (id 0 already indexes the root), raising
`AssertionError`, not an `ArgumentError`, and leaves the tree unchanged. -/
theorem claim7_no_weight_validation :
    (∀ (t : PriorityTree) (id : Nat) (w : Int), 0 ∈ t._streams → id ∉ t._streams →
      (t.insert_stream id none w false).1 = .ok () ∧
      (t.insert_stream id none w false).2._streams = t._streams ++ [id]) ∧
    (∀ (t : PriorityTree) (dep : Option Nat) (w : Int) (ex : Bool), 0 ∈ t._streams →
      t.insert_stream 0 dep w ex = (.error .assertionError, t)) := by
  constructor
  · intro t id w h0 hid
    simp [PriorityTree.insert_stream, h0, hid]
  · intro t dep w ex h0
    simp [PriorityTree.insert_stream, h0]

/-- Witness for C7 at the fresh tree: weight 0 is accepted for id 1, and id
0 is rejected by the duplicate assertion. -/
theorem claim7_witness :
    ((0 : Nat) ∈ PriorityTree.init._streams ∧ (1 : Nat) ∉ PriorityTree.init._streams) ∧
    (PriorityTree.init.insert_stream 1 none 0 false).1 = .ok () ∧
    PriorityTree.init.insert_stream 0 none 16 false = (.error .assertionError, .init) := by
  refine ⟨⟨by simp [PriorityTree.init], by simp [PriorityTree.init]⟩, ?_, ?_⟩
  · exact (claim7_no_weight_validation.1 PriorityTree.init 1 0 (by simp [PriorityTree.init])
      (by simp [PriorityTree.init])).1
  · exact claim7_no_weight_validation.2 PriorityTree.init none 16 false (by simp [PriorityTree.init])

/-! ## Claim C8 -/

/-- Counterexample to C8 as stated: `unblock(0)` is claimed to fail with an
`UnknownStreamError`, but it succeeds (and even marks the root active); and
`remove_stream(0)` does fail, but with `AttributeError` after having popped
key 0 from the index, so the index no longer contains the root. -/
theorem claim8_counterexample :
    (PriorityTree.init.unblock 0).1 = .ok () ∧
    (PriorityTree.init.block 0).1 = .ok () ∧
    (PriorityTree.init.remove_stream 0).1 = .error .attributeError ∧
    (PriorityTree.init.remove_stream 0).2._streams = [] := by
  exact ⟨rfl, rfl, rfl, rfl⟩

/-- Claim C8 (amended): `remove_stream`, `block` and `unblock` fail (with
Python's `KeyError`, the `UnknownStreamError` of the spec) exactly when the
id is absent from the index, and such a failure leaves the tree unchanged.
Id 0 is not rejected: it is initially present, `block(0)`/`unblock(0)`
succeed on any state indexing 0, and `remove_stream(0)` on the fresh tree
raises `AttributeError` (the root's parent is `None`) only after having
deleted key 0 from the index. -/
theorem claim8_unknown_stream :
    (∀ (t : PriorityTree) (id : Nat), id ∉ t._streams →
      t.remove_stream id = (.error .keyError, t) ∧
      t.block id = (.error .keyError, t) ∧
      t.unblock id = (.error .keyError, t)) ∧
    (∀ (t : PriorityTree) (id : Nat), id ∈ t._streams →
      (t.block id).1 = .ok () ∧ (t.unblock id).1 = .ok ()) ∧
    (PriorityTree.init.remove_stream 0).1 = .error .attributeError ∧
    (PriorityTree.init.remove_stream 0).2._streams = [] := by
  refine ⟨?_, ?_, rfl, rfl⟩
  · intro t id h
    refine ⟨?_, ?_, ?_⟩ <;> simp [PriorityTree.remove_stream, PriorityTree.block,
      PriorityTree.unblock, h]
  · intro t id h
    exact ⟨by simp [PriorityTree.block, h], by simp [PriorityTree.unblock, h]⟩

/-- Witness for C8: id 5 is absent from the fresh tree, so all three
operations fail with `KeyError` and leave the state unchanged; id 0 is
present, so `block(0)` succeeds. -/
theorem claim8_witness :
    ((5 : Nat) ∉ PriorityTree.init._streams ∧ (0 : Nat) ∈ PriorityTree.init._streams) ∧
    PriorityTree.init.remove_stream 5 = (.error .keyError, .init) ∧
    (PriorityTree.init.block 0).1 = .ok () := by
  refine ⟨⟨by simp [PriorityTree.init], by simp [PriorityTree.init]⟩, ?_, ?_⟩
  · exact (claim8_unknown_stream.1 PriorityTree.init 5 (by simp [PriorityTree.init])).1
  · exact (claim8_unknown_stream.2.1 PriorityTree.init 0 (by simp [PriorityTree.init])).1

/-! ## Field preservation lemmas (used by the invariant claims) -/

theorem foldl_add_child_active (gs : List Stream) (s : Stream) :
    (gs.foldl Stream.add_child s).active = s.active := by
  induction gs generalizing s with
  | nil => rfl
  | cons g rest ih => simp [List.foldl_cons, ih]

theorem foldl_add_child_stream_id (gs : List Stream) (s : Stream) :
    (gs.foldl Stream.add_child s).stream_id = s.stream_id := by
  induction gs generalizing s with
  | nil => rfl
  | cons g rest ih => simp [List.foldl_cons, ih]

theorem foldl_add_child_weight (gs : List Stream) (s : Stream) :
    (gs.foldl Stream.add_child s).weight = s.weight := by
  induction gs generalizing s with
  | nil => rfl
  | cons g rest ih => simp [List.foldl_cons, ih]

@[simp] theorem remove_child_active (s c : Stream) :
    (s.remove_child c).active = s.active := by
  rw [Stream.remove_child_def, foldl_add_child_active]; rfl

@[simp] theorem remove_child_stream_id (s c : Stream) :
    (s.remove_child c).stream_id = s.stream_id := by
  rw [Stream.remove_child_def, foldl_add_child_stream_id]; rfl

@[simp] theorem add_child_exclusive_active (s c : Stream) :
    (s.add_child_exclusive c).active = s.active := by
  rw [Stream.add_child_exclusive_def, add_child_active]; rfl

@[simp] theorem add_child_exclusive_stream_id (s c : Stream) :
    (s.add_child_exclusive c).stream_id = s.stream_id := by
  rw [Stream.add_child_exclusive_def, add_child_stream_id]; rfl

@[simp] theorem setActive_stream_id (s : Stream) (b : Bool) :
    (s.setActive b).stream_id = s.stream_id := by cases s; rfl

@[simp] theorem setActive_active (s : Stream) (b : Bool) :
    (s.setActive b).active = b := by cases s; rfl

theorem finalize_fields (p : List (Int × Stream)) (s : Stream) :
    ((finalize s p).2).stream_id = s.stream_id ∧
    ((finalize s p).2).active = s.active ∧
    ((finalize s p).2).children = s.children ∧
    ((finalize s p).2).weight = s.weight := by
  induction p generalizing s with
  | nil => cases s; exact ⟨rfl, rfl, rfl, rfl⟩
  | cons e rest ih =>
    obtain ⟨l, child⟩ := e
    cases s with
    | mk i w ch q a lw d =>
      simp only [finalize]
      split
      · exact ⟨rfl, rfl, rfl, rfl⟩
      · exact ih _

theorem schedule_fields (s : Stream) :
    ((Stream.schedule s).2).stream_id = s.stream_id ∧
    ((Stream.schedule s).2).active = s.active ∧
    ((Stream.schedule s).2).children = s.children ∧
    ((Stream.schedule s).2).weight = s.weight := by
  cases s with
  | mk i w ch q a lw d =>
    rw [Stream.schedule]
    split
    · exact ⟨rfl, rfl, rfl, rfl⟩
    · rcases hg : goSearch q with ⟨res, popped, remaining⟩
      simp only [hg]
      rcases hfin : finalize (.mk i w ch remaining a lw d) popped with ⟨ferr, s'⟩
      have hfields := finalize_fields popped (.mk i w ch remaining a lw d)
      rw [hfin] at hfields
      match ferr, res with
      | some e, _ => simpa [hfin] using hfields
      | none, .found n => simpa [hfin] using hfields
      | none, .exhausted => simpa [hfin] using hfields
      | none, .failed e => simpa [hfin] using hfields

@[simp] theorem removeChildById_stream_id (cid : Nat) (s : Stream) :
    (removeChildById cid s).stream_id = s.stream_id := by
  cases s with
  | mk i w ch q a lw d =>
    rw [removeChildById]
    split
    · split
      · exact remove_child_stream_id _ _
      · rfl
    · rfl

@[simp] theorem removeChildById_active (cid : Nat) (s : Stream) :
    (removeChildById cid s).active = s.active := by
  cases s with
  | mk i w ch q a lw d =>
    rw [removeChildById]
    split
    · split
      · exact remove_child_active _ _
      · rfl
    · rfl

theorem updateAt_stream_id_of {f : Stream → Stream}
    (hf : ∀ x, (f x).stream_id = x.stream_id) (i : Nat) (s : Stream) :
    (updateAt i f s).stream_id = s.stream_id := by
  cases s with
  | mk id w ch q a lw d =>
    rw [updateAt]
    split
    · exact hf _
    · rfl

theorem updateAt_active_of {f : Stream → Stream}
    (hf : ∀ x, (f x).active = x.active) (i : Nat) (s : Stream) :
    (updateAt i f s).active = s.active := by
  cases s with
  | mk id w ch q a lw d =>
    rw [updateAt]
    split
    · exact hf _
    · rfl

theorem updateAt_setActive_false (i : Nat) (s : Stream) (h : s.active = false) :
    (updateAt i (fun x => x.setActive false) s).active = false := by
  cases s with
  | mk id w ch q a lw d =>
    rw [updateAt]
    split
    · simp
    · simpa using h

theorem updateAt_active_of_ne {f : Stream → Stream} (i : Nat) (s : Stream)
    (h : s.stream_id ≠ i) : (updateAt i f s).active = s.active := by
  cases s with
  | mk id w ch q a lw d =>
    rw [updateAt]
    split
    · exact absurd (by simpa using ‹id = i›) h
    · rfl

/-! ## Claim C6 -/

/-- In any state reachable without `unblock(0)`, the root keeps id 0 and
stays inactive. -/
theorem reachNoU0_root_inactive {t : PriorityTree} (h : ReachNoU0 t) :
    t._root_stream.stream_id = 0 ∧ t._root_stream.active = false := by
  induction h with
  | init => exact ⟨rfl, rfl⟩
  | insert_stream t id dep w ex _ ih =>
    obtain ⟨hid, hact⟩ := ih
    simp only [PriorityTree.insert_stream]
    split
    · exact ⟨hid, hact⟩
    · split
      · split
        · exact ⟨hid, hact⟩
        · split
          · refine ⟨?_, ?_⟩
            · simpa [updateAt_stream_id_of (fun x => add_child_exclusive_stream_id x _)] using hid
            · simpa [updateAt_active_of (fun x => add_child_exclusive_active x _)] using hact
          · exact ⟨hid, hact⟩
      · split
        · refine ⟨?_, ?_⟩
          · simpa [updateAt_stream_id_of (fun x => add_child_stream_id x _)] using hid
          · simpa [updateAt_active_of (fun x => add_child_active x _)] using hact
        · exact ⟨hid, hact⟩
  | remove_stream t id _ ih =>
    obtain ⟨hid, hact⟩ := ih
    simp only [PriorityTree.remove_stream]
    split
    · split
      · exact ⟨hid, hact⟩
      · exact ⟨(removeChildById_stream_id _ _).trans hid,
          (removeChildById_active _ _).trans hact⟩
    · exact ⟨hid, hact⟩
  | block t id _ ih =>
    obtain ⟨hid, hact⟩ := ih
    simp only [PriorityTree.block]
    split
    · exact ⟨Eq.trans (updateAt_stream_id_of (fun x => setActive_stream_id x _) _ _) hid,
        updateAt_setActive_false _ _ hact⟩
    · exact ⟨hid, hact⟩
  | unblock t id _ hne ih =>
    obtain ⟨hid, hact⟩ := ih
    simp only [PriorityTree.unblock]
    split
    · refine ⟨Eq.trans (updateAt_stream_id_of (fun x => setActive_stream_id x _) _ _) hid, ?_⟩
      rw [updateAt_active_of_ne _ _ (by rw [hid]; exact fun hc => hne hc.symm)]
      exact hact
    · exact ⟨hid, hact⟩
  | next t _ ih =>
    obtain ⟨hid, hact⟩ := ih
    have hs := schedule_fields t._root_stream
    simp only [PriorityTree.next]
    rcases hsch : t._root_stream.schedule with ⟨r, s'⟩
    rw [hsch] at hs
    match r with
    | .ok n => exact ⟨hs.1.trans hid, hs.2.1.trans hact⟩
    | .error .empty => exact ⟨hs.1.trans hid, hs.2.1.trans hact⟩
    | .error .keyError => exact ⟨hs.1.trans hid, hs.2.1.trans hact⟩
    | .error .assertionError => exact ⟨hs.1.trans hid, hs.2.1.trans hact⟩
    | .error .attributeError => exact ⟨hs.1.trans hid, hs.2.1.trans hact⟩
    | .error .zeroDivisionError => exact ⟨hs.1.trans hid, hs.2.1.trans hact⟩
    | .error .deadlockError => exact ⟨hs.1.trans hid, hs.2.1.trans hact⟩

/-- Counterexample to C6 as stated: `unblock(0)` is a public operation and
it does set the root's active flag to true. -/
theorem claim6_counterexample :
    (PriorityTree.init.unblock 0).2._root_stream.active = true := rfl

/-- Claim C6 (amended): in every state reachable by public operations in
which `unblock` is never called on id 0, the root's active flag is false —
`unblock(0)` is the only operation that can set it true. -/
theorem claim6_root_inactive {t : PriorityTree} (h : ReachNoU0 t) :
    t._root_stream.active = false :=
  (reachNoU0_root_inactive h).2

/-- Witness for C6 on a concrete reachable state: insert stream 1, block
it, and schedule once. -/
theorem claim6_witness :
    (((PriorityTree.init.insert_stream 1 none 16 false).2.block 1).2.next).2._root_stream.active
      = false := by
  exact claim6_root_inactive
    (ReachNoU0.next _ (ReachNoU0.block _ 1
      (ReachNoU0.insert_stream _ 1 none 16 false ReachNoU0.init)))

/-! ## Claim C1 -/

/-- Simultaneous induction over streams and child queues. -/
theorem streamInd {motiveS : Stream → Prop} {motiveQ : List (Int × Stream) → Prop}
    (hs : ∀ i w ch q a lw d, motiveQ q → motiveS (.mk i w ch q a lw d))
    (hnil : motiveQ [])
    (hcons : ∀ (l : Int) (c : Stream) rest, motiveS c → motiveQ rest →
      motiveQ ((l, c) :: rest)) :
    (∀ s, motiveS s) ∧ ∀ q, motiveQ q := by
  have key : ∀ n (q : List (Int × Stream)), sizeOf q ≤ n → motiveQ q := by
    intro n
    induction n with
    | zero =>
      intro q h
      cases q with
      | nil => exact hnil
      | cons e rest => exfalso; cases e; simp at h
    | succ n ih =>
      intro q h
      cases q with
      | nil => exact hnil
      | cons e rest =>
        obtain ⟨l, c⟩ := e
        cases c with
        | mk i w ch cq a lw d =>
          refine hcons l _ rest (hs i w ch cq a lw d (ih cq ?_)) (ih rest ?_)
          · simp at h ⊢; omega
          · simp at h; omega
  refine ⟨fun s => ?_, fun q => key (sizeOf q) q le_rfl⟩
  cases s with
  | mk i w ch q a lw d => exact hs i w ch q a lw d (key (sizeOf q) q le_rfl)

/-- If every popped child has a nonzero weight, the re-insertion pass of
`schedule` completes without raising. -/
theorem finalize_none (p : List (Int × Stream)) (s : Stream)
    (h : ∀ e ∈ p, e.2.weight ≠ 0) : (finalize s p).1 = none := by
  induction p generalizing s with
  | nil => cases s; rfl
  | cons e rest ih =>
    obtain ⟨l, child⟩ := e
    cases s with
    | mk i w ch q a lw d =>
      rw [finalize]
      split
      · exact absurd ‹child.weight = 0› (h (l, child) (by simp))
      · exact ih _ (fun f hf => h f (List.mem_cons_of_mem _ hf))

/-- Soundness and completeness of `schedule` on inactive nodes whose
subtree has no zero weight: it returns the id of an active stream all of
whose proper ancestors below the node are inactive whenever the subtree has
an active stream, and raises `queue.Empty` otherwise. -/
theorem schedule_correct :
    (∀ s : Stream, s.active = false → allWeightsNZ s = true →
      (anyActiveBelow s = true →
        ∃ n, (Stream.schedule s).1 = .ok n ∧ goodPick s n = true) ∧
      (anyActiveBelow s = false → (Stream.schedule s).1 = .error .empty)) ∧
    (∀ q : List (Int × Stream), allWeightsNZQ q = true →
      (anyActiveBelowQ q = true →
        ∃ n popped rem, goSearch q = (.found n, popped, rem) ∧
          goodPickQ q n = true ∧ ∀ e ∈ popped, e.2.weight ≠ 0) ∧
      (anyActiveBelowQ q = false →
        ∃ popped, goSearch q = (.exhausted, popped, []) ∧
          ∀ e ∈ popped, e.2.weight ≠ 0)) := by
  apply streamInd
  · -- a node from its queue
    intro i w ch q a lw d hq
    intro hact hwnz
    have ha : a = false := by simpa using hact
    have hw : allWeightsNZQ q = true := by simp [allWeightsNZ] at hwnz; exact hwnz.2
    subst ha
    have hQ := hq hw
    constructor
    · intro hany
      have hany' : anyActiveBelowQ q = true := by simpa [anyActiveBelow] using hany
      obtain ⟨n, popped, rem, hgo, hgood, hnz⟩ := hQ.1 hany'
      refine ⟨n, ?_, by simpa [goodPick] using hgood⟩
      rw [Stream.schedule]
      simp only [Bool.false_eq_true, if_false]
      rw [hgo]
      rcases hfin : finalize (.mk i w ch rem false lw d) popped with ⟨ferr, s'⟩
      have : ferr = none := by
        have := finalize_none popped (.mk i w ch rem false lw d) hnz
        rw [hfin] at this
        exact this
      subst this
      rfl
    · intro hnone
      have hnone' : anyActiveBelowQ q = false := by simpa [anyActiveBelow] using hnone
      obtain ⟨popped, hgo, hnz⟩ := hQ.2 hnone'
      rw [Stream.schedule]
      simp only [Bool.false_eq_true, if_false]
      rw [hgo]
      rcases hfin : finalize (.mk i w ch [] false lw d) popped with ⟨ferr, s'⟩
      have : ferr = none := by
        have := finalize_none popped (.mk i w ch [] false lw d) hnz
        rw [hfin] at this
        exact this
      subst this
      rfl
  · -- empty queue
    intro _
    refine ⟨fun h => by simp [anyActiveBelowQ] at h, fun _ => ⟨[], rfl, by simp⟩⟩
  · -- cons
    intro l c rest hc hrest hw
    have hwc : allWeightsNZ c = true ∧ allWeightsNZQ rest = true := by
      simpa [allWeightsNZQ, Bool.and_eq_true] using hw
    rcases hcact : c.active with _ | _
    · -- c inactive: recurse into c
      have hPc := hc hcact hwc.1
      have hcw : c.weight ≠ 0 := by
        cases c
        simp [allWeightsNZ, Bool.and_eq_true] at hwc
        simpa using hwc.1.1
      rcases hcany : anyActiveBelow c with _ | _
      · -- c's subtree has no active stream: schedule c fails, continue
        have hemp := hPc.2 hcany
        rcases hsc : Stream.schedule c with ⟨r, c'⟩
        have hr : r = .error .empty := by rw [hsc] at hemp; exact hemp
        subst hr
        have hc'w : c'.weight = c.weight := by
          have := (schedule_fields c).2.2.2
          rw [hsc] at this
          exact this
        have hQrest := hrest hwc.2
        constructor
        · intro hany
          have hany' : anyActiveBelowQ rest = true := by
            simpa [anyActiveBelowQ, hcact, hcany] using hany
          obtain ⟨n, p, rem, hgo, hgood, hnz⟩ := hQrest.1 hany'
          refine ⟨n, (l, c') :: p, rem, ?_, ?_, ?_⟩
          · rw [goSearch]
            simp only [hcact, Bool.false_eq_true, if_false, hsc, hgo]
          · simp [goodPickQ, hcact, hgood]
          · intro e he
            rcases List.mem_cons.mp he with rfl | he
            · simpa [hc'w] using hcw
            · exact hnz e he
        · intro hnone
          have hnone' : anyActiveBelowQ rest = false := by
            simpa [anyActiveBelowQ, hcact, hcany] using hnone
          obtain ⟨p, hgo, hnz⟩ := hQrest.2 hnone'
          refine ⟨(l, c') :: p, ?_, ?_⟩
          · rw [goSearch]
            simp only [hcact, Bool.false_eq_true, if_false, hsc, hgo]
          · intro e he
            rcases List.mem_cons.mp he with rfl | he
            · simpa [hc'w] using hcw
            · exact hnz e he
      · -- c's subtree has an active stream: schedule c succeeds
        obtain ⟨n, hok, hgood⟩ := hPc.1 hcany
        rcases hsc : Stream.schedule c with ⟨r, c'⟩
        have hr : r = .ok n := by rw [hsc] at hok; exact hok
        subst hr
        have hc'w : c'.weight = c.weight := by
          have := (schedule_fields c).2.2.2
          rw [hsc] at this
          exact this
        constructor
        · intro _
          refine ⟨n, [(l, c')], rest, ?_, ?_, ?_⟩
          · rw [goSearch]
            simp only [hcact, Bool.false_eq_true, if_false, hsc]
          · simp [goodPickQ, hcact, hgood]
          · intro e he
            rcases List.mem_cons.mp he with rfl | he
            · simpa [hc'w] using hcw
            · simp at he
        · intro hnone
          simp [anyActiveBelowQ, hcact, hcany] at hnone
    · -- c active: found immediately
      have hcw : c.weight ≠ 0 := by
        cases c
        simp [allWeightsNZ, Bool.and_eq_true] at hwc
        simpa using hwc.1.1
      constructor
      · intro _
        refine ⟨c.stream_id, [(l, c)], rest, ?_, ?_, ?_⟩
        · rw [goSearch]
          simp only [hcact, if_true]
        · simp [goodPickQ, hcact]
        · intro e he
          rcases List.mem_cons.mp he with rfl | he
          · exact hcw
          · simp at he
      · intro hnone
        simp [anyActiveBelowQ, hcact] at hnone

/-- Counterexample to C1 as stated: both anomalies are reachable by public
operations.  After `unblock(0)` no non-root stream is active, yet `next()`
raises `AssertionError` (the `assert not self.active` in `schedule`), not
`DeadlockError`; and after inserting a stream with weight 0 a non-root
stream is active, yet `next()` raises `ZeroDivisionError` instead of
returning it. -/
theorem claim1_counterexample :
    (anyActiveBelow (PriorityTree.init.unblock 0).2._root_stream = false ∧
      (PriorityTree.init.unblock 0).2.next.1 = .error .assertionError) ∧
    (anyActiveBelow (PriorityTree.init.insert_stream 1 none 0 false).2._root_stream = true ∧
      (PriorityTree.init.insert_stream 1 none 0 false).2.next.1 = .error .zeroDivisionError) := by
  exact ⟨⟨rfl, rfl⟩, ⟨rfl, rfl⟩⟩

/-- Claim C1 (amended): for every tree whose root is inactive (`unblock(0)`
never having been called) and whose streams all have nonzero weights,
`next()` returns the id of an active non-root stream all of whose proper
ancestors below the root are inactive whenever at least one non-root stream
is active, and raises `DeadlockError` exactly when no non-root stream is
active. -/
theorem claim1_next_contract (t : PriorityTree)
    (hroot : t._root_stream.active = false)
    (hw : allWeightsNZ t._root_stream = true) :
    (anyActiveBelow t._root_stream = true →
      ∃ n t', t.next = (.ok n, t') ∧ goodPick t._root_stream n = true) ∧
    (anyActiveBelow t._root_stream = false →
      ∃ t', t.next = (.error .deadlockError, t')) := by
  have hP := schedule_correct.1 t._root_stream hroot hw
  constructor
  · intro hany
    obtain ⟨n, hok, hgood⟩ := hP.1 hany
    rcases hsc : Stream.schedule t._root_stream with ⟨r, s'⟩
    have hr : r = .ok n := by rw [hsc] at hok; exact hok
    subst hr
    refine ⟨n, ⟨s', t._streams⟩, ?_, hgood⟩
    simp [PriorityTree.next, hsc]
  · intro hnone
    have hemp := hP.2 hnone
    rcases hsc : Stream.schedule t._root_stream with ⟨r, s'⟩
    have hr : r = .error .empty := by rw [hsc] at hemp; exact hemp
    subst hr
    refine ⟨⟨s', t._streams⟩, ?_⟩
    simp [PriorityTree.next, hsc]

/-- Witness for C1 on a concrete tree: stream 1 (blocked) under the root,
stream 2 (active) under stream 1; `next` must return 2. -/
theorem claim1_witness :
    (((PriorityTree.init.insert_stream 1 none 16 false).2.insert_stream 2 (some 1) 16
        false).2.block 1).2._root_stream.active = false ∧
    allWeightsNZ (((PriorityTree.init.insert_stream 1 none 16 false).2.insert_stream 2 (some 1) 16
        false).2.block 1).2._root_stream = true ∧
    anyActiveBelow (((PriorityTree.init.insert_stream 1 none 16 false).2.insert_stream 2 (some 1)
        16 false).2.block 1).2._root_stream = true ∧
    ∃ n t', (((PriorityTree.init.insert_stream 1 none 16 false).2.insert_stream 2 (some 1) 16
        false).2.block 1).2.next = (.ok n, t') ∧
      goodPick (((PriorityTree.init.insert_stream 1 none 16 false).2.insert_stream 2 (some 1) 16
        false).2.block 1).2._root_stream n = true := by
  refine ⟨rfl, rfl, rfl, ?_⟩
  exact (claim1_next_contract
    (((PriorityTree.init.insert_stream 1 none 16 false).2.insert_stream 2 (some 1) 16
        false).2.block 1).2 rfl rfl).1 rfl

/-! ## Claim C9: structural well-formedness machinery -/

@[simp] theorem subIds_mk (i w ch q a lw d) :
    subIds (.mk i w ch q a lw d) = subIdsQ q := rfl

@[simp] theorem subIdsQ_nil : subIdsQ [] = [] := rfl

@[simp] theorem subIdsQ_cons (l : Int) (c : Stream) (rest) :
    subIdsQ ((l, c) :: rest) = c.stream_id :: (subIds c ++ subIdsQ rest) := rfl

@[simp] theorem wfAllQ_nil : wfAllQ [] = true := rfl

@[simp] theorem wfAllQ_cons (l : Int) (c : Stream) (rest) :
    wfAllQ ((l, c) :: rest) = (wfAll c && wfAllQ rest) := rfl

theorem wfAll_iff (i w ch q a lw d) :
    wfAll (.mk i w ch q a lw d) = true ↔
      ch.Perm (q.map (fun e => e.2.stream_id)) ∧ ch.Nodup ∧ w ≠ 0 ∧ wfAllQ q = true := by
  simp [wfAll, Bool.and_eq_true, and_assoc]

theorem wfAllQ_iff (q : List (Int × Stream)) :
    wfAllQ q = true ↔ ∀ e ∈ q, wfAll e.2 = true := by
  induction q with
  | nil => simp
  | cons e rest ih =>
    obtain ⟨l, c⟩ := e
    simp [Bool.and_eq_true, ih]

theorem qput_perm (e : Int × Stream) (q : List (Int × Stream)) :
    (qput e q).Perm (e :: q) := by
  induction q with
  | nil => exact List.Perm.refl _
  | cons f rest ih =>
    rw [qput]
    split
    · exact List.Perm.refl _
    · exact (List.Perm.cons f ih).trans (List.Perm.swap _ _ _)

theorem subIdsQ_append (a b : List (Int × Stream)) :
    subIdsQ (a ++ b) = subIdsQ a ++ subIdsQ b := by
  induction a with
  | nil => simp
  | cons e rest ih =>
    obtain ⟨l, c⟩ := e
    simp [ih]

theorem subIdsQ_perm {q q' : List (Int × Stream)} (h : q.Perm q') :
    (subIdsQ q).Perm (subIdsQ q') := by
  induction h with
  | nil => exact List.Perm.refl _
  | cons e _ ih =>
    obtain ⟨l, c⟩ := e
    simp only [subIdsQ_cons]
    exact List.Perm.cons _ (List.Perm.append_left _ ih)
  | swap x y rest =>
    obtain ⟨lx, cx⟩ := x
    obtain ⟨ly, cy⟩ := y
    show ((cy.stream_id :: subIds cy) ++ ((cx.stream_id :: subIds cx) ++ subIdsQ rest)).Perm
      ((cx.stream_id :: subIds cx) ++ ((cy.stream_id :: subIds cy) ++ subIdsQ rest))
    exact List.perm_append_comm_assoc _ _ _
  | trans _ _ ih1 ih2 => exact ih1.trans ih2

@[simp] theorem setDefecit_stream_id (c : Stream) (d : Int) :
    (c.setDefecit d).stream_id = c.stream_id := by cases c; rfl

@[simp] theorem setDefecit_weight (c : Stream) (d : Int) :
    (c.setDefecit d).weight = c.weight := by cases c; rfl

@[simp] theorem wfAll_setDefecit (c : Stream) (d : Int) :
    wfAll (c.setDefecit d) = wfAll c := by cases c; rfl

@[simp] theorem subIds_setDefecit (c : Stream) (d : Int) :
    subIds (c.setDefecit d) = subIds c := by cases c; rfl

@[simp] theorem wfAll_setActive (c : Stream) (b : Bool) :
    wfAll (c.setActive b) = wfAll c := by cases c; rfl

@[simp] theorem subIds_setActive (c : Stream) (b : Bool) :
    subIds (c.setActive b) = subIds c := by cases c; rfl

theorem add_child_children (s c : Stream) :
    (s.add_child c).children = s.children ++ [c.stream_id] := by cases s; rfl

theorem add_child_queue (s c : Stream) :
    (s.add_child c).child_queue = qput (s.last_weight, c) s.child_queue := by cases s; rfl

theorem add_child_qids_perm (s c : Stream) :
    ((s.add_child c).child_queue.map (fun e => e.2.stream_id)).Perm
      (c.stream_id :: s.child_queue.map (fun e => e.2.stream_id)) := by
  rw [add_child_queue]
  simpa using (qput_perm (s.last_weight, c) s.child_queue).map (fun e => e.2.stream_id)

theorem add_child_subIds_perm (s c : Stream) :
    (subIds (s.add_child c)).Perm (c.stream_id :: (subIds c ++ subIds s)) := by
  cases s with
  | mk i w ch q a lw d =>
    show (subIdsQ (qput (lw, c) q)).Perm _
    refine (subIdsQ_perm (qput_perm _ _)).trans ?_
    simp only [subIdsQ_cons, subIds_mk]
    exact List.Perm.refl _

theorem add_child_wf (s c : Stream) (hs : wfAll s = true) (hc : wfAll c = true)
    (hnin : c.stream_id ∉ s.children) : wfAll (s.add_child c) = true := by
  cases s with
  | mk i w ch q a lw d =>
    rw [wfAll_iff] at hs
    obtain ⟨hperm, hnd, hw, hq⟩ := hs
    rw [Stream.add_child, wfAll_iff]
    refine ⟨?_, ?_, hw, ?_⟩
    · refine ((List.perm_append_singleton _ _).trans (List.Perm.cons _ hperm)).trans ?_
      have := (qput_perm (lw, c) q).map (fun e => e.2.stream_id)
      simpa using this.symm
    · refine (List.perm_append_singleton c.stream_id ch).nodup_iff.mpr ?_
      exact List.Nodup.cons (by simpa using hnin) hnd
    · rw [wfAllQ_iff]
      intro e he
      rcases mem_qput.mp he with rfl | he
      · exact hc
      · exact (wfAllQ_iff q).mp hq e he

theorem foldl_add_child_children (gs : List Stream) (s : Stream) :
    (gs.foldl Stream.add_child s).children = s.children ++ gs.map Stream.stream_id := by
  induction gs generalizing s with
  | nil => simp
  | cons g rest ih =>
    simp [List.foldl_cons, ih, add_child_children]

theorem foldl_add_child_qids_perm (gs : List Stream) (s : Stream) :
    ((gs.foldl Stream.add_child s).child_queue.map (fun e => e.2.stream_id)).Perm
      (s.child_queue.map (fun e => e.2.stream_id) ++ gs.map Stream.stream_id) := by
  induction gs generalizing s with
  | nil => simp
  | cons g rest ih =>
    simp only [List.foldl_cons, List.map_cons]
    refine (ih (s.add_child g)).trans ?_
    refine (List.Perm.append_right _ (add_child_qids_perm s g)).trans ?_
    exact List.perm_middle.symm

theorem foldl_add_child_subIds_perm (gs : List Stream) (s : Stream) :
    (subIds (gs.foldl Stream.add_child s)).Perm (subIds s ++ subIdsL gs) := by
  induction gs generalizing s with
  | nil => simp [subIdsL]
  | cons g rest ih =>
    simp only [List.foldl_cons, subIdsL]
    refine (ih (s.add_child g)).trans ?_
    refine (List.Perm.append_right _ (add_child_subIds_perm s g)).trans ?_
    show (g.stream_id :: ((subIds g ++ subIds s) ++ subIdsL rest)).Perm
      (subIds s ++ (g.stream_id :: (subIds g ++ subIdsL rest)))
    refine List.Perm.trans (List.Perm.cons _ ?_) List.perm_middle.symm
    rw [List.append_assoc]
    exact List.perm_append_comm_assoc _ _ _

theorem foldl_add_child_wf (gs : List Stream) (s : Stream) (hs : wfAll s = true)
    (hgs : ∀ g ∈ gs, wfAll g = true)
    (hnd : (s.children ++ gs.map Stream.stream_id).Nodup) :
    wfAll (gs.foldl Stream.add_child s) = true := by
  induction gs generalizing s with
  | nil => exact hs
  | cons g rest ih =>
    simp only [List.foldl_cons]
    refine ih (s.add_child g) ?_ (fun g hg => hgs g (List.mem_cons_of_mem _ hg)) ?_
    · refine add_child_wf s g hs (hgs g (List.mem_cons_self _ _)) ?_
      intro hmem
      rcases List.nodup_append.mp hnd with ⟨_, _, hdisj⟩
      exact hdisj hmem (by simp)
    · rw [add_child_children]
      have : (s.children ++ g.stream_id :: rest.map Stream.stream_id).Nodup := by
        simpa using hnd
      rw [List.append_assoc]
      simpa using this

theorem wfAll_parts {c : Stream} (h : wfAll c = true) :
    c.children.Perm (c.child_queue.map (fun e => e.2.stream_id)) ∧ c.children.Nodup ∧
      c.weight ≠ 0 ∧ wfAllQ c.child_queue = true := by
  cases c with
  | mk i w ch q a lw d => exact (wfAll_iff i w ch q a lw d).mp h

theorem wfAll_build {c : Stream}
    (h1 : c.children.Perm (c.child_queue.map (fun e => e.2.stream_id)))
    (h2 : c.children.Nodup) (h3 : c.weight ≠ 0) (h4 : wfAllQ c.child_queue = true) :
    wfAll c = true := by
  cases c with
  | mk i w ch q a lw d => exact (wfAll_iff i w ch q a lw d).mpr ⟨h1, h2, h3, h4⟩

theorem subIdsL_map_snd (q : List (Int × Stream)) :
    subIdsL (q.map Prod.snd) = subIdsQ q := by
  induction q with
  | nil => rfl
  | cons e rest ih =>
    obtain ⟨l, c⟩ := e
    simp [subIdsL, ih]

theorem map_snd_stream_id (q : List (Int × Stream)) :
    (q.map Prod.snd).map Stream.stream_id = q.map (fun e => e.2.stream_id) := by
  simp [List.map_map]

theorem subperm_nodup {l₁ l₂ : List Nat} (h : l₁.Subperm l₂) (hnd : l₂.Nodup) :
    l₁.Nodup := by
  obtain ⟨l, hp, hs⟩ := h
  exact hp.nodup_iff.mp (hs.nodup hnd)

theorem subperm_append2 {a b A B : List Nat} (h1 : a.Subperm A) (h2 : b.Subperm B) :
    (a ++ b).Subperm (A ++ B) := by
  obtain ⟨l1, p1, s1⟩ := h1
  obtain ⟨l2, p2, s2⟩ := h2
  exact ⟨l1 ++ l2, p1.append p2, s1.append s2⟩

theorem qids_subperm (q : List (Int × Stream)) :
    (q.map (fun e => e.2.stream_id)).Subperm (subIdsQ q) := by
  induction q with
  | nil => simp
  | cons e rest ih =>
    obtain ⟨l, c⟩ := e
    simp only [List.map_cons, subIdsQ_cons]
    rw [List.subperm_cons]
    exact ih.trans (List.sublist_append_right _ _).subperm

theorem perm_rotate3 (A B C : List Nat) : ((A ++ B) ++ C).Perm ((A ++ C) ++ B) := by
  rw [List.append_assoc, List.append_assoc]
  exact List.Perm.append_left A List.perm_append_comm

theorem subIds_eq (s : Stream) : subIds s = subIdsQ s.child_queue := by cases s; rfl

theorem mem_children_subIds {x : Stream} (hwf : wfAll x = true) {y : Nat}
    (hy : y ∈ x.children) : y ∈ subIds x := by
  obtain ⟨hperm, _, _, _⟩ := wfAll_parts hwf
  rw [subIds_eq]
  exact (qids_subperm x.child_queue).subset (hperm.mem_iff.mp hy)

/-- Removing a child found in the parent's queue preserves well-formedness,
and the subtree ids lose exactly the removed child's id (its descendants
are re-parented). -/
theorem remove_child_wf_subIds (p c : Stream) (l : Int)
    (hwf : wfAll p = true) (hnd : (subIds p).Nodup)
    (hmem : (l, c) ∈ p.child_queue) :
    wfAll (p.remove_child c) = true ∧
    (c.stream_id :: subIds (p.remove_child c)).Perm (subIds p) := by
  obtain ⟨hperm, hndch, hw, hwq⟩ := wfAll_parts hwf
  obtain ⟨X, Y, hq⟩ := List.append_of_mem hmem
  have hcwf : wfAll c = true := (wfAllQ_iff _).mp hwq _ hmem
  obtain ⟨hcperm, hcnd, hcw, hcq⟩ := wfAll_parts hcwf
  have hqids : p.child_queue.map (fun e => e.2.stream_id)
      = X.map (fun e => e.2.stream_id) ++ c.stream_id :: Y.map (fun e => e.2.stream_id) := by
    rw [hq]
    simp
  have hqidsnd : (p.child_queue.map (fun e => e.2.stream_id)).Nodup :=
    hperm.nodup_iff.mp hndch
  have hcidX : c.stream_id ∉ X.map (fun e => e.2.stream_id) ∧
      c.stream_id ∉ Y.map (fun e => e.2.stream_id) := by
    rw [hqids] at hqidsnd
    have := List.nodup_middle.mp hqidsnd
    rw [List.nodup_cons] at this
    have h1 := this.1
    simp only [List.mem_append] at h1
    exact ⟨fun hx => h1 (Or.inl hx), fun hy => h1 (Or.inr hy)⟩
  have hfilter : p.child_queue.filter (fun e => !(e.2.stream_id == c.stream_id)) = X ++ Y := by
    rw [hq, List.filter_append]
    have h1 : X.filter (fun e => !(e.2.stream_id == c.stream_id)) = X := by
      refine List.filter_eq_self.mpr (fun e he => ?_)
      simp only [Bool.not_eq_true', beq_eq_false_iff_ne]
      exact fun hc => hcidX.1 (hc ▸ List.mem_map.mpr ⟨e, he, rfl⟩)
    have h2 : ((l, c) :: Y).filter (fun e => !(e.2.stream_id == c.stream_id)) = Y := by
      rw [List.filter_cons]
      have hc0 : (!(((l, c) : Int × Stream).2.stream_id == c.stream_id)) = false := by simp
      rw [hc0]
      simp only [Bool.false_eq_true, if_false]
      refine List.filter_eq_self.mpr (fun e he => ?_)
      simp only [Bool.not_eq_true', beq_eq_false_iff_ne]
      exact fun hc => hcidX.2 (hc ▸ List.mem_map.mpr ⟨e, he, rfl⟩)
    rw [h1, h2]
  have hbase_perm : (p.children.erase c.stream_id).Perm
      ((X ++ Y).map (fun e => e.2.stream_id)) := by
    refine (hperm.erase c.stream_id).trans ?_
    rw [hqids, List.erase_append_right _ hcidX.1]
    simp
  have hXYwf : wfAllQ (X ++ Y) = true := by
    rw [wfAllQ_iff]
    intro e he
    refine (wfAllQ_iff _).mp hwq e ?_
    rw [hq]
    rcases List.mem_append.mp he with h | h
    · exact List.mem_append.mpr (Or.inl h)
    · exact List.mem_append.mpr (Or.inr (List.mem_cons_of_mem _ h))
  have hgs_wf : ∀ g ∈ c.child_queue.map Prod.snd, wfAll g = true := by
    intro g hg
    obtain ⟨e, he, rfl⟩ := List.mem_map.mp hg
    exact (wfAllQ_iff _).mp hcq e he
  have hsub : subIds p = subIdsQ X ++ (c.stream_id :: (subIds c ++ subIdsQ Y)) := by
    rw [subIds_eq, hq, subIdsQ_append, subIdsQ_cons]
  have hsubperm : (subIds p).Perm (c.stream_id :: (subIdsQ X ++ (subIds c ++ subIdsQ Y))) := by
    rw [hsub]
    exact List.perm_middle
  have hTnd : (subIdsQ X ++ (subIds c ++ subIdsQ Y)).Nodup :=
    (List.nodup_cons.mp (hsubperm.nodup_iff.mp hnd)).2
  have hsup : ((subIdsQ X ++ subIdsQ Y) ++ subIds c).Perm
      (subIdsQ X ++ (subIds c ++ subIdsQ Y)) := by
    refine (perm_rotate3 _ _ _).trans ?_
    rw [List.append_assoc]
  have hfold_nd : ((p.children.erase c.stream_id) ++
      (c.child_queue.map Prod.snd).map Stream.stream_id).Nodup := by
    refine subperm_nodup ?_ hTnd
    refine List.Subperm.trans ?_ hsup.subperm
    rw [map_snd_stream_id, subIds_eq c]
    refine subperm_append2 ?_ (qids_subperm _)
    refine (hbase_perm.subperm).trans ?_
    rw [List.map_append]
    exact subperm_append2 (qids_subperm _) (qids_subperm _)
  constructor
  · rw [Stream.remove_child_def, hfilter]
    refine foldl_add_child_wf _ _ ?_ hgs_wf ?_
    · refine wfAll_build ?_ ?_ hw hXYwf
      · simpa using hbase_perm
      · simpa using hndch.erase c.stream_id
    · simpa using hfold_nd
  · rw [Stream.remove_child_def, hfilter]
    refine List.Perm.trans (List.Perm.cons _ ?_) hsubperm.symm
    refine (foldl_add_child_subIds_perm _ _).trans ?_
    rw [subIdsL_map_snd, ← subIds_eq]
    refine List.Perm.trans ?_ hsup
    rw [subIds_mk, subIdsQ_append]

/-- Exclusive insertion of a fresh stream preserves well-formedness and adds
exactly the new stream's id to the subtree ids. -/
theorem add_child_exclusive_wf_subIds (p c : Stream)
    (hwf : wfAll p = true) (hc : wfAll c = true)
    (hcch : c.children = []) (hccq : c.child_queue = []) :
    wfAll (p.add_child_exclusive c) = true ∧
    (subIds (p.add_child_exclusive c)).Perm (c.stream_id :: subIds p) := by
  obtain ⟨hperm, hndch, hw, hwq⟩ := wfAll_parts hwf
  have hgs_wf : ∀ g ∈ p.child_queue.map Prod.snd, wfAll g = true := by
    intro g hg
    obtain ⟨e, he, rfl⟩ := List.mem_map.mp hg
    exact (wfAllQ_iff _).mp hwq e he
  have hfold_wf : wfAll ((p.child_queue.map Prod.snd).foldl Stream.add_child c) = true := by
    refine foldl_add_child_wf _ _ hc hgs_wf ?_
    rw [hcch, map_snd_stream_id, List.nil_append]
    exact hperm.nodup_iff.mp hndch
  constructor
  · rw [Stream.add_child_exclusive_def]
    refine add_child_wf _ _ ?_ hfold_wf ?_
    · exact wfAll_build (by simp) (by simp) hw (by simp)
    · simp [foldl_add_child_stream_id]
  · rw [Stream.add_child_exclusive_def]
    refine (add_child_subIds_perm _ _).trans ?_
    rw [foldl_add_child_stream_id]
    simp only [subIds_mk, subIdsQ_nil, List.append_nil]
    refine List.Perm.cons _ ?_
    refine (foldl_add_child_subIds_perm _ _).trans ?_
    rw [subIds_eq c, hccq, subIdsL_map_snd, ← subIds_eq]
    simp

theorem updateAt_no_match (i : Nat) (f : Stream → Stream) :
    (∀ s : Stream, s.stream_id ≠ i → i ∉ subIds s → updateAt i f s = s) ∧
    (∀ q : List (Int × Stream), i ∉ subIdsQ q → updateAtQ i f q = q) := by
  apply streamInd
  · intro id w ch q a lw d hq hid hsub
    rw [updateAt]
    rw [if_neg (by simpa using hid)]
    rw [hq (by simpa using hsub)]
  · intro _
    rfl
  · intro l c rest hc hrest hsub
    simp only [subIdsQ_cons, List.mem_cons, List.mem_append, not_or] at hsub
    rw [updateAtQ, hc (fun h => hsub.1 h.symm) hsub.2.1, hrest hsub.2.2]

theorem removeChildById_no_match (cid : Nat) :
    (∀ s : Stream, cid ∉ subIds s → removeChildById cid s = s) ∧
    (∀ q : List (Int × Stream), cid ∉ subIdsQ q → removeChildByIdQ cid q = q) := by
  apply streamInd
  · intro id w ch q a lw d hq hsub
    rw [removeChildById]
    have hany : q.any (fun e => e.2.stream_id == cid) = false := by
      rw [List.any_eq_false]
      intro e he hc
      have heq : e.2.stream_id = cid := by simpa using hc
      exact hsub (heq ▸ (qids_subperm q).subset (List.mem_map.mpr ⟨e, he, rfl⟩))
    rw [hany]
    simp only [Bool.false_eq_true, if_false]
    rw [hq (by simpa using hsub)]
  · intro _
    rfl
  · intro l c rest hc hrest hsub
    simp only [subIdsQ_cons, List.mem_cons, List.mem_append, not_or] at hsub
    rw [removeChildByIdQ, hc hsub.2.1, hrest hsub.2.2]

/-- Inserting a fresh stream by `updateAt` preserves well-formedness; the
subtree ids either gain exactly the new id (a node matched) or are
unchanged. -/
theorem updateAt_insert_inv (f : Stream → Stream) (nid : Nat)
    (hfid : ∀ x, (f x).stream_id = x.stream_id)
    (hf : ∀ x, wfAll x = true → (subIds x).Nodup → nid ∉ subIds x →
      wfAll (f x) = true ∧ (subIds (f x)).Perm (nid :: subIds x))
    (dep : Nat) :
    (∀ s, wfAll s = true → (subIds s).Nodup → nid ∉ subIds s →
      wfAll (updateAt dep f s) = true ∧
      ((subIds (updateAt dep f s)).Perm (nid :: subIds s) ∨
        subIds (updateAt dep f s) = subIds s)) ∧
    (∀ q, wfAllQ q = true → (subIdsQ q).Nodup → nid ∉ subIdsQ q →
      wfAllQ (updateAtQ dep f q) = true ∧
      (updateAtQ dep f q).map (fun e => e.2.stream_id) = q.map (fun e => e.2.stream_id) ∧
      ((subIdsQ (updateAtQ dep f q)).Perm (nid :: subIdsQ q) ∨
        subIdsQ (updateAtQ dep f q) = subIdsQ q)) := by
  apply streamInd
  · intro id w ch q a lw d hq hwf hnd hnin
    rw [updateAt]
    split
    · exact (fun h => ⟨h.1, Or.inl h.2⟩) (hf _ hwf hnd hnin)
    · obtain ⟨hwq', hids, hor⟩ := hq ((wfAll_parts hwf).2.2.2 )
        (by simpa using hnd) (by simpa using hnin)
      refine ⟨?_, ?_⟩
      · obtain ⟨hperm, hndc, hw, _⟩ := wfAll_parts hwf
        exact wfAll_build (by simpa [hids] using hperm) (by simpa using hndc)
          (by simpa using hw) hwq'
      · simpa using hor
  · intro _ _ _
    exact ⟨rfl, rfl, Or.inr rfl⟩
  · intro l c rest hcm hrestm hwq hnd hnin
    have hparts : wfAll c = true ∧ wfAllQ rest = true := by
      simpa [Bool.and_eq_true] using hwq
    simp only [subIdsQ_cons, List.nodup_cons, List.nodup_append, List.mem_cons,
      List.mem_append, not_or] at hnd hnin
    obtain ⟨hcidnin, hndc, hndr, hdisj⟩ := hnd
    obtain ⟨hnin1, hnin2, hnin3⟩ := hnin
    by_cases hdep : dep = c.stream_id ∨ dep ∈ subIds c
    · have hrest_eq : updateAtQ dep f rest = rest := by
        refine (updateAt_no_match dep f).2 rest ?_
        rcases hdep with rfl | hdep
        · exact hcidnin.2
        · exact fun h => hdisj hdep h
      obtain ⟨hcwf', hcor⟩ := hcm hparts.1 hndc hnin2
      refine ⟨?_, ?_, ?_⟩
      · simp [updateAtQ, hrest_eq, Bool.and_eq_true, hcwf', hparts.2]
      · simp [updateAtQ, hrest_eq, updateAt_stream_id_of hfid]
      · simp only [updateAtQ, hrest_eq, subIdsQ_cons, updateAt_stream_id_of hfid]
        rcases hcor with hcp | hce
        · refine Or.inl ?_
          refine List.Perm.trans (List.Perm.cons _ (List.Perm.append_right _ hcp)) ?_
          exact (List.Perm.swap _ _ _)
        · exact Or.inr (by rw [hce])
    · push_neg at hdep
      have hc_eq : updateAt dep f c = c :=
        (updateAt_no_match dep f).1 c (fun h => hdep.1 h.symm) hdep.2
      obtain ⟨hrwf', hrids, hror⟩ := hrestm hparts.2 hndr hnin3
      refine ⟨?_, ?_, ?_⟩
      · simp [updateAtQ, hc_eq, Bool.and_eq_true, hparts.1, hrwf']
      · simp [updateAtQ, hc_eq, hrids]
      · simp only [updateAtQ, hc_eq, subIdsQ_cons]
        rcases hror with hrp | hre
        · refine Or.inl ?_
          refine List.Perm.trans (List.Perm.cons _ ((List.Perm.append_left _ hrp).trans
            List.perm_middle)) (List.Perm.swap _ _ _)
        · exact Or.inr (by rw [hre])

/-- `updateAt` with a function that only changes scheduling bookkeeping
(such as the `active` flag) leaves well-formedness and subtree ids
untouched. -/
theorem updateAt_skel_inv (f : Stream → Stream)
    (hfid : ∀ x, (f x).stream_id = x.stream_id)
    (hfw : ∀ x, wfAll (f x) = wfAll x)
    (hfs : ∀ x, subIds (f x) = subIds x) (i : Nat) :
    (∀ s, wfAll (updateAt i f s) = wfAll s ∧ subIds (updateAt i f s) = subIds s) ∧
    (∀ q, wfAllQ (updateAtQ i f q) = wfAllQ q ∧ subIdsQ (updateAtQ i f q) = subIdsQ q ∧
      (updateAtQ i f q).map (fun e => e.2.stream_id) = q.map (fun e => e.2.stream_id)) := by
  apply streamInd
  · intro id w ch q a lw d hq
    rw [updateAt]
    split
    · exact ⟨hfw _, hfs _⟩
    · obtain ⟨hw, hs, hids⟩ := hq
      refine ⟨?_, by simpa using hs⟩
      show wfAll (Stream.mk id w ch (updateAtQ i f q) a lw d)
        = wfAll (Stream.mk id w ch q a lw d)
      simp only [wfAll]
      rw [hw, hids]
  · exact ⟨rfl, rfl, rfl⟩
  · intro l c rest hcm hrestm
    obtain ⟨hw, hs⟩ := hcm
    obtain ⟨hwr, hsr, hidsr⟩ := hrestm
    refine ⟨?_, ?_, ?_⟩
    · simp only [updateAtQ, wfAllQ_cons, hw, hwr]
    · simp only [updateAtQ, subIdsQ_cons, hs, hsr, updateAt_stream_id_of hfid]
    · simp only [updateAtQ, List.map_cons, updateAt_stream_id_of hfid, hidsr]

/-- `removeChildById` preserves well-formedness, and the subtree ids lose
exactly the removed id. -/
theorem removeChildById_inv (cid : Nat) :
    (∀ s, wfAll s = true → (subIds s).Nodup → cid ∈ subIds s →
      wfAll (removeChildById cid s) = true ∧
      (cid :: subIds (removeChildById cid s)).Perm (subIds s)) ∧
    (∀ q, wfAllQ q = true → (subIdsQ q).Nodup → cid ∈ subIdsQ q →
      (∀ e ∈ q, e.2.stream_id ≠ cid) →
      wfAllQ (removeChildByIdQ cid q) = true ∧
      (removeChildByIdQ cid q).map (fun e => e.2.stream_id) = q.map (fun e => e.2.stream_id) ∧
      (cid :: subIdsQ (removeChildByIdQ cid q)).Perm (subIdsQ q)) := by
  apply streamInd
  · intro id w ch q a lw d hqm hwf hnd hcid
    rw [removeChildById]
    rcases hany : q.any (fun e => e.2.stream_id == cid) with _ | _
    · simp only [Bool.false_eq_true, if_false]
      have hne : ∀ e ∈ q, e.2.stream_id ≠ cid := by
        rw [List.any_eq_false] at hany
        intro e he hc
        exact hany e he (by simpa using hc)
      obtain ⟨hwq', hids, hperm⟩ := hqm ((wfAll_parts hwf).2.2.2) (by simpa using hnd)
        (by simpa using hcid) hne
      obtain ⟨hp, hndc, hw, _⟩ := wfAll_parts hwf
      exact ⟨wfAll_build (by simpa [hids] using hp) (by simpa using hndc)
        (by simpa using hw) hwq', by simpa using hperm⟩
    · simp only [if_true]
      rcases hfind : q.find? (fun e => e.2.stream_id == cid) with _ | e
      · exfalso
        rw [List.any_eq_true] at hany
        obtain ⟨e, he, hpe⟩ := hany
        exact absurd hpe (by simpa using (List.find?_eq_none.mp hfind) e he)
      · rw [hfind]
        have hmem : e ∈ q := List.mem_of_find?_eq_some hfind
        have heq : e.2.stream_id = cid := by simpa using List.find?_some hfind
        have hmem' : (e.1, e.2) ∈ q := by simpa using hmem
        obtain ⟨h1, h2⟩ := remove_child_wf_subIds (.mk id w ch q a lw d) e.2 e.1 hwf
          (by simpa using hnd) hmem'
        rw [heq] at h2
        exact ⟨h1, by simpa using h2⟩
  · intro h1 h2 h3 h4
    exact absurd (by simpa using h3) (List.not_mem_nil cid)
  · intro l c rest hcm hrestm hwq hnd hcid hne
    have hparts : wfAll c = true ∧ wfAllQ rest = true := by
      simpa [Bool.and_eq_true] using hwq
    have hcne : c.stream_id ≠ cid := hne (l, c) (List.mem_cons_self _ _)
    simp only [subIdsQ_cons, List.nodup_cons, List.nodup_append] at hnd
    obtain ⟨hcidnin, hndc, hndr, hdisj⟩ := hnd
    have hcases : cid ∈ subIds c ∨ cid ∈ subIdsQ rest := by
      rcases List.mem_cons.mp hcid with h | h
      · exact absurd h.symm hcne
      · exact List.mem_append.mp h
    rcases hcases with hin | hin
    · have hrest_eq : removeChildByIdQ cid rest = rest :=
        (removeChildById_no_match cid).2 rest (fun h => hdisj hin h)
      obtain ⟨hcwf', hcperm⟩ := hcm hparts.1 hndc hin
      refine ⟨?_, ?_, ?_⟩
      · simp [removeChildByIdQ, hrest_eq, Bool.and_eq_true, hcwf', hparts.2]
      · simp [removeChildByIdQ, hrest_eq]
      · simp only [removeChildByIdQ, hrest_eq, subIdsQ_cons, removeChildById_stream_id]
        refine List.Perm.trans (List.Perm.swap _ _ _) ?_
        refine List.Perm.cons _ ?_
        exact List.Perm.append_right _ hcperm
    · have hc_eq : removeChildById cid c = c :=
        (removeChildById_no_match cid).1 c (fun h => hdisj h hin)
      obtain ⟨hrwf', hrids, hrperm⟩ := hrestm hparts.2 hndr hin
        (fun e he => hne e (List.mem_cons_of_mem _ he))
      refine ⟨?_, ?_, ?_⟩
      · simp [removeChildByIdQ, hc_eq, Bool.and_eq_true, hparts.1, hrwf']
      · simp [removeChildByIdQ, hc_eq, hrids]
      · simp only [removeChildByIdQ, hc_eq, subIdsQ_cons]
        refine List.Perm.trans (List.Perm.swap _ _ _) ?_
        refine List.Perm.cons _ ?_
        exact List.Perm.trans List.perm_middle.symm (List.Perm.append_left _ hrperm)

/-- The re-insertion pass of `schedule` preserves the queue's id multiset,
the subtree ids and entry well-formedness (all popped weights being nonzero
because the popped entries are well-formed). -/
theorem finalize_invs (p : List (Int × Stream)) : ∀ (s : Stream),
    (∀ e ∈ p, wfAll e.2 = true) →
    ((finalize s p).2.child_queue.map (fun e => e.2.stream_id)).Perm
      ((s.child_queue ++ p).map (fun e => e.2.stream_id)) ∧
    (subIdsQ (finalize s p).2.child_queue).Perm (subIdsQ (s.child_queue ++ p)) ∧
    (wfAllQ s.child_queue = true → wfAllQ (finalize s p).2.child_queue = true) := by
  induction p with
  | nil =>
    intro s _
    cases s
    simp only [finalize, List.append_nil]
    exact ⟨List.Perm.refl _, List.Perm.refl _, fun h => h⟩
  | cons e rest ih =>
    intro s hp
    obtain ⟨l, child⟩ := e
    have hchild : wfAll child = true := hp (l, child) (List.mem_cons_self _ _)
    have hcw : child.weight ≠ 0 := (wfAll_parts hchild).2.2.1
    cases s with
    | mk i w ch q a lw d =>
      rw [finalize]
      rw [if_neg hcw]
      set e' : Int × Stream := (l + Int.fdiv (256 + child._defecit) child.weight,
        child.setDefecit (Int.fmod (256 + child._defecit) child.weight)) with he'
      obtain ⟨hids, hsub, hwf⟩ := ih (.mk i w ch (qput e' q) a l d)
        (fun f hf => hp f (List.mem_cons_of_mem _ hf))
      refine ⟨?_, ?_, ?_⟩
      · refine hids.trans ?_
        simp only [Stream.child_queue_mk, List.map_append]
        refine (List.Perm.append_right _ ((qput_perm e' q).map _)).trans ?_
        simp only [he', List.map_cons, setDefecit_stream_id]
        exact List.perm_middle.symm.trans (by simp [List.map_append])
      · refine hsub.trans ?_
        simp only [Stream.child_queue_mk, subIdsQ_append]
        refine (List.Perm.append_right _ (subIdsQ_perm (qput_perm e' q))).trans ?_
        simp only [he', subIdsQ_cons, setDefecit_stream_id, subIds_setDefecit]
        show ((child.stream_id :: subIds child) ++ subIdsQ q ++ subIdsQ rest).Perm
          (subIdsQ q ++ ((child.stream_id :: subIds child) ++ subIdsQ rest))
        rw [List.append_assoc]
        exact List.perm_append_comm_assoc _ _ _
      · intro hq
        refine hwf ?_
        simp only [Stream.child_queue_mk]
        rw [wfAllQ_iff]
        intro f hf
        rcases mem_qput.mp hf with rfl | hf
        · simpa using hchild
        · exact (wfAllQ_iff q).mp hq f hf

/-- `schedule` preserves well-formedness and the subtree ids (as a
multiset): every popped entry is re-inserted, with only levels, deficits
and `last_weight` updated. -/
theorem schedule_wf :
    (∀ s : Stream, wfAll s = true →
      wfAll (Stream.schedule s).2 = true ∧ (subIds (Stream.schedule s).2).Perm (subIds s)) ∧
    (∀ q : List (Int × Stream), wfAllQ q = true →
      ∀ r popped rem, goSearch q = (r, popped, rem) →
        wfAllQ (popped ++ rem) = true ∧
        ((popped ++ rem).map (fun e => e.2.stream_id)).Perm (q.map (fun e => e.2.stream_id)) ∧
        (subIdsQ (popped ++ rem)).Perm (subIdsQ q)) := by
  apply streamInd
  · intro i w ch q a lw d hqm hwf
    rw [Stream.schedule]
    split
    · exact ⟨hwf, List.Perm.refl _⟩
    · rcases hg : goSearch q with ⟨r, popped, rem⟩
      obtain ⟨hwfpr, hidspr, hsubpr⟩ := hqm ((wfAll_parts hwf).2.2.2) r popped rem hg
      rcases hfin : finalize (.mk i w ch rem a lw d) popped with ⟨ferr, s'⟩
      have hpwf : ∀ e ∈ popped, wfAll e.2 = true := fun e he =>
        (wfAllQ_iff _).mp hwfpr e (List.mem_append.mpr (Or.inl he))
      have hferr : ferr = none := by
        have := finalize_none popped (.mk i w ch rem a lw d)
          (fun e he => (wfAll_parts (hpwf e he)).2.2.1)
        rw [hfin] at this
        exact this
      subst hferr
      obtain ⟨hids, hsub, hwq⟩ := finalize_invs popped (.mk i w ch rem a lw d) hpwf
      rw [hfin] at hids hsub hwq
      have hids' : (s'.child_queue.map (fun e => e.2.stream_id)).Perm
          ((rem ++ popped).map (fun e => e.2.stream_id)) := by simpa using hids
      have hsub' : (subIdsQ s'.child_queue).Perm (subIdsQ (rem ++ popped)) := by
        simpa using hsub
      obtain ⟨hperm, hndc, hw, _⟩ := wfAll_parts hwf
      have hfields := finalize_fields popped (.mk i w ch rem a lw d)
      rw [hfin] at hfields
      have hcomm : ((rem ++ popped).map (fun e => e.2.stream_id)).Perm
          ((popped ++ rem).map (fun e => e.2.stream_id)) :=
        List.Perm.map _ List.perm_append_comm
      have hs'wf : wfAll s' = true := by
        have hchq : s'.children = ch := by simpa using hfields.2.2.1
        refine wfAll_build ?_ (by rw [hchq]; simpa using hndc) ?_ ?_
        · rw [hchq]
          refine (by simpa using hperm : ch.Perm (q.map (fun e => e.2.stream_id))).trans ?_
          exact (hids'.trans (hcomm.trans hidspr)).symm
        · have hws : s'.weight = w := by simpa using hfields.2.2.2
          rw [hws]
          simpa using hw
        · refine hwq ?_
          simp only [Stream.child_queue_mk]
          rw [wfAllQ_iff]
          intro e he
          exact (wfAllQ_iff _).mp hwfpr e (List.mem_append.mpr (Or.inr he))
      have hs'sub : (subIds s').Perm (subIdsQ q) := by
        rw [subIds_eq s']
        refine hsub'.trans ?_
        refine List.Perm.trans ?_ hsubpr
        rw [subIdsQ_append, subIdsQ_append]
        exact List.perm_append_comm
      simp only [hg, hfin]
      cases r
      · exact ⟨hs'wf, by simpa using hs'sub⟩
      · exact ⟨hs'wf, by simpa using hs'sub⟩
      · exact ⟨hs'wf, by simpa using hs'sub⟩
  · intro _ r popped rem h
    simp only [goSearch, Prod.mk.injEq] at h
    obtain ⟨h1, h2, h3⟩ := h
    subst h2
    subst h3
    exact ⟨rfl, List.Perm.refl _, List.Perm.refl _⟩
  · intro l c rest hcm hrestm hwq r popped rem h
    have hparts : wfAll c = true ∧ wfAllQ rest = true := by
      simpa [Bool.and_eq_true] using hwq
    rw [goSearch] at h
    by_cases hact : c.active = true
    · rw [if_pos hact] at h
      simp only [Prod.mk.injEq] at h
      obtain ⟨h1, h2, h3⟩ := h
      subst h2
      subst h3
      exact ⟨by simpa [Bool.and_eq_true] using hparts, List.Perm.refl _, List.Perm.refl _⟩
    · rw [if_neg hact] at h
      rcases hsc : Stream.schedule c with ⟨rc, c'⟩
      rw [hsc] at h
      obtain ⟨hc'wf, hc'sub⟩ := hcm hparts.1
      rw [hsc] at hc'wf hc'sub
      have hc'id : c'.stream_id = c.stream_id := by
        have := (schedule_fields c).1
        rw [hsc] at this
        exact this
      match rc with
      | .ok n =>
        simp only [Prod.mk.injEq] at h
        obtain ⟨h1, h2, h3⟩ := h
        subst h2
        subst h3
        refine ⟨by simpa [Bool.and_eq_true] using ⟨hc'wf, hparts.2⟩, ?_, ?_⟩
        · simp [hc'id]
        · simp only [List.cons_append, subIdsQ_cons, hc'id, List.nil_append]
          exact List.Perm.cons _ (List.Perm.append_right _ hc'sub)
      | .error .empty =>
        rcases hg2 : goSearch rest with ⟨r2, p2, rem2⟩
        rw [hg2] at h
        simp only [Prod.mk.injEq] at h
        obtain ⟨h1, h2, h3⟩ := h
        subst h2
        subst h3
        obtain ⟨hw2, hids2, hsub2⟩ := hrestm hparts.2 r2 p2 rem2 hg2
        refine ⟨?_, ?_, ?_⟩
        · simpa [Bool.and_eq_true] using ⟨hc'wf, hw2⟩
        · simp only [List.cons_append, List.map_cons, hc'id]
          exact List.Perm.cons _ hids2
        · simp only [List.cons_append, subIdsQ_cons, hc'id]
          exact List.Perm.cons _ (List.Perm.append hc'sub hsub2)
      | .error .keyError =>
        simp only [Prod.mk.injEq] at h
        obtain ⟨h1, h2, h3⟩ := h
        subst h2
        subst h3
        refine ⟨by simpa [Bool.and_eq_true] using ⟨hc'wf, hparts.2⟩, by simp [hc'id], ?_⟩
        simp only [List.cons_append, subIdsQ_cons, hc'id, List.nil_append]
        exact List.Perm.cons _ (List.Perm.append_right _ hc'sub)
      | .error .assertionError =>
        simp only [Prod.mk.injEq] at h
        obtain ⟨h1, h2, h3⟩ := h
        subst h2
        subst h3
        refine ⟨by simpa [Bool.and_eq_true] using ⟨hc'wf, hparts.2⟩, by simp [hc'id], ?_⟩
        simp only [List.cons_append, subIdsQ_cons, hc'id, List.nil_append]
        exact List.Perm.cons _ (List.Perm.append_right _ hc'sub)
      | .error .attributeError =>
        simp only [Prod.mk.injEq] at h
        obtain ⟨h1, h2, h3⟩ := h
        subst h2
        subst h3
        refine ⟨by simpa [Bool.and_eq_true] using ⟨hc'wf, hparts.2⟩, by simp [hc'id], ?_⟩
        simp only [List.cons_append, subIdsQ_cons, hc'id, List.nil_append]
        exact List.Perm.cons _ (List.Perm.append_right _ hc'sub)
      | .error .zeroDivisionError =>
        simp only [Prod.mk.injEq] at h
        obtain ⟨h1, h2, h3⟩ := h
        subst h2
        subst h3
        refine ⟨by simpa [Bool.and_eq_true] using ⟨hc'wf, hparts.2⟩, by simp [hc'id], ?_⟩
        simp only [List.cons_append, subIdsQ_cons, hc'id, List.nil_append]
        exact List.Perm.cons _ (List.Perm.append_right _ hc'sub)
      | .error .deadlockError =>
        simp only [Prod.mk.injEq] at h
        obtain ⟨h1, h2, h3⟩ := h
        subst h2
        subst h3
        refine ⟨by simpa [Bool.and_eq_true] using ⟨hc'wf, hparts.2⟩, by simp [hc'id], ?_⟩
        simp only [List.cons_append, subIdsQ_cons, hc'id, List.nil_append]
        exact List.Perm.cons _ (List.Perm.append_right _ hc'sub)

@[simp] theorem msEqAllQ_nil : msEqAllQ [] = true := rfl

@[simp] theorem msEqAllQ_cons (l : Int) (c : Stream) (rest) :
    msEqAllQ ((l, c) :: rest) = (msEqAll c && msEqAllQ rest) := rfl

/-- The combined well-formedness implies §3.2 invariant 4 at every node. -/
theorem wfAll_msEqAll :
    (∀ s : Stream, wfAll s = true → msEqAll s = true) ∧
    (∀ q : List (Int × Stream), wfAllQ q = true → msEqAllQ q = true) := by
  apply streamInd
  · intro i w ch q a lw d hq hwf
    obtain ⟨h1, _, _, h4⟩ := (wfAll_iff i w ch q a lw d).mp hwf
    simp only [msEqAll, Bool.and_eq_true, decide_eq_true_eq]
    exact ⟨h1, hq h4⟩
  · intro _
    rfl
  · intro l c rest hcm hrestm hwq
    have hparts : wfAll c = true ∧ wfAllQ rest = true := by
      simpa [Bool.and_eq_true] using hwq
    simp [Bool.and_eq_true, hcm hparts.1, hrestm hparts.2]

theorem mem_subIdsQ_iff (i : Nat) (q : List (Int × Stream)) :
    i ∈ subIdsQ q ↔ ∃ e ∈ q, i = e.2.stream_id ∨ i ∈ subIds e.2 := by
  induction q with
  | nil => simp
  | cons e rest ih =>
    obtain ⟨l, c⟩ := e
    simp only [subIdsQ_cons, List.mem_cons, List.mem_append, ih]
    constructor
    · rintro (h | h | ⟨f, hf, hfor⟩)
      · exact ⟨(l, c), Or.inl rfl, Or.inl h⟩
      · exact ⟨(l, c), Or.inl rfl, Or.inr h⟩
      · exact ⟨f, Or.inr hf, hfor⟩
    · rintro ⟨f, rfl | hf, hfor⟩
      · rcases hfor with h | h
        · exact Or.inl h
        · exact Or.inr (Or.inl h)
      · exact Or.inr (Or.inr ⟨f, hf, hfor⟩)

/-- `findParentId` succeeds exactly when the id occurs somewhere below the
node: the node itself catches direct children through the `any` check, and
deeper occurrences are found recursively. -/
theorem findParentId_subIds (i : Nat) :
    (∀ s : Stream, (findParentId i s).isSome = true ↔ i ∈ subIds s) ∧
    (∀ q : List (Int × Stream),
      (findParentIdQ i q).isSome = true ↔ ∃ e ∈ q, i ∈ subIds e.2) := by
  apply streamInd
  · intro id w ch q a lw d hq
    rw [findParentId]
    split
    · simp only [Option.isSome_some, true_iff]
      rename_i hany
      rw [List.any_eq_true] at hany
      obtain ⟨e, he, hpe⟩ := hany
      have heq : e.2.stream_id = i := by simpa using hpe
      show i ∈ subIdsQ q
      exact heq ▸ (qids_subperm q).subset (List.mem_map.mpr ⟨e, he, rfl⟩)
    · rename_i hany
      show (findParentIdQ i q).isSome = true ↔ i ∈ subIdsQ q
      rw [hq, mem_subIdsQ_iff]
      constructor
      · rintro ⟨e, he, hmem⟩
        exact ⟨e, he, Or.inr hmem⟩
      · rintro ⟨e, he, heq | hmem⟩
        · exfalso
          refine hany ?_
          rw [List.any_eq_true]
          exact ⟨e, he, by simpa using heq.symm⟩
        · exact ⟨e, he, hmem⟩
  · simp [findParentIdQ]
  · intro l c rest hcm hrestm
    rw [findParentIdQ]
    rcases hfc : findParentId i c with _ | p
    · have hnc : i ∉ subIds c := by
        rw [← hcm]
        simp [hfc]
      simp only [hrestm]
      constructor
      · rintro ⟨e, he, hmem⟩
        exact ⟨e, List.mem_cons_of_mem _ he, hmem⟩
      · rintro ⟨e, he, hmem⟩
        rcases List.mem_cons.mp he with rfl | he
        · exact absurd hmem hnc
        · exact ⟨e, he, hmem⟩
    · simp only [Option.isSome_some, true_iff]
      have : i ∈ subIds c := by
        rw [← hcm]
        simp [hfc]
      exact ⟨(l, c), List.mem_cons_self _ _, this⟩

theorem wf_init (id : Nat) (w : Int) (hw : w ≠ 0) : wfAll (Stream.init id w) = true := by
  rw [Stream.init, wfAll_iff]
  exact ⟨by simp, by simp, hw, rfl⟩

theorem treeWF_after_insert {t : PriorityTree} (id : Nat)
    (h : TreeWF t) (hid_nin : id ∉ t._streams) {root' : Stream}
    (hrid' : root'.stream_id = t._root_stream.stream_id)
    (hwf' : wfAll root' = true)
    (hor : (subIds root').Perm (id :: subIds t._root_stream) ∨
      subIds root' = subIds t._root_stream) :
    TreeWF ⟨root', t._streams ++ [id]⟩ := by
  obtain ⟨hrid, hwf, hnd, hmem, hsnd⟩ := h
  have hid_sub : id ∉ subIds t._root_stream := fun hin => hid_nin (hmem id hin)
  refine ⟨hrid'.trans hrid, hwf', ?_, ?_, ?_⟩
  · rcases hor with hp | he
    · exact hp.nodup_iff.mpr (List.Nodup.cons hid_sub hnd)
    · rw [he]
      exact hnd
  · intro i hi
    rcases hor with hp | he
    · rcases List.mem_cons.mp (hp.subset hi) with rfl | hi'
      · exact List.mem_append.mpr (Or.inr (by simp))
      · exact List.mem_append.mpr (Or.inl (hmem i hi'))
    · rw [he] at hi
      exact List.mem_append.mpr (Or.inl (hmem i hi))
  · exact (List.perm_append_singleton id t._streams).nodup_iff.mpr
      (List.Nodup.cons hid_nin hsnd)

theorem treeWF_insert_stream (t : PriorityTree) (id : Nat) (dep : Option Nat) (w : Int)
    (ex : Bool) (h : TreeWF t) (hw : w ≠ 0) : TreeWF (t.insert_stream id dep w ex).2 := by
  have h0 := h
  obtain ⟨hrid, hwf, hnd, hmem, hsnd⟩ := h0
  rw [PriorityTree.insert_stream]
  split
  · exact h
  · rename_i hnotin
    have hid_nin : id ∉ t._streams := by simpa using hnotin
    have hid_sub : id ∉ subIds t._root_stream := fun hin => hid_nin (hmem id hin)
    split
    · split
      · exact h
      · rename_i dep'
        split
        · obtain ⟨hwf', hor⟩ := (updateAt_insert_inv
            (fun p => p.add_child_exclusive (Stream.init id w)) id
            (fun x => add_child_exclusive_stream_id x _)
            (fun x hx hndx hnin => by
              have := add_child_exclusive_wf_subIds x (Stream.init id w) hx
                (wf_init id w hw) rfl rfl
              exact ⟨this.1, by simpa using this.2⟩) dep').1
            t._root_stream hwf hnd hid_sub
          exact treeWF_after_insert id h hid_nin
            (updateAt_stream_id_of (fun x => add_child_exclusive_stream_id x _) _ _)
            hwf' hor
        · exact h
    · dsimp only
      split
      · obtain ⟨hwf', hor⟩ := (updateAt_insert_inv
          (fun p => p.add_child (Stream.init id w)) id
          (fun x => add_child_stream_id x _)
          (fun x hx hndx hnin => by
            refine ⟨add_child_wf x (Stream.init id w) hx (wf_init id w hw)
              (fun hc => hnin (mem_children_subIds hx hc)), ?_⟩
            have := add_child_subIds_perm x (Stream.init id w)
            simpa [Stream.init] using this) (dep.getD 0)).1
          t._root_stream hwf hnd hid_sub
        exact treeWF_after_insert id h hid_nin
          (updateAt_stream_id_of (fun x => add_child_stream_id x _) _ _) hwf' hor
      · exact h

theorem treeWF_remove_stream (t : PriorityTree) (id : Nat) (h : TreeWF t) :
    TreeWF (t.remove_stream id).2 := by
  obtain ⟨hrid, hwf, hnd, hmem, hsnd⟩ := h
  rw [PriorityTree.remove_stream]
  split
  · split
    · rename_i hfp
      have hid_sub : id ∉ subIds t._root_stream := by
        intro hin
        have := ((findParentId_subIds id).1 t._root_stream).mpr hin
        rw [hfp] at this
        exact absurd this (by simp)
      refine ⟨hrid, hwf, hnd, ?_, hsnd.erase id⟩
      intro i hi
      refine (List.mem_erase_of_ne ?_).mpr (hmem i hi)
      intro hc
      rw [hc] at hi
      exact hid_sub hi
    · rename_i pid hfp
      have hid_sub : id ∈ subIds t._root_stream := by
        have := ((findParentId_subIds id).1 t._root_stream).mp (by rw [hfp]; rfl)
        exact this
      obtain ⟨hwf', hpermr⟩ := (removeChildById_inv id).1 t._root_stream hwf hnd hid_sub
      have hnd' : (id :: subIds (removeChildById id t._root_stream)).Nodup :=
        hpermr.nodup_iff.mpr hnd
      refine ⟨(removeChildById_stream_id _ _).trans hrid, hwf', ?_, ?_, hsnd.erase id⟩
      · exact (List.nodup_cons.mp hnd').2
      · intro i hi
        have hiorig : i ∈ subIds t._root_stream :=
          hpermr.subset (List.mem_cons_of_mem _ hi)
        have hne : i ≠ id := by
          intro hc
          exact (List.nodup_cons.mp hnd').1 (hc ▸ hi)
        exact (List.mem_erase_of_ne hne).mpr (hmem i hiorig)
  · exact ⟨hrid, hwf, hnd, hmem, hsnd⟩

theorem treeWF_block (t : PriorityTree) (id : Nat) (h : TreeWF t) :
    TreeWF (t.block id).2 := by
  obtain ⟨hrid, hwf, hnd, hmem, hsnd⟩ := h
  rw [PriorityTree.block]
  split
  · obtain ⟨hwfeq, hsubeq⟩ := (updateAt_skel_inv (fun s => s.setActive false)
      (fun x => setActive_stream_id x _) (fun x => wfAll_setActive x _)
      (fun x => subIds_setActive x _) id).1 t._root_stream
    refine ⟨(updateAt_stream_id_of (fun x => setActive_stream_id x _) _ _).trans hrid,
      hwfeq.trans hwf, ?_, ?_, hsnd⟩
    · rw [hsubeq]
      exact hnd
    · rw [hsubeq]
      exact hmem
  · exact ⟨hrid, hwf, hnd, hmem, hsnd⟩

theorem treeWF_unblock (t : PriorityTree) (id : Nat) (h : TreeWF t) :
    TreeWF (t.unblock id).2 := by
  obtain ⟨hrid, hwf, hnd, hmem, hsnd⟩ := h
  rw [PriorityTree.unblock]
  split
  · obtain ⟨hwfeq, hsubeq⟩ := (updateAt_skel_inv (fun s => s.setActive true)
      (fun x => setActive_stream_id x _) (fun x => wfAll_setActive x _)
      (fun x => subIds_setActive x _) id).1 t._root_stream
    refine ⟨(updateAt_stream_id_of (fun x => setActive_stream_id x _) _ _).trans hrid,
      hwfeq.trans hwf, ?_, ?_, hsnd⟩
    · rw [hsubeq]
      exact hnd
    · rw [hsubeq]
      exact hmem
  · exact ⟨hrid, hwf, hnd, hmem, hsnd⟩

theorem treeWF_next (t : PriorityTree) (h : TreeWF t) : TreeWF t.next.2 := by
  obtain ⟨hrid, hwf, hnd, hmem, hsnd⟩ := h
  obtain ⟨hwf', hperm⟩ := schedule_wf.1 t._root_stream hwf
  have hfields := schedule_fields t._root_stream
  rw [PriorityTree.next]
  rcases hsc : Stream.schedule t._root_stream with ⟨r, s'⟩
  rw [hsc] at hwf' hperm hfields
  have hcore : TreeWF ⟨s', t._streams⟩ := by
    refine ⟨hfields.1.trans hrid, hwf', hperm.nodup_iff.mpr hnd, ?_, hsnd⟩
    intro i hi
    exact hmem i (hperm.subset hi)
  rcases r with e | n
  · cases e <;> exact hcore
  · exact hcore

/-! ## Claim C9 -/

/-- Counterexample to C9 as stated: with a zero-weight stream (which
`insert_stream` accepts), the `ZeroDivisionError` raised inside `schedule`'s
`finally` re-insertion aborts the loop, so the popped entry is lost and the
children/queue multisets diverge — and this is reachable by public
operations alone. -/
theorem claim9_counterexample :
    (PriorityTree.init.insert_stream 1 none 0 false).2.next.1
      = .error .zeroDivisionError ∧
    msEqAll (PriorityTree.init.insert_stream 1 none 0 false).2._root_stream = true ∧
    msEqAll ((PriorityTree.init.insert_stream 1 none 0 false).2.next.2)._root_stream
      = false := by
  exact ⟨rfl, rfl, rfl⟩

/-- Claim C9 (amended): in every state reachable by public operations that
only insert nonzero weights — error outcomes included, in particular a
`next()` that fails with `DeadlockError` after re-inserting every popped
queue entry — every node's multiset of stream ids in `children` equals the
multiset of stream ids in `child_queue`. -/
theorem claim9_children_match_queue {t : PriorityTree} (h : ReachNZ t) :
    msEqAll t._root_stream = true := by
  have hwf : TreeWF t := by
    induction h with
    | init =>
      refine ⟨rfl, rfl, ?_, ?_, ?_⟩
      · exact List.nodup_nil
      · intro i hi
        exact absurd hi (List.not_mem_nil i)
      · exact List.nodup_singleton 0
    | insert_stream t id dep w ex _ hw ih => exact treeWF_insert_stream t id dep w ex ih hw
    | remove_stream t id _ ih => exact treeWF_remove_stream t id ih
    | block t id _ ih => exact treeWF_block t id ih
    | unblock t id _ ih => exact treeWF_unblock t id ih
    | next t _ ih => exact treeWF_next t ih
  exact wfAll_msEqAll.1 t._root_stream hwf.2.1

/-- Witness for C9 on a concrete reachable state that exercises the failed
`next()` path: insert stream 1 (weight 16), block it, and call `next`,
which raises `DeadlockError` after re-inserting the popped entry. -/
theorem claim9_witness :
    ((((PriorityTree.init.insert_stream 1 none 16 false).2.block 1).2.next).1
      = Except.error PyErr.deadlockError) ∧
    msEqAll ((((PriorityTree.init.insert_stream 1 none 16 false).2.block 1).2.next).2)._root_stream
      = true := by
  refine ⟨rfl, ?_⟩
  exact claim9_children_match_queue
    (ReachNZ.next _ (ReachNZ.block _ 1
      (ReachNZ.insert_stream _ 1 none 16 false ReachNZ.init (by decide))))

/-! ## Claims C2-C4: order lemmas for the flat round robin -/

theorem entryLE_refl (a : Int × Stream) : entryLE a a = true := by
  simp [entryLE]

theorem entryLE_total (a b : Int × Stream) : entryLE a b = true ∨ entryLE b a = true := by
  simp only [entryLE, Bool.or_eq_true, Bool.and_eq_true, decide_eq_true_eq]
  rcases lt_trichotomy a.1 b.1 with h | h | h
  · exact Or.inl (Or.inl h)
  · rcases Nat.le_total a.2.stream_id b.2.stream_id with h2 | h2
    · exact Or.inl (Or.inr ⟨h, h2⟩)
    · exact Or.inr (Or.inr ⟨h.symm, h2⟩)
  · exact Or.inr (Or.inl h)

theorem entryLE_trans {a b c : Int × Stream} (hab : entryLE a b = true)
    (hbc : entryLE b c = true) : entryLE a c = true := by
  simp only [entryLE, Bool.or_eq_true, Bool.and_eq_true, decide_eq_true_eq] at hab hbc ⊢
  rcases hab with h1 | ⟨h1, h1'⟩ <;> rcases hbc with h2 | ⟨h2, h2'⟩
  · exact Or.inl (h1.trans h2)
  · exact Or.inl (h2 ▸ h1)
  · exact Or.inl (h1 ▸ h2)
  · exact Or.inr ⟨h1.trans h2, h1'.trans h2'⟩

theorem pairwise_qput {e : Int × Stream} {l : List (Int × Stream)}
    (h : List.Pairwise (fun a b => entryLE a b = true) l) :
    List.Pairwise (fun a b => entryLE a b = true) (qput e l) := by
  induction l with
  | nil => simp [qput]
  | cons f rest ih =>
    rw [List.pairwise_cons] at h
    rw [qput]
    split
    · rename_i hef
      refine List.Pairwise.cons ?_ (List.Pairwise.cons h.1 h.2)
      intro x hx
      rcases List.mem_cons.mp hx with rfl | hx
      · exact hef
      · exact entryLE_trans hef (h.1 x hx)
    · rename_i hef
      refine List.Pairwise.cons ?_ (ih h.2)
      intro x hx
      rcases mem_qput.mp hx with rfl | hx
      · rcases entryLE_total x f with he | he
        · exact absurd he hef
        · exact he
      · exact h.1 x hx

theorem sorted_head_le {e : Int × Stream} {l : List (Int × Stream)}
    (h : List.Pairwise (fun a b => entryLE a b = true) (e :: l)) :
    ∀ x ∈ e :: l, entryLE e x = true := by
  intro x hx
  rcases List.mem_cons.mp hx with rfl | hx
  · exact entryLE_refl x
  · exact (List.pairwise_cons.mp h).1 x hx

theorem keyLTb_irrefl (a : Int × Nat) : keyLTb a a = false := by
  simp [keyLTb]

theorem keyLTb_false_of_le {a b : Int × Nat}
    (h : a.1 < b.1 ∨ (a.1 = b.1 ∧ a.2 ≤ b.2)) : keyLTb b a = false := by
  simp only [keyLTb, Bool.or_eq_false_iff, Bool.and_eq_false_iff,
    decide_eq_false_iff_not]
  constructor
  · rcases h with h | ⟨h, _⟩
    · omega
    · omega
  · rcases h with h | ⟨h, h2⟩
    · left
      omega
    · right
      omega

theorem keyLTb_both_false {a b : Int × Nat} (h1 : keyLTb a b = false)
    (h2 : keyLTb b a = false) : a = b := by
  simp only [keyLTb, Bool.or_eq_false_iff, Bool.and_eq_false_iff,
    decide_eq_false_iff_not] at h1 h2
  obtain ⟨ha1, ha2⟩ := h1
  obtain ⟨hb1, hb2⟩ := h2
  have he1 : a.1 = b.1 := by omega
  have he2 : a.2 = b.2 := by
    rcases ha2 with h | h
    · exact absurd he1 h
    · rcases hb2 with h' | h'
      · exact absurd he1.symm h'
      · omega
  exact Prod.ext he1 he2

theorem argminE_mem (best : Nat × Nat × Nat) (C : List (Nat × Nat × Nat)) :
    argminE best C = best ∨ argminE best C ∈ C := by
  induction C generalizing best with
  | nil => exact Or.inl rfl
  | cons c rest ih =>
    rw [argminE]
    rcases ih (if keyLTb (keyOf c) (keyOf best) then c else best) with h | h
    · rw [h]
      split
      · exact Or.inr (List.mem_cons_self _ _)
      · exact Or.inl rfl
    · exact Or.inr (List.mem_cons_of_mem _ h)

theorem argminE_min (best : Nat × Nat × Nat) (C : List (Nat × Nat × Nat)) :
    ∀ c ∈ best :: C, keyLTb (keyOf c) (keyOf (argminE best C)) = false := by
  induction C generalizing best with
  | nil =>
    intro c hc
    rcases List.mem_cons.mp hc with rfl | hc
    · exact keyLTb_irrefl _
    · exact absurd hc (List.not_mem_nil c)
  | cons d rest ih =>
    intro c hc
    rw [argminE]
    have hbest' := ih (if keyLTb (keyOf d) (keyOf best) then d else best)
    rcases List.mem_cons.mp hc with rfl | hc
    · -- c = best
      split
      · rename_i hdb
        -- best' = d with d < best; argmin ≤ d < best
        have hd := hbest' d (by rw [if_pos hdb]; exact List.mem_cons_self _ _)
        rw [if_pos hdb] at hd
        -- hd : ¬ d < argmin ; hdb : d < best.  Show ¬ best < argmin.
        by_contra hcon
        rw [Bool.not_eq_false] at hcon
        simp only [keyLTb, Bool.or_eq_true, Bool.and_eq_true, decide_eq_true_eq] at hd hdb hcon
        simp only [keyLTb, Bool.or_eq_false_iff, Bool.and_eq_false_iff,
          decide_eq_false_iff_not] at hd
        obtain ⟨hd1, hd2⟩ := hd
        rcases hdb with h | ⟨h, h'⟩ <;> rcases hcon with g | ⟨g, g'⟩
        · omega
        · omega
        · omega
        · rcases hd2 with hh | hh
          · omega
          · omega
      · rename_i hdb
        rw [if_neg hdb] at hbest'
        exact hbest' c (List.mem_cons_self _ _)
    · rcases List.mem_cons.mp hc with rfl | hc
      · -- c = d
        split
        · rename_i hdb
          rw [if_pos hdb] at hbest'
          exact hbest' c (List.mem_cons_self _ _)
        · rename_i hdb
          rw [if_neg hdb] at hbest'
          -- ¬ d < best, argmin ≤ best; show ¬ d < argmin
          have hb := hbest' best (List.mem_cons_self _ _)
          rw [Bool.not_eq_true] at hdb
          by_contra hcon
          rw [Bool.not_eq_false] at hcon
          simp only [keyLTb, Bool.or_eq_true, Bool.and_eq_true, decide_eq_true_eq] at hcon
          simp only [keyLTb, Bool.or_eq_false_iff, Bool.and_eq_false_iff,
            decide_eq_false_iff_not] at hdb hb
          obtain ⟨hb1, hb2⟩ := hb
          obtain ⟨hd1, hd2⟩ := hdb
          rcases hcon with g | ⟨g, g'⟩
          · rcases hd2 with hh | hh <;> rcases hb2 with gg | gg <;> omega
          · rcases hd2 with hh | hh <;> rcases hb2 with gg | gg <;> omega
      · split
        · rw [if_pos (by assumption)] at hbest'
          exact hbest' c (List.mem_cons_of_mem _ hc)
        · rw [if_neg (by assumption)] at hbest'
          exact hbest' c (List.mem_cons_of_mem _ hc)

theorem selC_eq_of_min {C : List (Nat × Nat × Nat)} {c₀ : Nat × Nat × Nat}
    (h₀ : c₀ ∈ C) (hmin : ∀ c ∈ C, keyLTb (keyOf c) (keyOf c₀) = false) :
    selC C = c₀.1 := by
  cases C with
  | nil => exact absurd h₀ (List.not_mem_nil c₀)
  | cons c rest =>
    rw [selC]
    have hm : argminE c rest = c ∨ argminE c rest ∈ rest := argminE_mem c rest
    have hmem : argminE c rest ∈ c :: rest := by
      rcases hm with h | h
      · rw [h]
        exact List.mem_cons_self _ _
      · exact List.mem_cons_of_mem _ h
    have h1 : keyLTb (keyOf (argminE c rest)) (keyOf c₀) = false := hmin _ hmem
    have h2 : keyLTb (keyOf c₀) (keyOf (argminE c rest)) = false := argminE_min c rest c₀ h₀
    have := keyLTb_both_false h2 h1
    have : (keyOf c₀).2 = (keyOf (argminE c rest)).2 := by rw [this]
    simpa [keyOf] using this.symm

/-! ### Arithmetic of the deficit round robin -/

theorem wpos {w : Nat} (hw : 1 ≤ w) : (0 : Int) < (w : Int) := by exact_mod_cast hw

theorem flatLevel_eq_ediv (w k : Nat) (hw : 1 ≤ w) :
    flatLevel w k = (256 * (k : Int)) / (w : Int) := by
  rw [flatLevel]
  exact Int.fdiv_eq_ediv _ (le_of_lt (wpos hw))

theorem flatDefecit_eq_emod (w k : Nat) (hw : 1 ≤ w) :
    Int.fmod (256 * (k : Int)) (w : Int) = (256 * (k : Int)) % (w : Int) := by
  exact Int.fmod_eq_emod _ (le_of_lt (wpos hw))

theorem flat_advance (w k : Nat) (hw : 1 ≤ w) :
    flatLevel w k + Int.fdiv (256 + Int.fmod (256 * (k : Int)) (w : Int)) (w : Int)
      = flatLevel w (k + 1) ∧
    Int.fmod (256 + Int.fmod (256 * (k : Int)) (w : Int)) (w : Int)
      = Int.fmod (256 * ((k + 1 : Nat) : Int)) (w : Int) := by
  have hw0 : (w : Int) ≠ 0 := ne_of_gt (wpos hw)
  constructor
  · rw [flatLevel_eq_ediv w k hw, flatLevel_eq_ediv w (k + 1) hw,
      flatDefecit_eq_emod w k hw, Int.fdiv_eq_ediv _ (le_of_lt (wpos hw))]
    have hc : ((k + 1 : Nat) : Int) = (k : Int) + 1 := by push_cast; ring
    rw [hc]
    have hdm := Int.ediv_add_emod (256 * (k : Int)) (w : Int)
    have hkey : (256 : Int) + 256 * (k : Int) % (w : Int)
        = 256 * ((k : Int) + 1) + -(256 * (k : Int) / (w : Int)) * (w : Int) := by
      linear_combination hdm
    rw [hkey, Int.add_mul_ediv_right _ _ hw0]
    ring
  · rw [flatDefecit_eq_emod w k hw, Int.fmod_eq_emod _ (le_of_lt (wpos hw))]
    rw [add_comm (256 : Int) _, Int.emod_add_emod]
    have hc : (256 * (k : Int) + 256) = 256 * ((k + 1 : Nat) : Int) := by
      push_cast
      ring
    rw [hc, Int.fmod_eq_emod _ (le_of_lt (wpos hw))]

theorem flatLevel_nonneg (w k : Nat) (hw : 1 ≤ w) : 0 ≤ flatLevel w k := by
  rw [flatLevel_eq_ediv w k hw]
  exact Int.ediv_nonneg (by positivity) (le_of_lt (wpos hw))

theorem flatLevel_zero (w : Nat) : flatLevel w 0 = 0 := by
  simp [flatLevel]

theorem flatLevel_pos (w k : Nat) (hw1 : 1 ≤ w) (hw2 : w ≤ 256) (hk : 1 ≤ k) :
    1 ≤ flatLevel w k := by
  rw [flatLevel_eq_ediv w k hw1, Int.le_ediv_iff_mul_le (wpos hw1)]
  have h1 : (w : Int) ≤ 256 := by exact_mod_cast hw2
  have h2 : (1 : Int) ≤ (k : Int) := by exact_mod_cast hk
  nlinarith

theorem flatLevel_mono (w : Nat) (hw1 : 1 ≤ w) {k k' : Nat} (h : k ≤ k') :
    flatLevel w k ≤ flatLevel w k' := by
  rw [flatLevel_eq_ediv w k hw1, flatLevel_eq_ediv w k' hw1]
  refine Int.ediv_le_ediv (wpos hw1) ?_
  have : (k : Int) ≤ (k' : Int) := by exact_mod_cast h
  nlinarith

theorem flatLevel_self (w : Nat) (hw1 : 1 ≤ w) : flatLevel w w = 256 := by
  rw [flatLevel_eq_ediv w w hw1]
  exact Int.mul_ediv_cancel 256 (ne_of_gt (wpos hw1))

theorem flatLevel_addW (w k : Nat) (hw1 : 1 ≤ w) :
    flatLevel w (k + w) = flatLevel w k + 256 := by
  rw [flatLevel_eq_ediv w (k + w) hw1, flatLevel_eq_ediv w k hw1]
  have hc : (256 * ((k + w : Nat) : Int)) = 256 * (k : Int) + 256 * (w : Int) := by
    push_cast
    ring
  rw [hc, Int.add_mul_ediv_right _ _ (ne_of_gt (wpos hw1))]

theorem flatLevel_succ_self (w : Nat) (hw1 : 1 ≤ w) (hw2 : w ≤ 256) :
    257 ≤ flatLevel w (w + 1) := by
  have h1 : flatLevel w (1 + w) = flatLevel w 1 + 256 := flatLevel_addW w 1 hw1
  rw [Nat.add_comm w 1, h1]
  have := flatLevel_pos w 1 hw1 hw2 le_rfl
  omega

theorem flatLevel_le_256 (w k : Nat) (hw1 : 1 ≤ w) (hk : k ≤ w) :
    flatLevel w k ≤ 256 := by
  have := flatLevel_mono w hw1 hk
  rw [flatLevel_self w hw1] at this
  exact this

theorem flatLevel_ge_257 (w k : Nat) (hw1 : 1 ≤ w) (hw2 : w ≤ 256) (hk : w + 1 ≤ k) :
    257 ≤ flatLevel w k :=
  le_trans (flatLevel_succ_self w hw1 hw2) (flatLevel_mono w hw1 hk)

theorem flatLevel_eq_zero_imp (w k : Nat) (hw1 : 1 ≤ w) (hw2 : w ≤ 256)
    (h : flatLevel w k = 0) : k = 0 := by
  by_contra hk
  have := flatLevel_pos w k hw1 hw2 (Nat.one_le_iff_ne_zero.mpr hk)
  omega

@[simp] theorem flatLeaf_active (i w k : Nat) : (flatLeaf i w k).active = true := rfl

@[simp] theorem flatLeaf_stream_id (i w k : Nat) : (flatLeaf i w k).stream_id = i := rfl

@[simp] theorem flatLeaf_weight (i w k : Nat) : (flatLeaf i w k).weight = (w : Int) := rfl

@[simp] theorem flatLeaf_defecit (i w k : Nat) :
    (flatLeaf i w k)._defecit = Int.fmod (256 * (k : Int)) (w : Int) := rfl

theorem entryLE_flatEntry (a b : Nat × Nat × Nat) :
    entryLE (flatEntry a) (flatEntry b)
      = (decide (flatLevel a.2.1 a.2.2 < flatLevel b.2.1 b.2.2) ||
        (decide (flatLevel a.2.1 a.2.2 = flatLevel b.2.1 b.2.2) && decide (a.1 ≤ b.1))) := rfl

theorem bumpC_eq_self {C : List (Nat × Nat × Nat)} {i : Nat}
    (h : i ∉ C.map Prod.fst) : bumpC C i = C := by
  induction C with
  | nil => rfl
  | cons c rest ih =>
    simp only [List.map_cons, List.mem_cons, not_or] at h
    rw [bumpC, List.map_cons]
    rw [if_neg (fun hc => h.1 hc.symm)]
    have := ih h.2
    rw [bumpC] at this
    rw [this]

theorem bumpC_decompose (X Y : List (Nat × Nat × Nat)) (c : Nat × Nat × Nat)
    (hX : c.1 ∉ X.map Prod.fst) (hY : c.1 ∉ Y.map Prod.fst) :
    bumpC (X ++ c :: Y) c.1 = X ++ (c.1, c.2.1, c.2.2 + 1) :: Y := by
  rw [bumpC, List.map_append, List.map_cons, if_pos rfl]
  have h1 : X.map (fun x => if x.1 = c.1 then (x.1, x.2.1, x.2.2 + 1) else x) = X := by
    have := bumpC_eq_self hX
    rw [bumpC] at this
    exact this
  have h2 : Y.map (fun x => if x.1 = c.1 then (x.1, x.2.1, x.2.2 + 1) else x) = Y := by
    have := bumpC_eq_self hY
    rw [bumpC] at this
    exact this
  rw [h1, h2]

/-- One call to `next` on a flat all-active configuration emits the id the
abstract weighted round robin selects, and steps the tree to the
configuration with that id's pop counter bumped. -/
theorem flat_step {C : List (Nat × Nat × Nat)} {t : PriorityTree}
    (hC : GoodC C) (hne : C ≠ []) (hst : FlatSt C t) :
    t.next.1 = Except.ok (selC C) ∧ FlatSt (stepC C) t.next.2 := by
  obtain ⟨ch, lw, Q, hroot, hsort, hperm⟩ := hst
  have hQne : Q ≠ [] := by
    intro hQ
    rw [hQ] at hperm
    have := hperm.symm.eq_nil
    exact hne (by simpa using this)
  rcases hQ : Q with _ | ⟨⟨l₀, c₀⟩, Qt⟩
  · exact absurd hQ hQne
  subst hQ
  have hhead : (l₀, c₀) ∈ C.map flatEntry := hperm.subset (List.mem_cons_self _ _)
  obtain ⟨c, hcC, hce⟩ := List.mem_map.mp hhead
  obtain ⟨i, w, k⟩ := c
  have hce1 : flatLevel w k = l₀ := congrArg Prod.fst hce
  have hce2 : flatLeaf i w k = c₀ := congrArg Prod.snd hce
  subst hce1
  subst hce2
  obtain ⟨hw1, hw2⟩ := hC.2 (i, w, k) hcC
  have hwz : ((w : Nat) : Int) ≠ 0 := ne_of_gt (wpos hw1)
  -- the concrete scheduling step
  have hsched : Stream.schedule (Stream.mk 0 1 ch ((flatLevel w k, flatLeaf i w k) :: Qt)
        false lw 0)
      = (Except.ok i, Stream.mk 0 1 ch (qput (flatEntry (i, w, k + 1)) Qt)
          false (flatLevel w k) 0) := by
    rw [Stream.schedule]
    simp only [Bool.false_eq_true, if_false]
    rw [goSearch]
    simp only [flatLeaf_active, if_true, flatLeaf_stream_id]
    rw [finalize]
    rw [if_neg (by simpa using hwz)]
    have he' : (flatLevel w k + Int.fdiv (256 + (flatLeaf i w k)._defecit)
          (flatLeaf i w k).weight,
        (flatLeaf i w k).setDefecit (Int.fmod (256 + (flatLeaf i w k)._defecit)
          (flatLeaf i w k).weight)) = flatEntry (i, w, k + 1) := by
      obtain ⟨ha1, ha2⟩ := flat_advance w k hw1
      simp only [flatLeaf_defecit, flatLeaf_weight]
      rw [flatEntry]
      refine Prod.ext ?_ ?_
      · exact ha1
      · dsimp only
        rw [flatLeaf, Stream.setDefecit, ha2]
        rfl
    rw [he']
    rw [finalize]
  constructor
  · rw [PriorityTree.next, hroot, hsched]
    have hid : selC C = i := by
      refine selC_eq_of_min hcC ?_
      intro c' hc'
      have hmemQ : flatEntry c' ∈ (flatLevel w k, flatLeaf i w k) :: Qt := by
        refine hperm.symm.subset (List.mem_map.mpr ⟨c', hc', rfl⟩)
      have hle := sorted_head_le hsort _ hmemQ
      have : entryLE (flatEntry (i, w, k)) (flatEntry c') = true := hle
      rw [entryLE_flatEntry] at this
      simp only [Bool.or_eq_true, Bool.and_eq_true, decide_eq_true_eq] at this
      exact keyLTb_false_of_le (by simpa [keyOf] using this)
    rw [hid]
  · rw [PriorityTree.next, hroot, hsched]
    obtain ⟨X, Y, hCdec⟩ := List.append_of_mem hcC
    have hidsnd := hC.1
    rw [hCdec, List.map_append, List.map_cons] at hidsnd
    have hiX : (i : Nat) ∉ X.map Prod.fst ∧ (i : Nat) ∉ Y.map Prod.fst := by
      have := List.nodup_middle.mp hidsnd
      rw [List.nodup_cons] at this
      have h1 := this.1
      simp only [List.mem_append] at h1
      exact ⟨fun hx => h1 (Or.inl hx), fun hy => h1 (Or.inr hy)⟩
  -- the stepped configuration
    have hstep : stepC C = X ++ (i, w, k + 1) :: Y := by
      rw [stepC]
      have hid : selC C = i := by
        refine selC_eq_of_min hcC ?_
        intro c' hc'
        have hmemQ : flatEntry c' ∈ (flatLevel w k, flatLeaf i w k) :: Qt :=
          hperm.symm.subset (List.mem_map.mpr ⟨c', hc', rfl⟩)
        have hle := sorted_head_le hsort _ hmemQ
        have : entryLE (flatEntry (i, w, k)) (flatEntry c') = true := hle
        rw [entryLE_flatEntry] at this
        simp only [Bool.or_eq_true, Bool.and_eq_true, decide_eq_true_eq] at this
        exact keyLTb_false_of_le (by simpa [keyOf] using this)
      rw [hid, hCdec]
      exact bumpC_decompose X Y (i, w, k) hiX.1 hiX.2
    have hQt : Qt.Perm (X.map flatEntry ++ Y.map flatEntry) := by
      have : ((flatLevel w k, flatLeaf i w k) :: Qt).Perm
          (X.map flatEntry ++ flatEntry (i, w, k) :: Y.map flatEntry) := by
        rw [← List.map_cons, ← List.map_append, ← hCdec]
        exact hperm
      have h2 := this.trans List.perm_middle
      exact List.Perm.cons_inv h2
    refine ⟨ch, flatLevel w k, qput (flatEntry (i, w, k + 1)) Qt, rfl, ?_, ?_⟩
    · exact pairwise_qput (List.Pairwise.sublist (List.sublist_cons_self _ _) hsort)
    · rw [hstep, List.map_append, List.map_cons]
      refine (qput_perm _ _).trans ?_
      refine (List.Perm.cons _ hQt).trans ?_
      exact List.perm_middle.symm

theorem flatEntry_zero (i w : Nat) : flatEntry (i, w, 0) = ((0 : Int), Stream.init i w) := by
  rw [flatEntry, flatLevel, flatLeaf, Stream.init]
  norm_num

theorem buildFlat_aux (L : List (Nat × Nat)) :
    ∀ (ch : List Nat) (Q : List (Int × Stream)) (streams : List Nat)
      (M : List (Nat × Nat × Nat)),
      (∀ c ∈ L, c.1 ≠ 0 ∧ c.1 ∉ streams) →
      (0 : Nat) ∈ streams →
      (L.map Prod.fst).Nodup →
      List.Pairwise (fun a b => entryLE a b = true) Q →
      Q.Perm (M.map flatEntry) →
      ∃ ch' Q' streams',
        L.foldl (fun t c => (t.insert_stream c.1 none (c.2 : Int) false).2)
          (⟨Stream.mk 0 1 ch Q false 0 0, streams⟩ : PriorityTree)
        = (⟨Stream.mk 0 1 ch' Q' false 0 0, streams'⟩ : PriorityTree) ∧
        List.Pairwise (fun a b => entryLE a b = true) Q' ∧
        Q'.Perm ((M ++ initC L).map flatEntry) := by
  induction L with
  | nil =>
    intro ch Q streams M _ _ _ hsort hperm
    exact ⟨ch, Q, streams, rfl, hsort, by simpa [initC] using hperm⟩
  | cons c rest ih =>
    intro ch Q streams M hnew h0 hnd hsort hperm
    obtain ⟨hc0, hcs⟩ := hnew c (List.mem_cons_self _ _)
    have hstep : PriorityTree.insert_stream
        ⟨Stream.mk 0 1 ch Q false 0 0, streams⟩ c.1 none (c.2 : Int) false
        = (.ok (), ⟨Stream.mk 0 1 (ch ++ [c.1])
            (qput ((0 : Int), Stream.init c.1 (c.2 : Int)) Q) false 0 0,
            streams ++ [c.1]⟩) := by
      rw [PriorityTree.insert_stream]
      rw [if_neg (by simpa using hcs)]
      dsimp only
      rw [if_neg (by simp)]
      show (if streams.contains 0 then _ else _) = _
      rw [if_pos (by simpa using h0)]
      rw [updateAt]
      rfl
    rw [List.foldl_cons, hstep]
    have hperm' : (qput ((0 : Int), Stream.init c.1 (c.2 : Int)) Q).Perm
        ((M ++ [(c.1, c.2, 0)]).map flatEntry) := by
      refine (qput_perm _ _).trans ?_
      rw [List.map_append, List.map_cons]
      have : flatEntry (c.1, c.2, 0) = ((0 : Int), Stream.init c.1 (c.2 : Int)) :=
        flatEntry_zero c.1 c.2
      rw [List.map_nil]
      refine List.Perm.trans ?_ (List.perm_append_singleton _ _).symm
      exact this ▸ List.Perm.cons _ hperm
    have hres := ih (ch ++ [c.1]) (qput ((0 : Int), Stream.init c.1 (c.2 : Int)) Q)
      (streams ++ [c.1]) (M ++ [(c.1, c.2, 0)])
      (by
        intro d hd
        obtain ⟨hd0, hds⟩ := hnew d (List.mem_cons_of_mem _ hd)
        refine ⟨hd0, ?_⟩
        simp only [List.mem_append, List.mem_singleton]
        rintro (h | h)
        · exact hds h
        · rw [List.map_cons, List.nodup_cons] at hnd
          exact hnd.1 (h ▸ List.mem_map.mpr ⟨d, hd, rfl⟩))
      (List.mem_append.mpr (Or.inl h0))
      (by rw [List.map_cons, List.nodup_cons] at hnd; exact hnd.2)
      (pairwise_qput hsort) hperm'
    obtain ⟨ch', Q', streams', heq, hs', hp'⟩ := hres
    refine ⟨ch', Q', streams', heq, hs', ?_⟩
    refine hp'.trans ?_
    have h5 : M ++ [(c.1, c.2, 0)] ++ initC rest = M ++ initC (c :: rest) := by
      simp [initC]
    rw [h5]

/-- Building a flat tree yields the initial flat configuration. -/
theorem buildFlat_inv (L : List (Nat × Nat)) (hL : GoodL L) :
    FlatSt (initC L) (buildFlat L) := by
  obtain ⟨_, hnd, hall⟩ := hL
  have := buildFlat_aux L [] [] [0] []
    (fun c hc => ⟨(hall c hc).1, by simpa using (hall c hc).1⟩)
    (List.mem_singleton.mpr rfl) hnd List.Pairwise.nil (by simp)
  obtain ⟨ch', Q', streams', heq, hs', hp'⟩ := this
  refine ⟨ch', 0, Q', ?_, hs', by simpa using hp'⟩
  rw [buildFlat]
  show (L.foldl (fun t c => (t.insert_stream c.1 none (c.2 : Int) false).2)
      (⟨(Stream.init 0 1).setActive false, [0]⟩ : PriorityTree))._root_stream = _
  have hinit : ((Stream.init 0 1).setActive false) = Stream.mk 0 1 [] [] false 0 0 := rfl
  rw [hinit, heq]

theorem bumpC_map_fst (C : List (Nat × Nat × Nat)) (i : Nat) :
    (bumpC C i).map Prod.fst = C.map Prod.fst := by
  induction C with
  | nil => rfl
  | cons c rest ih =>
    rw [bumpC, List.map_cons, List.map_cons, List.map_cons]
    rw [bumpC] at ih
    rw [ih]
    by_cases h : c.1 = i
    · rw [if_pos h]
    · rw [if_neg h]

theorem stepC_goodC {C : List (Nat × Nat × Nat)} (hC : GoodC C) : GoodC (stepC C) := by
  refine ⟨by rw [stepC, bumpC_map_fst]; exact hC.1, ?_⟩
  intro c hc
  rw [stepC, bumpC] at hc
  obtain ⟨d, hd, hde⟩ := List.mem_map.mp hc
  have := hC.2 d hd
  by_cases h : d.1 = selC C
  · rw [if_pos h] at hde
    rw [← hde]
    exact this
  · rw [if_neg h] at hde
    rw [← hde]
    exact this

theorem stepC_ne_nil {C : List (Nat × Nat × Nat)} (h : C ≠ []) : stepC C ≠ [] := by
  rw [stepC, bumpC]
  exact fun he => h (List.map_eq_nil.mp he)

/-- Iterated simulation: after `n` steps the tree still realises the counter
state, and the `n`-th output of the tree is the abstract round robin's. -/
theorem flat_iter {C : List (Nat × Nat × Nat)} {t : PriorityTree}
    (hC : GoodC C) (hne : C ≠ []) (hst : FlatSt C t) (n : Nat) :
    GoodC (stepC^[n] C) ∧ stepC^[n] C ≠ [] ∧
      FlatSt (stepC^[n] C) (stepTree^[n] t) ∧ outT t n = outC C n := by
  induction n generalizing C t with
  | zero =>
    refine ⟨hC, hne, hst, ?_⟩
    have := flat_step hC hne hst
    rw [outT, outC]
    simp only [Function.iterate_zero, id]
    rw [this.1]
  | succ n ih =>
    have hstep := flat_step hC hne hst
    have := ih (stepC_goodC hC) (stepC_ne_nil hne) hstep.2
    refine ⟨?_, ?_, ?_, ?_⟩
    · rw [Function.iterate_succ_apply]; exact this.1
    · rw [Function.iterate_succ_apply]; exact this.2.1
    · rw [Function.iterate_succ_apply, Function.iterate_succ_apply]
      exact this.2.2.1
    · rw [outT, outC, Function.iterate_succ_apply, Function.iterate_succ_apply]
      have h4 := this.2.2.2
      rw [outT, outC] at h4
      show (match (stepTree^[n] (stepTree t)).next.1 with
        | .ok i => i | .error _ => 0) = _
      exact h4

/-! ### Counting the abstract round robin's outputs -/

theorem selC_mem {C : List (Nat × Nat × Nat)} (h : C ≠ []) :
    selC C ∈ C.map Prod.fst := by
  cases C with
  | nil => exact absurd rfl h
  | cons c rest =>
    rw [selC]
    have hm : argminE c rest = c ∨ argminE c rest ∈ rest := argminE_mem c rest
    rcases hm with hm | hm
    · rw [hm]
      exact List.mem_map.mpr ⟨c, List.mem_cons_self _ _, rfl⟩
    · exact List.mem_map.mpr ⟨argminE c rest, List.mem_cons_of_mem _ hm, rfl⟩

theorem cnt_cons (a bw k : Nat) (C : List (Nat × Nat × Nat)) (i : Nat) :
    cnt ((a, bw, k) :: C) i = (if a = i then k else 0) + cnt C i := by
  rw [cnt, List.map_cons, List.sum_cons]
  rfl

theorem wcnt_cons (a bw k : Nat) (C : List (Nat × Nat × Nat)) (i : Nat) :
    wcnt ((a, bw, k) :: C) i = (if a = i then bw else 0) + wcnt C i := by
  rw [wcnt, List.map_cons, List.sum_cons]
  rfl

theorem sumk_cons (a bw k : Nat) (C : List (Nat × Nat × Nat)) :
    sumk ((a, bw, k) :: C) = k + sumk C := by
  rw [sumk, List.map_cons, List.sum_cons]
  rfl

theorem bumpC_cons (a bw k : Nat) (C : List (Nat × Nat × Nat)) (j : Nat) :
    bumpC ((a, bw, k) :: C) j
      = (if a = j then (a, bw, k + 1) else (a, bw, k)) :: bumpC C j := by
  rw [bumpC, List.map_cons]
  rfl

theorem cnt_bump_other {C : List (Nat × Nat × Nat)} {i j : Nat} (hij : i ≠ j) :
    cnt (bumpC C j) i = cnt C i := by
  induction C with
  | nil => rfl
  | cons c rest ih =>
    obtain ⟨a, bw, k⟩ := c
    rw [bumpC_cons]
    by_cases h : a = j
    · have hai : ¬ (a = i) := fun he => hij (he.symm.trans h)
      rw [if_pos h, cnt_cons, cnt_cons, ih, if_neg hai, if_neg hai]
    · rw [if_neg h, cnt_cons, cnt_cons, ih]

theorem cnt_bump_self {C : List (Nat × Nat × Nat)} {i : Nat}
    (hnd : (C.map Prod.fst).Nodup) (hmem : i ∈ C.map Prod.fst) :
    cnt (bumpC C i) i = cnt C i + 1 := by
  induction C with
  | nil => exact absurd hmem (List.not_mem_nil i)
  | cons c rest ih =>
    obtain ⟨a, bw, k⟩ := c
    rw [List.map_cons] at hnd hmem
    dsimp only at hnd hmem
    rw [List.nodup_cons] at hnd
    rw [bumpC_cons]
    by_cases h : a = i
    · have hrest : bumpC rest i = rest := bumpC_eq_self (h ▸ hnd.1)
      rw [if_pos h, hrest, cnt_cons, cnt_cons, if_pos h, if_pos h]
      omega
    · have hmem' : i ∈ rest.map Prod.fst := by
        rcases List.mem_cons.mp hmem with he | hm
        · exact absurd he.symm h
        · exact hm
      rw [if_neg h, cnt_cons, cnt_cons, ih hnd.2 hmem', if_neg h]
      omega

theorem wcnt_bump (C : List (Nat × Nat × Nat)) (j i : Nat) :
    wcnt (bumpC C j) i = wcnt C i := by
  induction C with
  | nil => rfl
  | cons c rest ih =>
    obtain ⟨a, bw, k⟩ := c
    rw [bumpC_cons]
    by_cases h : a = j
    · rw [if_pos h, wcnt_cons, wcnt_cons, ih]
    · rw [if_neg h, wcnt_cons, wcnt_cons, ih]

theorem sumk_bump {C : List (Nat × Nat × Nat)} {i : Nat}
    (hnd : (C.map Prod.fst).Nodup) (hmem : i ∈ C.map Prod.fst) :
    sumk (bumpC C i) = sumk C + 1 := by
  induction C with
  | nil => exact absurd hmem (List.not_mem_nil i)
  | cons c rest ih =>
    obtain ⟨a, bw, k⟩ := c
    rw [List.map_cons] at hnd hmem
    dsimp only at hnd hmem
    rw [List.nodup_cons] at hnd
    rw [bumpC_cons]
    by_cases h : a = i
    · have hrest : bumpC rest i = rest := bumpC_eq_self (h ▸ hnd.1)
      rw [if_pos h, hrest, sumk_cons, sumk_cons]
      omega
    · have hmem' : i ∈ rest.map Prod.fst := by
        rcases List.mem_cons.mp hmem with he | hm
        · exact absurd he.symm h
        · exact hm
      rw [if_neg h, sumk_cons, sumk_cons, ih hnd.2 hmem']
      omega


theorem cnt_step {C : List (Nat × Nat × Nat)} (i : Nat)
    (hnd : (C.map Prod.fst).Nodup) (hne : C ≠ []) :
    cnt (stepC C) i = cnt C i + (if selC C = i then 1 else 0) := by
  by_cases h : selC C = i
  · rw [if_pos h, stepC, h, cnt_bump_self hnd (h ▸ selC_mem hne)]
  · rw [if_neg h, stepC, cnt_bump_other (fun he => h he.symm)]
    omega

theorem goodC_iter {C : List (Nat × Nat × Nat)} (hC : GoodC C) (n : Nat) :
    GoodC (stepC^[n] C) := by
  induction n generalizing C with
  | zero => exact hC
  | succ n ih =>
    rw [Function.iterate_succ_apply]
    exact ih (stepC_goodC hC)

theorem nenil_iter {C : List (Nat × Nat × Nat)} (h : C ≠ []) (n : Nat) :
    stepC^[n] C ≠ [] := by
  induction n generalizing C with
  | zero => exact h
  | succ n ih =>
    rw [Function.iterate_succ_apply]
    exact ih (stepC_ne_nil h)

theorem wcnt_iter (C : List (Nat × Nat × Nat)) (i n : Nat) :
    wcnt (stepC^[n] C) i = wcnt C i := by
  induction n with
  | zero => rfl
  | succ n ih =>
    rw [Function.iterate_succ_apply', stepC, wcnt_bump, ih]

/-- The pop counter of id `i` after `m` abstract steps counts the outputs
equal to `i` so far. -/
theorem count_window {C : List (Nat × Nat × Nat)} (hC : GoodC C) (hne : C ≠ [])
    (i : Nat) (m : Nat) :
    cnt (stepC^[m] C) i = cnt C i + ((List.range m).map (outC C)).count i := by
  induction m with
  | zero => simp
  | succ m ih =>
    rw [List.range_succ, List.map_append, List.count_append,
      Function.iterate_succ_apply', cnt_step i (goodC_iter hC m).1 (nenil_iter hne m), ih]
    have hoc : selC (stepC^[m] C) = outC C m := rfl
    rw [hoc, List.map_singleton]
    by_cases h : outC C m = i
    · have h1 : List.count i [outC C m] = 1 := by rw [h]; simp
      rw [if_pos h, h1]
      omega
    · have h0 : List.count i [outC C m] = 0 := by
        simp [List.count_singleton', h]
      rw [if_neg h, h0]
      omega

theorem outC_shift (C : List (Nat × Nat × Nat)) (n j : Nat) :
    outC C (n + j) = outC (stepC^[n] C) j := by
  rw [outC, outC, Nat.add_comm n j, Function.iterate_add_apply]

/-! ### Shifting a configuration by one full period -/

theorem keyOf_addW {c : Nat × Nat × Nat} (hw : 1 ≤ c.2.1) :
    keyOf (addW c) = ((keyOf c).1 + 256, (keyOf c).2) := by
  obtain ⟨a, bw, k⟩ := c
  rw [addW, keyOf, keyOf]
  dsimp only
  rw [flatLevel_addW bw k hw]

theorem keyLTb_shift (a b : Int × Nat) :
    keyLTb (a.1 + 256, a.2) (b.1 + 256, b.2) = keyLTb a b := by
  rw [keyLTb, keyLTb]
  dsimp only
  rw [show decide (a.1 + 256 < b.1 + 256) = decide (a.1 < b.1) from
    decide_eq_decide.mpr (by omega)]
  rw [show decide (a.1 + 256 = b.1 + 256) = decide (a.1 = b.1) from
    decide_eq_decide.mpr (by omega)]

theorem argminE_addW {best : Nat × Nat × Nat} {rest : List (Nat × Nat × Nat)}
    (h : ∀ c ∈ best :: rest, 1 ≤ c.2.1) :
    argminE (addW best) (rest.map addW) = addW (argminE best rest) := by
  induction rest generalizing best with
  | nil => rfl
  | cons d rest' ih =>
    rw [List.map_cons, argminE, argminE]
    have hd : 1 ≤ d.2.1 := h d (List.mem_cons_of_mem _ (List.mem_cons_self _ _))
    have hb : 1 ≤ best.2.1 := h best (List.mem_cons_self _ _)
    rw [keyOf_addW hd, keyOf_addW hb, keyLTb_shift]
    have hsel : (if keyLTb (keyOf d) (keyOf best) then addW d else addW best)
        = addW (if keyLTb (keyOf d) (keyOf best) then d else best) := by
      split
      · rfl
      · rfl
    rw [hsel]
    refine ih ?_
    intro c hc
    rcases List.mem_cons.mp hc with rfl | hc
    · split
      · exact hd
      · exact hb
    · exact h c (List.mem_cons_of_mem _ (List.mem_cons_of_mem _ hc))

theorem selC_addW {C : List (Nat × Nat × Nat)} (h : ∀ c ∈ C, 1 ≤ c.2.1) :
    selC (C.map addW) = selC C := by
  cases C with
  | nil => rfl
  | cons c rest =>
    rw [List.map_cons, selC, selC, argminE_addW h]
    rfl

theorem bumpC_addW (C : List (Nat × Nat × Nat)) (i : Nat) :
    bumpC (C.map addW) i = (bumpC C i).map addW := by
  induction C with
  | nil => rfl
  | cons c rest ih =>
    obtain ⟨a, bw, k⟩ := c
    rw [List.map_cons, show addW (a, bw, k) = (a, bw, k + bw) from rfl,
      bumpC_cons, bumpC_cons, List.map_cons, ih]
    by_cases h : a = i
    · rw [if_pos h, if_pos h, show addW (a, bw, k + 1) = (a, bw, (k + 1) + bw) from rfl,
        show (k + bw) + 1 = (k + 1) + bw by omega]
    · rw [if_neg h, if_neg h]
      rfl

theorem stepC_addW {C : List (Nat × Nat × Nat)} (h : ∀ c ∈ C, 1 ≤ c.2.1) :
    stepC (C.map addW) = (stepC C).map addW := by
  rw [stepC, stepC, selC_addW h, bumpC_addW]

/-! ### The warm-up phase -/

theorem forall₂_mem_left {α β : Type} {R : α → β → Prop} :
    ∀ {C : List α} {L : List β}, List.Forall₂ R C L → ∀ c ∈ C, ∃ l ∈ L, R c l := by
  intro C L h
  induction h with
  | nil =>
    intro c hc
    exact absurd hc (List.not_mem_nil c)
  | cons hR hF ih =>
    intro c hc
    rcases List.mem_cons.mp hc with rfl | hc
    · exact ⟨_, List.mem_cons_self _ _, hR⟩
    · obtain ⟨l, hl, h⟩ := ih c hc
      exact ⟨l, List.mem_cons_of_mem _ hl, h⟩

theorem forall₂_imp_mem {α β : Type} {R S : α → β → Prop} :
    ∀ {C : List α} {L : List β}, List.Forall₂ R C L →
      (∀ c ∈ C, ∀ l ∈ L, R c l → S c l) → List.Forall₂ S C L := by
  intro C L h
  induction h with
  | nil =>
    intro _
    exact List.Forall₂.nil
  | cons hR hF ih =>
    intro himp
    refine List.Forall₂.cons
      (himp _ (List.mem_cons_self _ _) _ (List.mem_cons_self _ _) hR) ?_
    exact ih fun c hc l hl h =>
      himp c (List.mem_cons_of_mem _ hc) l (List.mem_cons_of_mem _ hl) h

theorem forall₂_eq_map {C : List (Nat × Nat × Nat)} {L : List (Nat × Nat)}
    (g : Nat × Nat → Nat)
    (h : List.Forall₂ (fun c l => c.1 = l.1 ∧ c.2.1 = l.2 ∧ c.2.2 = g l) C L) :
    C = L.map fun l => (l.1, l.2, g l) := by
  induction h with
  | nil => rfl
  | cons hR hF ih =>
    rw [List.map_cons, ← ih]
    congr 1
    obtain ⟨h1, h2, h3⟩ := hR
    exact Prod.ext h1 (Prod.ext h2 h3)

theorem forall₂_bump {L : List (Nat × Nat)} {C : List (Nat × Nat × Nat)}
    {R : Nat × Nat × Nat → Nat × Nat → Prop}
    (hF : List.Forall₂ R C L) (i : Nat)
    (h : ∀ c ∈ C, ∀ l ∈ L, R c l →
      R (if c.1 = i then (c.1, c.2.1, c.2.2 + 1) else c) l) :
    List.Forall₂ R (bumpC C i) L := by
  rw [bumpC]
  refine List.forall₂_map_left_iff.mpr ?_
  exact forall₂_imp_mem hF h

theorem initC_map_fst (L : List (Nat × Nat)) :
    (initC L).map Prod.fst = L.map Prod.fst := by
  rw [initC, List.map_map]
  exact List.map_congr_left fun a _ => rfl

theorem allOnes_map_fst (L : List (Nat × Nat)) :
    (allOnes L).map Prod.fst = L.map Prod.fst := by
  rw [allOnes, List.map_map]
  exact List.map_congr_left fun a _ => rfl

theorem goodC_initC {L : List (Nat × Nat)} (hnd : (L.map Prod.fst).Nodup)
    (hall : ∀ l ∈ L, l.1 ≠ 0 ∧ 1 ≤ l.2 ∧ l.2 ≤ 256) : GoodC (initC L) := by
  refine ⟨by rw [initC_map_fst]; exact hnd, ?_⟩
  intro c hc
  rw [initC] at hc
  rcases List.mem_map.mp hc with ⟨l, hl, rfl⟩
  exact (hall l hl).2

theorem goodC_allOnes {L : List (Nat × Nat)} (hnd : (L.map Prod.fst).Nodup)
    (hall : ∀ l ∈ L, l.1 ≠ 0 ∧ 1 ≤ l.2 ∧ l.2 ≤ 256) : GoodC (allOnes L) := by
  refine ⟨by rw [allOnes_map_fst]; exact hnd, ?_⟩
  intro c hc
  rw [allOnes] at hc
  rcases List.mem_map.mp hc with ⟨l, hl, rfl⟩
  exact (hall l hl).2

theorem initC_ne_nil {L : List (Nat × Nat)} (h : L ≠ []) : initC L ≠ [] := by
  rw [initC]
  exact fun he => h (List.map_eq_nil_iff.mp he)

theorem allOnes_ne_nil {L : List (Nat × Nat)} (h : L ≠ []) : allOnes L ≠ [] := by
  rw [allOnes]
  exact fun he => h (List.map_eq_nil_iff.mp he)

/-- During the warm-up the scheduler always selects a not-yet-popped
stream: its queue level `0` beats the level `≥ 1` of every popped
stream. -/
theorem warm_pick {C : List (Nat × Nat × Nat)} {L : List (Nat × Nat)}
    (hne : C ≠ [])
    (hF : List.Forall₂ (fun c l => c.1 = l.1 ∧ c.2.1 = l.2 ∧ c.2.2 ≤ 1) C L)
    (hall : ∀ l ∈ L, l.1 ≠ 0 ∧ 1 ≤ l.2 ∧ l.2 ≤ 256)
    (hex : ∃ c₀ ∈ C, c₀.2.2 = 0) :
    ∃ a ∈ C, a.1 = selC C ∧ a.2.2 = 0 := by
  obtain ⟨c₀, hc₀, hk₀⟩ := hex
  cases C with
  | nil => exact absurd rfl hne
  | cons hd tl =>
    have hmem : argminE hd tl ∈ hd :: tl := by
      rcases argminE_mem hd tl with h | h
      · rw [h]
        exact List.mem_cons_self _ _
      · exact List.mem_cons_of_mem _ h
    refine ⟨argminE hd tl, hmem, by rw [selC], ?_⟩
    by_contra hk
    obtain ⟨l, hl, hRid, hRw, hRk⟩ := forall₂_mem_left hF _ hmem
    obtain ⟨hw1, hw2⟩ := (hall l hl).2
    have hlevA : 1 ≤ flatLevel (argminE hd tl).2.1 (argminE hd tl).2.2 :=
      flatLevel_pos _ _ (by omega) (by omega) (by omega)
    have hlev0 : flatLevel c₀.2.1 c₀.2.2 = 0 := by
      rw [hk₀]
      exact flatLevel_zero _
    have hmin := argminE_min hd tl c₀ hc₀
    rw [keyLTb, keyOf, keyOf] at hmin
    dsimp only at hmin
    rw [hlev0] at hmin
    simp only [Bool.or_eq_false_iff, Bool.and_eq_false_iff,
      decide_eq_false_iff_not] at hmin
    have := hmin.1
    omega

/-- One warm-up step: the selected stream had pop count `0`; the invariant
and the total pop count advance. -/
theorem warm_step {C : List (Nat × Nat × Nat)} {L : List (Nat × Nat)}
    (hGC : GoodC C) (hne : C ≠ [])
    (hF : List.Forall₂ (fun c l => c.1 = l.1 ∧ c.2.1 = l.2 ∧ c.2.2 ≤ 1) C L)
    (hall : ∀ l ∈ L, l.1 ≠ 0 ∧ 1 ≤ l.2 ∧ l.2 ≤ 256)
    (hlt : sumk C < L.length) :
    ∃ a ∈ C, a.1 = selC C ∧ a.2.2 = 0 ∧
      List.Forall₂ (fun c l => c.1 = l.1 ∧ c.2.1 = l.2 ∧ c.2.2 ≤ 1) (stepC C) L ∧
      sumk (stepC C) = sumk C + 1 := by
  have hlen : C.length = L.length := hF.length_eq
  have hex : ∃ c₀ ∈ C, c₀.2.2 = 0 := by
    by_contra hcon
    push_neg at hcon
    have h1 : ∀ x ∈ C.map fun c => c.2.2, 1 ≤ x := by
      intro x hx
      rcases List.mem_map.mp hx with ⟨c, hc, rfl⟩
      have := hcon c hc
      omega
    have h2 := List.length_le_sum_of_one_le _ h1
    rw [List.length_map, hlen] at h2
    have h3 : (C.map fun c => c.2.2).sum = sumk C := rfl
    omega
  obtain ⟨a, ha, hasel, hak⟩ := warm_pick hne hF hall hex
  refine ⟨a, ha, hasel, hak, ?_, ?_⟩
  · rw [stepC]
    refine forall₂_bump hF _ ?_
    intro c hc l hl hR
    by_cases h : c.1 = selC C
    · have hca : c = a :=
        List.inj_on_of_nodup_map hGC.1 hc ha (h.trans hasel.symm)
      rw [if_pos h]
      obtain ⟨h1, h2, _⟩ := hR
      refine ⟨h1, h2, ?_⟩
      rw [hca, hak]
    · rw [if_neg h]
      exact hR
  · rw [stepC, sumk_bump hGC.1 (selC_mem hne)]

theorem nat_sum_le_length (l : List Nat) (hb : ∀ x ∈ l, x ≤ 1) :
    l.sum ≤ l.length := by
  induction l with
  | nil => exact Nat.le_refl 0
  | cons a t ih =>
    rw [List.sum_cons, List.length_cons]
    have h1 := hb a (List.mem_cons_self _ _)
    have h2 := ih fun x hx => hb x (List.mem_cons_of_mem _ hx)
    omega

theorem nat_all_one (l : List Nat) (hb : ∀ x ∈ l, x ≤ 1)
    (hs : l.sum = l.length) : ∀ x ∈ l, x = 1 := by
  induction l with
  | nil =>
    intro x hx
    exact absurd hx (List.not_mem_nil x)
  | cons a t ih =>
    rw [List.sum_cons, List.length_cons] at hs
    have h1 := hb a (List.mem_cons_self _ _)
    have h2 := nat_sum_le_length t fun x hx => hb x (List.mem_cons_of_mem _ hx)
    intro x hx
    rcases List.mem_cons.mp hx with rfl | hx
    · omega
    · exact ih (fun y hy => hb y (List.mem_cons_of_mem _ hy)) (by omega) x hx

/-- The warm-up invariant: after `m ≤ |L|` steps every pop counter is `0`
or `1`, their total is `m`, and the outputs so far are distinct and are
exactly the ids already popped once. -/
theorem warm_inv (L : List (Nat × Nat)) (hne : L ≠ [])
    (hnd : (L.map Prod.fst).Nodup)
    (hall : ∀ l ∈ L, l.1 ≠ 0 ∧ 1 ≤ l.2 ∧ l.2 ≤ 256) :
    ∀ m, m ≤ L.length →
      List.Forall₂ (fun c l => c.1 = l.1 ∧ c.2.1 = l.2 ∧ c.2.2 ≤ 1)
        (stepC^[m] (initC L)) L ∧
      sumk (stepC^[m] (initC L)) = m ∧
      ((List.range m).map (outC (initC L))).Nodup ∧
      ∀ id0, (id0 ∈ (List.range m).map (outC (initC L)) ↔
        ∃ c ∈ stepC^[m] (initC L), c.1 = id0 ∧ c.2.2 = 1) := by
  intro m
  induction m with
  | zero =>
    intro _
    simp only [Function.iterate_zero, id_eq, List.range_zero, List.map_nil]
    refine ⟨?_, ?_, List.nodup_nil, ?_⟩
    · rw [initC]
      refine List.forall₂_map_left_iff.mpr ?_
      refine List.forall₂_same.mpr ?_
      intro l _
      exact ⟨rfl, rfl, Nat.zero_le 1⟩
    · rw [sumk, initC, List.map_map]
      refine List.sum_eq_zero ?_
      intro x hx
      rcases List.mem_map.mp hx with ⟨l, _, rfl⟩
      rfl
    · intro id0
      constructor
      · intro h
        exact absurd h (List.not_mem_nil id0)
      · rintro ⟨c, hc, _, hk⟩
        rw [initC] at hc
        rcases List.mem_map.mp hc with ⟨l, _, rfl⟩
        simp at hk
  | succ m ih =>
    intro hm1
    obtain ⟨hF, hsum, hndo, hiff⟩ := ih (by omega)
    have hGC : GoodC (stepC^[m] (initC L)) := goodC_iter (goodC_initC hnd hall) m
    have hCne : stepC^[m] (initC L) ≠ [] := nenil_iter (initC_ne_nil hne) m
    obtain ⟨a, ha, hasel, hak, hF', hsum'⟩ :=
      warm_step hGC hCne hF hall (by omega)
    have hit : stepC^[m+1] (initC L) = stepC (stepC^[m] (initC L)) :=
      Function.iterate_succ_apply' _ _ _
    have houtm : outC (initC L) m = selC (stepC^[m] (initC L)) := rfl
    have hrange : (List.range (m+1)).map (outC (initC L))
        = (List.range m).map (outC (initC L)) ++ [outC (initC L) m] := by
      rw [List.range_succ, List.map_append, List.map_singleton]
    have hselnot : outC (initC L) m ∉ (List.range m).map (outC (initC L)) := by
      intro hmem
      obtain ⟨c, hc, hcid, hck⟩ := (hiff _).mp hmem
      have hca : c = a :=
        List.inj_on_of_nodup_map hGC.1 hc ha (by rw [hcid, houtm, hasel])
      rw [hca] at hck
      omega
    refine ⟨by rw [hit]; exact hF', by rw [hit, hsum', hsum], ?_, ?_⟩
    · rw [hrange, List.nodup_append]
      refine ⟨hndo, List.nodup_singleton _, ?_⟩
      intro x hx hx2
      rw [List.mem_singleton] at hx2
      rw [hx2] at hx
      exact hselnot hx
    · intro id0
      rw [hrange, hit, List.mem_append, List.mem_singleton]
      constructor
      · rintro (hmem | rfl)
        · obtain ⟨c, hc, hcid, hck⟩ := (hiff id0).mp hmem
          have hcnot : ¬ (c.1 = selC (stepC^[m] (initC L))) := by
            intro he
            have hca : c = a :=
              List.inj_on_of_nodup_map hGC.1 hc ha (by rw [he, hasel])
            rw [hca] at hck
            omega
          refine ⟨c, ?_, hcid, hck⟩
          rw [stepC, bumpC]
          refine List.mem_map.mpr ⟨c, hc, ?_⟩
          dsimp only
          rw [if_neg hcnot]
        · refine ⟨(a.1, a.2.1, a.2.2 + 1), ?_, ?_, ?_⟩
          · rw [stepC, bumpC]
            refine List.mem_map.mpr ⟨a, ha, ?_⟩
            dsimp only
            rw [if_pos hasel]
          · dsimp only
            rw [hasel, houtm]
          · dsimp only
            omega
      · rintro ⟨c', hc', hcid, hck⟩
        rw [stepC, bumpC] at hc'
        obtain ⟨c, hc, hfc⟩ := List.mem_map.mp hc'
        by_cases h : c.1 = selC (stepC^[m] (initC L))
        · rw [if_pos h] at hfc
          rw [← hfc] at hcid
          dsimp only at hcid
          right
          rw [← hcid, h, houtm]
        · rw [if_neg h] at hfc
          rw [← hfc] at hcid hck
          left
          exact (hiff id0).mpr ⟨c, hc, hcid, hck⟩

/-- End of the warm-up: after exactly `|L|` steps every stream has been
popped once and the outputs are a permutation of the ids. -/
theorem warmup_end (L : List (Nat × Nat)) (hne : L ≠ [])
    (hnd : (L.map Prod.fst).Nodup)
    (hall : ∀ l ∈ L, l.1 ≠ 0 ∧ 1 ≤ l.2 ∧ l.2 ≤ 256) :
    stepC^[L.length] (initC L) = allOnes L ∧
    ((List.range L.length).map (outC (initC L))).Perm (L.map Prod.fst) := by
  obtain ⟨hF, hsum, hndo, hiff⟩ := warm_inv L hne hnd hall L.length le_rfl
  have hlen : (stepC^[L.length] (initC L)).length = L.length := hF.length_eq
  have hall1 : ∀ c ∈ stepC^[L.length] (initC L), c.2.2 = 1 := by
    intro c hc
    have hb : ∀ x ∈ (stepC^[L.length] (initC L)).map fun c => c.2.2, x ≤ 1 := by
      intro x hx
      rcases List.mem_map.mp hx with ⟨d, hd, rfl⟩
      obtain ⟨l, _, _, _, hk⟩ := forall₂_mem_left hF d hd
      exact hk
    have hs : ((stepC^[L.length] (initC L)).map fun c => c.2.2).sum
        = ((stepC^[L.length] (initC L)).map fun c => c.2.2).length := by
      rw [List.length_map, hlen]
      exact hsum
    exact nat_all_one _ hb hs c.2.2 (List.mem_map.mpr ⟨c, hc, rfl⟩)
  have heq : stepC^[L.length] (initC L) = allOnes L := by
    rw [allOnes]
    refine forall₂_eq_map (fun _ => 1) ?_
    refine forall₂_imp_mem hF ?_
    rintro c hc l _ ⟨h1, h2, _⟩
    exact ⟨h1, h2, hall1 c hc⟩
  refine ⟨heq, ?_⟩
  have hfst : (stepC^[L.length] (initC L)).map Prod.fst = L.map Prod.fst := by
    rw [heq, allOnes_map_fst]
  have hsub : (List.range L.length).map (outC (initC L)) ⊆ L.map Prod.fst := by
    intro x hx
    obtain ⟨c, hc, hcid, _⟩ := (hiff x).mp hx
    rw [← hfst]
    exact List.mem_map.mpr ⟨c, hc, hcid⟩
  refine (List.Nodup.subperm hndo hsub).perm_of_length_le ?_
  simp

/-! ### The periodic phase -/

theorem sumk_cons_any (c : Nat × Nat × Nat) (C : List (Nat × Nat × Nat)) :
    sumk (c :: C) = c.2.2 + sumk C := by
  obtain ⟨a, bw, k⟩ := c
  exact sumk_cons a bw k C

theorem psum_cons (l : Nat × Nat) (L : List (Nat × Nat)) :
    psum (l :: L) = l.2 + psum L := by
  rw [psum, List.map_cons, List.sum_cons]
  rfl

theorem sumk_allOnes (L : List (Nat × Nat)) : sumk (allOnes L) = L.length := by
  induction L with
  | nil => rfl
  | cons l L ih =>
    rw [allOnes, List.map_cons, ← allOnes, sumk_cons, ih, List.length_cons]
    omega

theorem sumk_le_of_bound {C : List (Nat × Nat × Nat)} {L : List (Nat × Nat)}
    (h : List.Forall₂ (fun c l => c.2.2 ≤ l.2 + 1) C L) :
    sumk C ≤ psum L + L.length := by
  induction h with
  | nil => exact Nat.le_refl 0
  | cons hR hF ih =>
    rw [sumk_cons_any, psum_cons, List.length_cons]
    omega

theorem sumk_of_saturated {C : List (Nat × Nat × Nat)} {L : List (Nat × Nat)}
    (h : List.Forall₂ (fun c l => c.2.2 = l.2 + 1) C L) :
    sumk C = psum L + L.length := by
  induction h with
  | nil => rfl
  | cons hR hF ih =>
    rw [sumk_cons_any, psum_cons, List.length_cons]
    omega

theorem saturation_of_sum {C : List (Nat × Nat × Nat)} {L : List (Nat × Nat)}
    (h : List.Forall₂ (fun c l => c.2.2 ≤ l.2 + 1) C L)
    (hs : sumk C = psum L + L.length) :
    List.Forall₂ (fun c l => c.2.2 = l.2 + 1) C L := by
  induction h with
  | nil => exact List.Forall₂.nil
  | cons hR hF ih =>
    rw [sumk_cons_any, psum_cons, List.length_cons] at hs
    have hb := sumk_le_of_bound hF
    refine List.Forall₂.cons (by omega) (ih (by omega))

theorem forall₂_conj {α β : Type} {R S : α → β → Prop} :
    ∀ {C : List α} {L : List β}, List.Forall₂ R C L → List.Forall₂ S C L →
      List.Forall₂ (fun c l => R c l ∧ S c l) C L := by
  intro C L h
  induction h with
  | nil =>
    intro _
    exact List.Forall₂.nil
  | cons hR hF ih =>
    intro hS
    cases hS with
    | cons hS1 hS2 => exact List.Forall₂.cons ⟨hR, hS1⟩ (ih hS2)

/-- In the periodic phase the scheduler always selects a stream that has
not yet exhausted its weight share: its level `≤ 256` beats the level
`≥ 257` of every saturated stream. -/
theorem period_pick {C : List (Nat × Nat × Nat)} {L : List (Nat × Nat)}
    (hne : C ≠ [])
    (hF : List.Forall₂
      (fun c l => c.1 = l.1 ∧ c.2.1 = l.2 ∧ 1 ≤ c.2.2 ∧ c.2.2 ≤ l.2 + 1) C L)
    (hall : ∀ l ∈ L, l.1 ≠ 0 ∧ 1 ≤ l.2 ∧ l.2 ≤ 256)
    (hex : ∃ c₀ ∈ C, c₀.2.2 ≤ c₀.2.1) :
    ∃ a ∈ C, a.1 = selC C ∧ a.2.2 ≤ a.2.1 := by
  obtain ⟨c₀, hc₀, hk₀⟩ := hex
  cases C with
  | nil => exact absurd rfl hne
  | cons hd tl =>
    have hmem : argminE hd tl ∈ hd :: tl := by
      rcases argminE_mem hd tl with h | h
      · rw [h]
        exact List.mem_cons_self _ _
      · exact List.mem_cons_of_mem _ h
    refine ⟨argminE hd tl, hmem, by rw [selC], ?_⟩
    by_contra hk
    obtain ⟨l, hl, hRid, hRw, hRk1, hRk2⟩ := forall₂_mem_left hF _ hmem
    obtain ⟨hw1, hw2⟩ := (hall l hl).2
    have hlevA : 257 ≤ flatLevel (argminE hd tl).2.1 (argminE hd tl).2.2 :=
      flatLevel_ge_257 _ _ (by omega) (by omega) (by omega)
    obtain ⟨l₀, hl₀, hRid₀, hRw₀, hRk₀1, hRk₀2⟩ := forall₂_mem_left hF _ hc₀
    obtain ⟨hw₀1, hw₀2⟩ := (hall l₀ hl₀).2
    have hlev0 : flatLevel c₀.2.1 c₀.2.2 ≤ 256 :=
      flatLevel_le_256 _ _ (by omega) hk₀
    have hmin := argminE_min hd tl c₀ hc₀
    rw [keyLTb, keyOf, keyOf] at hmin
    dsimp only at hmin
    simp only [Bool.or_eq_false_iff, Bool.and_eq_false_iff,
      decide_eq_false_iff_not] at hmin
    have := hmin.1
    omega

/-- One step of the periodic phase. -/
theorem period_step {C : List (Nat × Nat × Nat)} {L : List (Nat × Nat)}
    (hGC : GoodC C) (hne : C ≠ [])
    (hF : List.Forall₂
      (fun c l => c.1 = l.1 ∧ c.2.1 = l.2 ∧ 1 ≤ c.2.2 ∧ c.2.2 ≤ l.2 + 1) C L)
    (hall : ∀ l ∈ L, l.1 ≠ 0 ∧ 1 ≤ l.2 ∧ l.2 ≤ 256)
    (hlt : sumk C < psum L + L.length) :
    List.Forall₂
      (fun c l => c.1 = l.1 ∧ c.2.1 = l.2 ∧ 1 ≤ c.2.2 ∧ c.2.2 ≤ l.2 + 1)
      (stepC C) L ∧
    sumk (stepC C) = sumk C + 1 := by
  have hex : ∃ c₀ ∈ C, c₀.2.2 ≤ c₀.2.1 := by
    by_contra hcon
    push_neg at hcon
    have hsat : List.Forall₂ (fun c l => c.2.2 = l.2 + 1) C L := by
      refine forall₂_imp_mem hF ?_
      intro c hc l _ hR
      have := hcon c hc
      omega
    have := sumk_of_saturated hsat
    omega
  obtain ⟨a, ha, hasel, hak⟩ := period_pick hne hF hall hex
  refine ⟨?_, ?_⟩
  · rw [stepC]
    refine forall₂_bump hF _ ?_
    intro c hc l hl hR
    by_cases h : c.1 = selC C
    · have hca : c = a :=
        List.inj_on_of_nodup_map hGC.1 hc ha (h.trans hasel.symm)
      rw [if_pos h]
      obtain ⟨h1, h2, h3, h4⟩ := hR
      have h5 : c.2.2 ≤ c.2.1 := by rw [hca]; exact hak
      refine ⟨h1, h2, Nat.succ_le_succ (Nat.zero_le _), ?_⟩
      show c.2.2 + 1 ≤ l.2 + 1
      omega
    · rw [if_neg h]
      exact hR
  · rw [stepC, sumk_bump hGC.1 (selC_mem hne)]

/-- The periodic-phase invariant over one full period. -/
theorem period_inv (L : List (Nat × Nat)) (hne : L ≠ [])
    (hnd : (L.map Prod.fst).Nodup)
    (hall : ∀ l ∈ L, l.1 ≠ 0 ∧ 1 ≤ l.2 ∧ l.2 ≤ 256) :
    ∀ m, m ≤ psum L →
      List.Forall₂
        (fun c l => c.1 = l.1 ∧ c.2.1 = l.2 ∧ 1 ≤ c.2.2 ∧ c.2.2 ≤ l.2 + 1)
        (stepC^[m] (allOnes L)) L ∧
      sumk (stepC^[m] (allOnes L)) = L.length + m := by
  intro m
  induction m with
  | zero =>
    intro _
    simp only [Function.iterate_zero, id_eq]
    refine ⟨?_, by rw [sumk_allOnes]; omega⟩
    · rw [allOnes]
      refine List.forall₂_map_left_iff.mpr ?_
      refine List.forall₂_same.mpr ?_
      intro l _
      exact ⟨rfl, rfl, Nat.le_refl 1, Nat.succ_le_succ (Nat.zero_le _)⟩
  | succ m ih =>
    intro hm1
    obtain ⟨hF, hsum⟩ := ih (by omega)
    have hGC : GoodC (stepC^[m] (allOnes L)) := goodC_iter (goodC_allOnes hnd hall) m
    have hCne : stepC^[m] (allOnes L) ≠ [] := nenil_iter (allOnes_ne_nil hne) m
    have hlt : sumk (stepC^[m] (allOnes L)) < psum L + L.length := by
      have hlen : (stepC^[m] (allOnes L)).length = L.length := hF.length_eq
      omega
    obtain ⟨hF', hsum'⟩ := period_step hGC hCne hF hall hlt
    have hit : stepC^[m+1] (allOnes L) = stepC (stepC^[m] (allOnes L)) :=
      Function.iterate_succ_apply' _ _ _
    exact ⟨by rw [hit]; exact hF', by rw [hit, hsum', hsum]; omega⟩

/-- After one full period from the all-ones state every counter has
advanced by exactly its weight. -/
theorem period_end (L : List (Nat × Nat)) (hne : L ≠ [])
    (hnd : (L.map Prod.fst).Nodup)
    (hall : ∀ l ∈ L, l.1 ≠ 0 ∧ 1 ≤ l.2 ∧ l.2 ≤ 256) :
    stepC^[psum L] (allOnes L) = (allOnes L).map addW := by
  obtain ⟨hF, hsum⟩ := period_inv L hne hnd hall (psum L) le_rfl
  have hsat : List.Forall₂ (fun c l => c.2.2 = l.2 + 1)
      (stepC^[psum L] (allOnes L)) L := by
    refine saturation_of_sum (forall₂_imp_mem hF fun c _ l _ hR => hR.2.2.2) ?_
    omega
  have hFid : List.Forall₂ (fun c l => c.1 = l.1 ∧ c.2.1 = l.2)
      (stepC^[psum L] (allOnes L)) L :=
    forall₂_imp_mem hF fun c _ l _ hR => ⟨hR.1, hR.2.1⟩
  have heq : stepC^[psum L] (allOnes L) = L.map fun l => (l.1, l.2, l.2 + 1) := by
    refine forall₂_eq_map (fun l => l.2 + 1) ?_
    have := forall₂_conj hFid hsat
    refine forall₂_imp_mem this ?_
    intro c _ l _ hR
    exact ⟨hR.1.1, hR.1.2, hR.2⟩
  rw [heq, allOnes, List.map_map]
  refine List.map_congr_left ?_
  intro l _
  show (l.1, l.2, l.2 + 1) = (l.1, l.2, 1 + l.2)
  exact Prod.ext rfl (Prod.ext rfl (by show l.2 + 1 = 1 + l.2; omega))

/-- The counter state is periodic up to a uniform weight shift: `P` steps
past any point at or after the warm-up yield the same state with every
counter advanced by its weight. -/
theorem period_shift (L : List (Nat × Nat)) (hne : L ≠ [])
    (hnd : (L.map Prod.fst).Nodup)
    (hall : ∀ l ∈ L, l.1 ≠ 0 ∧ 1 ≤ l.2 ∧ l.2 ≤ 256) (d : Nat) :
    stepC^[L.length + psum L + d] (initC L)
      = (stepC^[L.length + d] (initC L)).map addW := by
  induction d with
  | zero =>
    rw [Nat.add_zero, Nat.add_zero]
    have h1 : stepC^[L.length + psum L] (initC L)
        = stepC^[psum L] (stepC^[L.length] (initC L)) := by
      rw [Nat.add_comm, Function.iterate_add_apply]
    rw [h1, (warmup_end L hne hnd hall).1, period_end L hne hnd hall,
      ← (warmup_end L hne hnd hall).1]
  | succ d ih =>
    have e1 : L.length + psum L + (d + 1) = (L.length + psum L + d) + 1 := rfl
    have e2 : L.length + (d + 1) = (L.length + d) + 1 := rfl
    rw [e1, e2, Function.iterate_succ_apply', Function.iterate_succ_apply', ih]
    refine stepC_addW ?_
    intro c hc
    exact ((goodC_iter (goodC_initC hnd hall) (L.length + d)).2 c hc).1

/-- Output periodicity: one period after any position past the warm-up the
abstract round robin repeats itself. -/
theorem outC_period (L : List (Nat × Nat)) (hne : L ≠ [])
    (hnd : (L.map Prod.fst).Nodup)
    (hall : ∀ l ∈ L, l.1 ≠ 0 ∧ 1 ≤ l.2 ∧ l.2 ≤ 256)
    (n : Nat) (hn : L.length ≤ n) :
    outC (initC L) (n + psum L) = outC (initC L) n := by
  obtain ⟨d, rfl⟩ : ∃ d, n = L.length + d := ⟨n - L.length, by omega⟩
  rw [outC, outC]
  have e : L.length + d + psum L = L.length + psum L + d := by omega
  rw [e, period_shift L hne hnd hall d]
  refine selC_addW ?_
  intro c hc
  exact ((goodC_iter (goodC_initC hnd hall) (L.length + d)).2 c hc).1

/-! ### Window counts -/

theorem wcnt_zero_of_not_mem {C : List (Nat × Nat × Nat)} {i : Nat}
    (h : i ∉ C.map Prod.fst) : wcnt C i = 0 := by
  induction C with
  | nil => rfl
  | cons c rest ih =>
    obtain ⟨a, bw, k⟩ := c
    rw [List.map_cons] at h
    dsimp only at h
    rw [wcnt_cons]
    have h1 : ¬ (a = i) := by
      intro he
      refine h ?_
      rw [← he]
      exact List.mem_cons_self _ _
    rw [if_neg h1, ih fun hm => h (List.mem_cons_of_mem _ hm)]

theorem wcnt_initC {L : List (Nat × Nat)} (hnd : (L.map Prod.fst).Nodup)
    {c : Nat × Nat} (hc : c ∈ L) : wcnt (initC L) c.1 = c.2 := by
  induction L with
  | nil => exact absurd hc (List.not_mem_nil c)
  | cons l L ih =>
    rw [List.map_cons, List.nodup_cons] at hnd
    rw [initC, List.map_cons, ← initC, wcnt_cons]
    rcases List.mem_cons.mp hc with rfl | hc2
    · rw [if_pos rfl]
      have h0 : wcnt (initC L) c.1 = 0 := by
        refine wcnt_zero_of_not_mem ?_
        rw [initC_map_fst]
        exact hnd.1
      omega
    · have hne2 : ¬ (l.1 = c.1) :=
        fun he => hnd.1 (he ▸ List.mem_map.mpr ⟨c, hc2, rfl⟩)
      rw [if_neg hne2, ih hnd.2 hc2]
      omega

theorem cnt_map_addW (C : List (Nat × Nat × Nat)) (i : Nat) :
    cnt (C.map addW) i = cnt C i + wcnt C i := by
  induction C with
  | nil => rfl
  | cons c rest ih =>
    obtain ⟨a, bw, k⟩ := c
    rw [List.map_cons, show addW (a, bw, k) = (a, bw, k + bw) from rfl,
      cnt_cons, cnt_cons, wcnt_cons, ih]
    by_cases h : a = i
    · rw [if_pos h, if_pos h, if_pos h]
      omega
    · rw [if_neg h, if_neg h, if_neg h]
      omega

/-- Over any full period after the warm-up, the abstract round robin
emits each id exactly its weight many times. -/
theorem outC_window (L : List (Nat × Nat)) (hne : L ≠ [])
    (hnd : (L.map Prod.fst).Nodup)
    (hall : ∀ l ∈ L, l.1 ≠ 0 ∧ 1 ≤ l.2 ∧ l.2 ≤ 256)
    (n : Nat) (hn : L.length ≤ n) {c : Nat × Nat} (hc : c ∈ L) :
    ((List.range (psum L)).map fun j => outC (initC L) (n + j)).count c.1
      = c.2 := by
  have hmapeq : ((List.range (psum L)).map fun j => outC (initC L) (n + j))
      = (List.range (psum L)).map (outC (stepC^[n] (initC L))) := by
    refine List.map_congr_left ?_
    intro j _
    exact outC_shift (initC L) n j
  rw [hmapeq]
  have hGCn : GoodC (stepC^[n] (initC L)) := goodC_iter (goodC_initC hnd hall) n
  have hnen : stepC^[n] (initC L) ≠ [] := nenil_iter (initC_ne_nil hne) n
  have hcw := count_window hGCn hnen c.1 (psum L)
  have hit : stepC^[psum L] (stepC^[n] (initC L))
      = stepC^[n + psum L] (initC L) := by
    rw [Nat.add_comm, Function.iterate_add_apply]
  obtain ⟨d, rfl⟩ : ∃ d, n = L.length + d := ⟨n - L.length, by omega⟩
  have hshift : stepC^[L.length + d + psum L] (initC L)
      = (stepC^[L.length + d] (initC L)).map addW := by
    have e : L.length + d + psum L = L.length + psum L + d := by omega
    rw [e]
    exact period_shift L hne hnd hall d
  rw [hit, hshift, cnt_map_addW] at hcw
  have hwc : wcnt (stepC^[L.length + d] (initC L)) c.1 = wcnt (initC L) c.1 :=
    wcnt_iter _ _ _
  have hwi : wcnt (initC L) c.1 = c.2 := wcnt_initC hnd hc
  omega

theorem outC_period_k (L : List (Nat × Nat)) (hne : L ≠ [])
    (hnd : (L.map Prod.fst).Nodup)
    (hall : ∀ l ∈ L, l.1 ≠ 0 ∧ 1 ≤ l.2 ∧ l.2 ≤ 256)
    (n k : Nat) (hn : L.length ≤ n) :
    outC (initC L) (n + k * psum L) = outC (initC L) n := by
  induction k with
  | zero => rw [Nat.zero_mul, Nat.add_zero]
  | succ k ih =>
    have e : n + (k + 1) * psum L = (n + k * psum L) + psum L := by ring
    rw [e, outC_period L hne hnd hall _ (by omega), ih]

/-- Transfer: the tree built from a flat configuration outputs exactly the
abstract round robin's sequence. -/
theorem flat_out (L : List (Nat × Nat)) (hL : GoodL L) (n : Nat) :
    outT (buildFlat L) n = outC (initC L) n :=
  (flat_iter (goodC_initC hL.2.1 hL.2.2) (initC_ne_nil hL.1)
    (buildFlat_inv L hL) n).2.2.2

/-! ### Claims C2, C3, C4 -/

/-- **C4, counterexample.**  The claim quantifies over *every* tree whose
streams are all active.  In `deepT` (stream 1 under the root, stream 2
under stream 1, both weight 16 and active) the first `|S| = 2` results are
`[1, 1]`: an active parent is returned immediately, so its subtree is
never entered and stream 2 is never emitted — not a permutation of
`S = {1, 2}`. -/
theorem claim4_counterexample :
    allBelowActive deepT._root_stream = true ∧
    outs deepT 0 2 = [1, 1] ∧
    ¬ (outs deepT 0 2).Perm [1, 2] := by
  refine ⟨rfl, rfl, ?_⟩
  decide

/-- **C4 (amended to flat trees).**  For every nonempty flat configuration
`L` of distinct nonzero ids with weights in `1..=256`, all inserted
directly under the root (every stream active on insertion), the first
`|L|` results of `next()` are a permutation of the ids. -/
theorem claim4_initial_burst (L : List (Nat × Nat)) (hL : GoodL L) :
    (outs (buildFlat L) 0 L.length).Perm (L.map Prod.fst) := by
  obtain ⟨hne, hnd, hall⟩ := hL
  have hmap : outs (buildFlat L) 0 L.length
      = (List.range L.length).map (outC (initC L)) := by
    rw [outs]
    refine List.map_congr_left ?_
    intro j _
    rw [Nat.zero_add]
    exact flat_out L ⟨hne, hnd, hall⟩ j
  rw [hmap]
  exact (warmup_end L hne hnd hall).2

/-- Witness for C4: building `[(1, 1), (2, 2)]` and taking the first two
results yields a permutation of `[1, 2]`. -/
theorem claim4_witness :
    GoodL [(1, 1), (2, 2)] ∧
    (outs (buildFlat [(1, 1), (2, 2)]) 0 2).Perm [1, 2] :=
  ⟨⟨by decide, by decide, by decide⟩,
    claim4_initial_burst [(1, 1), (2, 2)] ⟨by decide, by decide, by decide⟩⟩

/-- **C3, counterexample.**  In `chainT` (streams 1, 2 under the root with
weights 1 and 2, stream 3 under stream 1 with weight 1, all active) we
have `S = {1, 2, 3}`, `P = 1 + 2 + 1 = 4` and warm-up `|S| = 3`; the
claim demands result `3 + 4` equal result `3`, but the sequence is
`1, 2, 2, 1, 2, 2, 1, 2, …` (stream 3 is never emitted, the true period
is `3`): result 3 is `1` while result 7 is `2`. -/
theorem claim3_counterexample :
    allBelowActive chainT._root_stream = true ∧
    chainT._streams = [0, 1, 2, 3] ∧
    outT chainT 3 = 1 ∧ outT chainT (3 + 4) = 2 :=
  ⟨rfl, rfl, rfl, rfl⟩

/-- **C3 (amended to flat trees).**  For every nonempty flat configuration
`L` of distinct nonzero ids with weights in `1..=256` inserted directly
under the root, the `next()` sequence is periodic with period
`P = psum L` from position `|L|` on: result `n + k·P` equals result `n`
for every `n ≥ |L|` and every `k`. -/
theorem claim3_periodicity (L : List (Nat × Nat)) (hL : GoodL L)
    (n k : Nat) (hn : L.length ≤ n) :
    outT (buildFlat L) (n + k * psum L) = outT (buildFlat L) n := by
  obtain ⟨hne, hnd, hall⟩ := hL
  rw [flat_out L ⟨hne, hnd, hall⟩, flat_out L ⟨hne, hnd, hall⟩]
  exact outC_period_k L hne hnd hall n k hn

/-- Witness for C3: for `[(1, 1), (2, 2)]` (`P = 3`), result `2 + 1·3`
equals result `2`. -/
theorem claim3_witness :
    GoodL [(1, 1), (2, 2)] ∧ 2 ≤ 2 ∧
    outT (buildFlat [(1, 1), (2, 2)]) (2 + 1 * psum [(1, 1), (2, 2)])
      = outT (buildFlat [(1, 1), (2, 2)]) 2 :=
  ⟨⟨by decide, by decide, by decide⟩, by decide,
    claim3_periodicity [(1, 1), (2, 2)] ⟨by decide, by decide, by decide⟩
      2 1 (by decide)⟩

/-- **C2, counterexample.**  In `chainT` (as in the C3 counterexample,
`P = 4`, warm-up `3`, `W(1) = 1`) the full period of results starting at
position `3` is `[1, 2, 2, 1]`: stream 1 is emitted twice although its
weight is 1, and stream 3 is emitted zero times although its weight
is 1. -/
theorem claim2_counterexample :
    allBelowActive chainT._root_stream = true ∧
    outs chainT 3 4 = [1, 2, 2, 1] ∧
    (outs chainT 3 4).count 1 = 2 :=
  ⟨rfl, rfl, rfl⟩

/-- **C2 (amended to flat trees).**  For every nonempty flat configuration
`L` of distinct nonzero ids with weights in `1..=256` inserted directly
under the root, over any window of `P = psum L` consecutive `next()`
results starting at a position `n ≥ |L|`, each stream is emitted exactly
its weight many times. -/
theorem claim2_weight_share (L : List (Nat × Nat)) (hL : GoodL L)
    (n : Nat) (hn : L.length ≤ n) {c : Nat × Nat} (hc : c ∈ L) :
    (outs (buildFlat L) n (psum L)).count c.1 = c.2 := by
  obtain ⟨hne, hnd, hall⟩ := hL
  have hmap : outs (buildFlat L) n (psum L)
      = (List.range (psum L)).map fun j => outC (initC L) (n + j) := by
    rw [outs]
    refine List.map_congr_left ?_
    intro j _
    exact flat_out L ⟨hne, hnd, hall⟩ (n + j)
  rw [hmap]
  exact outC_window L hne hnd hall n hn hc

/-- Witness for C2: for `[(1, 1), (2, 2)]` (`P = 3`), the window of three
results at position `2` contains id 2 exactly twice. -/
theorem claim2_witness :
    GoodL [(1, 1), (2, 2)] ∧ ((2, 2) : Nat × Nat) ∈ [(1, 1), (2, 2)] ∧
    (outs (buildFlat [(1, 1), (2, 2)]) 2 (psum [(1, 1), (2, 2)])).count 2 = 2 :=
  ⟨⟨by decide, by decide, by decide⟩, by decide,
    @claim2_weight_share [(1, 1), (2, 2)] ⟨by decide, by decide, by decide⟩
      2 (by decide) (2, 2) (by decide)⟩

end PriorityPy
